import Mathlib

/-!
# Verification of the nix-du graph-reduction core

This file gives a shallow embedding of the nix-du dependency-graph
reduction pipeline (src/depgraph.rs, src/reduction.rs) and proves the
specified properties about it.

Byte-string paths (`Vec<u8>` in the Rust source) are modelled as `List Nat`
(one entry per byte); ASCII literals are written through the `bytes`
helper.  Sizes (`u64` in the source) are modelled as `Nat`: every size
property proved here is an equality between sums of input sizes, which
holds over `Nat` exactly and therefore also holds modulo 2^64.
-/

set_option maxHeartbeats 1000000

namespace NixDu

/-- ASCII byte-string literals. -/
def bytes (s : String) : List Nat := s.data.map Char.toNat

/-! ## Node model (src/depgraph.rs) -/

/-- `NodeKind` from src/depgraph.rs. -/
inductive NodeKind : Type
  | path
  | link
  | dummy
  | filteredOut
  | memory
  | temporary
  | transient
  | shared
deriving DecidableEq, Repr

/-- `NodeKind::is_gc_root` from src/depgraph.rs. -/
def NodeKind.is_gc_root : NodeKind → Bool
  | .transient | .link | .memory | .temporary => true
  | .filteredOut | .path | .shared | .dummy => false

/-- `NodeKind::is_transient` from src/depgraph.rs. -/
def NodeKind.is_transient : NodeKind → Bool
  | .memory | .temporary => true
  | .transient | .link | .filteredOut | .path | .shared | .dummy => false

/-- `NodeDescription` from src/depgraph.rs. -/
inductive NodeDescription : Type
  | path (p : List Nat)
  | link (p : List Nat)
  | dummy
  | filteredOut
  | transient
  | memory (p : List Nat)
  | temporary (p : List Nat)
  | shared (p : List Nat)
deriving DecidableEq, Repr

/-- `NodeDescription::kind` from src/depgraph.rs. -/
def NodeDescription.kind : NodeDescription → NodeKind
  | .path _ => .path
  | .link _ => .link
  | .memory _ => .memory
  | .temporary _ => .temporary
  | .shared _ => .shared
  | .dummy => .dummy
  | .filteredOut => .filteredOut
  | .transient => .transient

/-- Result of `DepNode::new` (src/depgraph.rs, lines 170-200).  The Rust
function either returns a classified description, or panics.  There are two
distinct panic sites: the indexing `path[0]` (which panics with an
out-of-bounds error when the path is empty, before any classification rule
is consulted), and the explicit `panic!("Unknown store path type: ...")`
fallthrough. -/
inductive ClassifyResult : Type
  | ok (d : NodeDescription)
  | oobPanic
  | unknownPanic
deriving DecidableEq, Repr

/-- Classification part of `DepNode::new` (src/depgraph.rs, lines 170-200),
translated branch for branch.  `path[0] == b'/'` is rendered as the test
that `"/"` is a prefix, guarded by an explicit emptiness test that models
the out-of-bounds panic of `path[0]` on an empty vector. -/
def classify (path : List Nat) (is_root : Bool) : ClassifyResult :=
  if path = [] then .oobPanic
  else if (bytes "/").isPrefixOf path then
    if (bytes "/proc/").isPrefixOf path then .ok (.memory path)
    else if is_root then .ok (.link path)
    else .ok (.path path)
  else if (bytes "\x7bmemory:").isPrefixOf path || path = bytes "{lsof}" ||
      path = bytes "{censored}" then
    .ok (.memory path)
  else if (bytes "\x7btemp:").isPrefixOf path then .ok (.temporary path)
  else .unknownPanic

/-- The classification rules as the specification states them (spec §4.1 and
claim C7): a decision procedure written from the spec wording, to be compared
with `classify`.  The spec's "well-known process memory prefix" is `/proc/`,
its "bracketed legacy markers for in-memory/unlisted roots" are `{memory:`
(as a leading marker) and the literals `{lsof}` and `{censored}`, and its
"temporary root bracketed marker" is `{temp:`.  `none` is the spec's fatal
classification error. -/
def classifySpec (path : List Nat) (is_root : Bool) : Option NodeKind :=
  if (bytes "/").isPrefixOf path ∧ (bytes "/proc/").isPrefixOf path then some .memory
  else if (bytes "/").isPrefixOf path ∧ is_root = true then some .link
  else if (bytes "/").isPrefixOf path then some .path
  else if (bytes "\x7bmemory:").isPrefixOf path ∨ path = bytes "{lsof}" ∨
      path = bytes "{censored}" then some .memory
  else if (bytes "\x7btemp:").isPrefixOf path then some .temporary
  else none

/-- The kind computed by `classify`, when it succeeds. -/
def classifyKind (path : List Nat) (is_root : Bool) : Option NodeKind :=
  match classify path is_root with
  | .ok d => some d.kind
  | _ => none

theorem classify_agrees_spec (path : List Nat) (is_root : Bool) (h : path ≠ []) :
    classifyKind path is_root = classifySpec path is_root := by
  unfold classifyKind classify classifySpec
  by_cases h1 : bytes "/proc/" <+: path
  · have h2 : bytes "/" <+: path := List.IsPrefix.trans (by decide) h1
    simp [h, h1, h2, List.isPrefixOf_iff_prefix, NodeDescription.kind]
  · by_cases h2 : bytes "/" <+: path
    · cases is_root <;>
        simp [h, h1, h2, List.isPrefixOf_iff_prefix, NodeDescription.kind]
    · by_cases h3m : bytes "\x7bmemory:" <+: path
      · simp [h, h1, h2, h3m, List.isPrefixOf_iff_prefix, NodeDescription.kind]
      · by_cases h3l : path = bytes "{lsof}"
        · subst h3l; cases is_root <;> decide
        · by_cases h3c : path = bytes "{censored}"
          · subst h3c; cases is_root <;> decide
          · by_cases h4 : bytes "\x7btemp:" <+: path
            · simp [h, h1, h2, h3m, h3l, h3c, h4, List.isPrefixOf_iff_prefix,
                NodeDescription.kind]
            · simp [h, h1, h2, h3m, h3l, h3c, h4, List.isPrefixOf_iff_prefix]

end NixDu

namespace NixDu

/-! ## Worklist traversals (petgraph::visit::Bfs and petgraph::visit::Dfs)

`petgraph::graph::Graph` stores the outgoing edges of a node as a linked
list to which `add_edge` prepends, so `neighbors` yields targets in reverse
edge-insertion order; `adjOf` reproduces that.  `Bfs::next` pops the front
of a queue and pushes every not-yet-discovered neighbor, marking it
discovered at push time; `Dfs::next` pops a stack, skips already-discovered
entries, and pushes the not-yet-discovered neighbors of a newly discovered
node.  Both are modelled with an explicit fuel argument; the lemmas below
show that `nodes.length` bounds the fuel needed for the BFS and
`stack + nodes·(edges+1)` for the DFS. -/

/-- Neighbor list of `u` for an edge list, in petgraph iteration order
(reverse insertion order). -/
def adjOf (edges : List (Nat × Nat)) (u : Nat) : List Nat :=
  ((edges.filter (fun e => e.1 == u)).map (fun e => e.2)).reverse

/-- `Bfs` discovery of the yet-undiscovered members of `ns`, in order
(cf. the neighbor loop of `petgraph::visit::Bfs::next`). -/
def enqueue (vis ns : List Nat) : List Nat :=
  ns.foldl (fun acc m => if m ∈ vis ∨ m ∈ acc then acc else acc ++ [m]) []

/-- The visit order of `petgraph::visit::Bfs` from queue `q` with discovered
set `vis`. -/
def bfsAux (adj : Nat → List Nat) : Nat → List Nat → List Nat → List Nat
  | 0, _, _ => []
  | _ + 1, [], _ => []
  | f + 1, a :: qs, vis =>
      let ns := enqueue vis (adj a)
      a :: bfsAux adj f (qs ++ ns) (vis ++ ns)

/-- `petgraph::visit::Bfs::new(g, s)` followed by exhausting `next`. -/
def bfsFrom (adj : Nat → List Nat) (fuel s : Nat) : List Nat :=
  bfsAux adj fuel [s] [s]

/-- The visit order of `petgraph::visit::Dfs` from stack `st` with
discovered set `vis`. -/
def dfsAux (adj : Nat → List Nat) : Nat → List Nat → List Nat → List Nat
  | 0, _, _ => []
  | _ + 1, [], _ => []
  | f + 1, x :: st, vis =>
      if x ∈ vis then dfsAux adj f st vis
      else
        x :: dfsAux adj f
          (((adj x).filter (fun m => decide (m ∉ vis ++ [x]))).reverse ++ st)
          (vis ++ [x])

/-- `petgraph::visit::Dfs::new(g, s)` followed by exhausting `next`. -/
def dfsFrom (adj : Nat → List Nat) (fuel s : Nat) : List Nat :=
  dfsAux adj fuel [s] []

/-- Reachability along `adj` by a path all of whose vertices after the
start avoid `vis`. -/
inductive ReachOut (adj : Nat → List Nat) (vis : List Nat) : Nat → Nat → Prop
  | refl (x : Nat) : ReachOut adj vis x x
  | step {x y z : Nat} : ReachOut adj vis x y → z ∈ adj y → z ∉ vis →
      ReachOut adj vis x z

/-- Plain reachability: walks avoiding nothing. -/
def Reaches (adj : Nat → List Nat) (u v : Nat) : Prop :=
  ReachOut adj [] u v

theorem ReachOut.mono {adj : Nat → List Nat} {vis vis₀ : List Nat} {x v : Nat}
    (h : ReachOut adj vis x v) (hsub : ∀ a, a ∈ vis₀ → a ∈ vis) :
    ReachOut adj vis₀ x v := by
  induction h with
  | refl => exact .refl _
  | step _ hz hnz ih => exact .step ih hz (fun hmem => hnz (hsub _ hmem))

theorem ReachOut.trans {adj : Nat → List Nat} {vis : List Nat} {a b c : Nat}
    (h₁ : ReachOut adj vis a b) (h₂ : ReachOut adj vis b c) :
    ReachOut adj vis a c := by
  induction h₂ with
  | refl => exact h₁
  | step _ hz hnz ih => exact .step ih hz hnz

theorem ReachOut.toReaches {adj : Nat → List Nat} {vis : List Nat} {x v : Nat}
    (h : ReachOut adj vis x v) : Reaches adj x v :=
  h.mono (fun _ hmem => absurd hmem (List.not_mem_nil _))

theorem ReachOut.head_decomp {adj : Nat → List Nat} {vis : List Nat} {x v : Nat}
    (h : ReachOut adj vis x v) :
    x = v ∨ ∃ z, z ∈ adj x ∧ z ∉ vis ∧ ReachOut adj vis z v := by
  induction h with
  | refl => exact Or.inl rfl
  | step hxy hz hnz ih =>
    rcases ih with rfl | ⟨w, hw, hnw, hwv⟩
    · exact Or.inr ⟨_, hz, hnz, .refl _⟩
    · exact Or.inr ⟨w, hw, hnw, .step hwv hz hnz⟩

theorem ReachOut.last_exit {adj : Nat → List Nat} {vis S : List Nat} {x v : Nat}
    (h : ReachOut adj vis x v) (hv : v ∉ S) :
    (∃ y, y ∈ S ∧ ReachOut adj (vis ++ S) y v) ∨ ReachOut adj (vis ++ S) x v := by
  induction h with
  | refl => exact Or.inr (.refl _)
  | step hxy hz hnz ih =>
    rename_i y' z'
    have hznotin : z' ∉ vis ++ S := by
      intro hmem
      rcases List.mem_append.mp hmem with h1 | h1
      · exact hnz h1
      · exact hv h1
    by_cases hy : y' ∈ S
    · exact Or.inl ⟨y', hy, .step (.refl _) hz hznotin⟩
    · rcases ih hy with ⟨w, hw, hwv⟩ | hxv
      · exact Or.inl ⟨w, hw, .step hwv hz hznotin⟩
      · exact Or.inr (.step hxv hz hznotin)

theorem ReachOut.end_not_mem {adj : Nat → List Nat} {vis : List Nat} {x v : Nat}
    (h : ReachOut adj vis x v) (hx : x ∉ vis) : v ∉ vis := by
  cases h with
  | refl => exact hx
  | step _ _ hnz => exact hnz

end NixDu

namespace NixDu

theorem enqueue_go_mem (vis ns acc : List Nat) (v : Nat) :
    v ∈ ns.foldl (fun acc m => if m ∈ vis ∨ m ∈ acc then acc else acc ++ [m]) acc ↔
      v ∈ acc ∨ (v ∈ ns ∧ v ∉ vis) := by
  induction ns generalizing acc with
  | nil => simp
  | cons n ns ih =>
    simp only [List.foldl_cons]
    by_cases hn : n ∈ vis ∨ n ∈ acc
    · rw [if_pos hn, ih]
      simp only [List.mem_cons]
      constructor
      · rintro (h | ⟨h1, h2⟩) <;> tauto
      · rintro (h | ⟨rfl | h1, h2⟩) <;> tauto
    · rw [if_neg hn, ih]
      push_neg at hn
      simp only [List.mem_append, List.mem_cons, List.mem_singleton,
        List.not_mem_nil, or_false]
      constructor
      · rintro ((h | rfl) | ⟨h1, h2⟩) <;> tauto
      · rintro (h | ⟨rfl | h1, h2⟩) <;> tauto

theorem enqueue_go_nodup (vis ns : List Nat) (acc : List Nat) (h : acc.Nodup) :
    (ns.foldl (fun acc m => if m ∈ vis ∨ m ∈ acc then acc else acc ++ [m]) acc).Nodup := by
  induction ns generalizing acc with
  | nil => exact h
  | cons n ns ih =>
    simp only [List.foldl_cons]
    by_cases hn : n ∈ vis ∨ n ∈ acc
    · rw [if_pos hn]; exact ih _ h
    · rw [if_neg hn]
      push_neg at hn
      refine ih _ ?_
      rw [List.nodup_append]
      exact ⟨h, List.nodup_singleton n, by
        intro a ha hb
        rw [List.mem_singleton] at hb
        exact hn.2 (hb ▸ ha)⟩

theorem mem_enqueue (vis ns : List Nat) (v : Nat) :
    v ∈ enqueue vis ns ↔ v ∈ ns ∧ v ∉ vis := by
  unfold enqueue
  rw [enqueue_go_mem]
  simp

theorem enqueue_nodup (vis ns : List Nat) : (enqueue vis ns).Nodup :=
  enqueue_go_nodup vis ns [] List.nodup_nil

theorem bfsAux_subset (adj : Nat → List Nat) :
    ∀ (f : Nat) (q vis : List Nat) (v : Nat), v ∈ bfsAux adj f q vis →
      v ∈ q ∨ v ∉ vis := by
  intro f
  induction f with
  | zero => intro q vis v hv; simp [bfsAux] at hv
  | succ f ih =>
    intro q vis v hv
    match q with
    | [] => simp [bfsAux] at hv
    | a :: qs =>
      simp only [bfsAux, List.mem_cons] at hv
      rcases hv with rfl | hv
      · exact Or.inl (List.mem_cons_self _ _)
      · rcases ih _ _ _ hv with h | h
        · rcases List.mem_append.mp h with h | h
          · exact Or.inl (List.mem_cons_of_mem a h)
          · exact Or.inr ((mem_enqueue _ _ _).mp h).2
        · exact Or.inr (fun hmem => h (List.mem_append_left _ hmem))

theorem bfsAux_nodup (adj : Nat → List Nat) :
    ∀ (f : Nat) (q vis : List Nat), q.Nodup → (∀ x ∈ q, x ∈ vis) →
      (bfsAux adj f q vis).Nodup := by
  intro f
  induction f with
  | zero => intro q vis _ _; simp [bfsAux]
  | succ f ih =>
    intro q vis hq hsub
    match q with
    | [] => simp [bfsAux]
    | a :: qs =>
      simp only [bfsAux]
      rw [List.nodup_cons]
      have hns : ∀ m ∈ enqueue vis (adj a), m ∉ vis :=
        fun m hm => ((mem_enqueue _ _ _).mp hm).2
      constructor
      · intro ha
        rcases bfsAux_subset adj _ _ _ _ ha with h | h
        · rcases List.mem_append.mp h with h | h
          · exact (List.nodup_cons.mp hq).1 h
          · exact hns _ h (hsub a (List.mem_cons_self a qs))
        · exact h (List.mem_append_left _ (hsub a (List.mem_cons_self a qs)))
      · refine ih _ _ ?_ ?_
        · rw [List.nodup_append]
          refine ⟨(List.nodup_cons.mp hq).2, enqueue_nodup _ _, ?_⟩
          intro x hx hx2
          exact hns _ hx2 (hsub x (List.mem_cons_of_mem a hx))
        · intro x hx
          rcases List.mem_append.mp hx with h | h
          · exact List.mem_append_left _ (hsub x (List.mem_cons_of_mem a h))
          · exact List.mem_append_right _ h

theorem nodup_bounded_length {l : List Nat} {N : Nat} (hnd : l.Nodup)
    (hb : ∀ x ∈ l, x < N) : l.length ≤ N := by
  have h1 : l.toFinset.card = l.length := List.toFinset_card_of_nodup hnd
  have h2 : l.toFinset ⊆ Finset.range N := by
    intro x hx
    rw [Finset.mem_range]
    exact hb x (List.mem_toFinset.mp hx)
  have := Finset.card_le_card h2
  rw [h1, Finset.card_range] at this
  exact this

theorem bfsAux_mem_iff (adj : Nat → List Nat) (N : Nat)
    (hadj : ∀ u m, m ∈ adj u → m < N) :
    ∀ (f : Nat) (q vis : List Nat), (∀ x ∈ q, x ∈ vis) → vis.Nodup →
    (∀ x ∈ vis, x < N) → q.length + (N - vis.length) ≤ f →
    ∀ v, (v ∈ bfsAux adj f q vis ↔ ∃ x, x ∈ q ∧ ReachOut adj vis x v) := by
  intro f
  induction f with
  | zero =>
    intro q vis _ _ _ hfuel v
    have hq : q = [] := List.eq_nil_of_length_eq_zero (by omega)
    subst hq
    simp [bfsAux]
  | succ f ih =>
    intro q vis hsub hnd hb hfuel v
    match q with
    | [] => simp [bfsAux]
    | a :: qs =>
      simp only [bfsAux, List.mem_cons]
      have hns_mem : ∀ m, m ∈ enqueue vis (adj a) ↔ m ∈ adj a ∧ m ∉ vis :=
        fun m => mem_enqueue _ _ m
      set ns := enqueue vis (adj a) with hns_def
      have hsub' : ∀ x ∈ qs ++ ns, x ∈ vis ++ ns := by
        intro x hx
        rcases List.mem_append.mp hx with h | h
        · exact List.mem_append_left _ (hsub x (List.mem_cons_of_mem a h))
        · exact List.mem_append_right _ h
      have hnd' : (vis ++ ns).Nodup := by
        rw [List.nodup_append]
        refine ⟨hnd, enqueue_nodup _ _, ?_⟩
        intro x hx hx2
        exact ((hns_mem x).mp hx2).2 hx
      have hb' : ∀ x ∈ vis ++ ns, x < N := by
        intro x hx
        rcases List.mem_append.mp hx with h | h
        · exact hb x h
        · exact hadj a x ((hns_mem x).mp h).1
      have hlenle : (vis ++ ns).length ≤ N := nodup_bounded_length hnd' hb'
      have hfuel' : (qs ++ ns).length + (N - (vis ++ ns).length) ≤ f := by
        have h1 : (vis ++ ns).length = vis.length + ns.length := List.length_append _ _
        have h2 : (qs ++ ns).length = qs.length + ns.length := List.length_append _ _
        have h3 : (a :: qs).length = qs.length + 1 := List.length_cons _ _
        rw [h1] at hlenle
        rw [h3] at hfuel
        rw [h1, h2]
        omega
      have hrest := ih (qs ++ ns) (vis ++ ns) hsub' hnd' hb' hfuel'
      constructor
      · intro hv
        rcases hv with rfl | hv
        · exact ⟨v, Or.inl rfl, .refl v⟩
        · rcases (hrest v).mp hv with ⟨x, hx, hreach⟩
          have hreach0 : ReachOut adj vis x v :=
            hreach.mono (fun b hb2 => List.mem_append_left _ hb2)
          rcases List.mem_append.mp hx with hx | hx
          · exact ⟨x, Or.inr hx, hreach0⟩
          · have hxa := (hns_mem x).mp hx
            exact ⟨a, Or.inl rfl,
              ReachOut.trans (.step (.refl a) hxa.1 hxa.2) hreach0⟩
      · rintro ⟨x, hx, hreach⟩
        by_cases hva : v = a
        · exact Or.inl hva
        by_cases hvns : v ∈ ns
        · exact Or.inr ((hrest v).mpr ⟨v, List.mem_append_right _ hvns, .refl v⟩)
        rcases hreach.last_exit (S := ns) hvns with ⟨y, hy, hyv⟩ | hxv
        · exact Or.inr ((hrest v).mpr ⟨y, List.mem_append_right _ hy, hyv⟩)
        · rcases hx with rfl | hxqs
          · rcases hxv.head_decomp with rfl | ⟨z, hz, hnz, hzv⟩
            · exact Or.inl rfl
            · exfalso
              refine hnz (List.mem_append_right _ ((hns_mem z).mpr ⟨hz, ?_⟩))
              intro hzvis
              exact hnz (List.mem_append_left _ hzvis)
          · exact Or.inr ((hrest v).mpr ⟨x, List.mem_append_left _ hxqs, hxv⟩)

theorem mem_bfsFrom_iff (adj : Nat → List Nat) (N : Nat)
    (hadj : ∀ u m, m ∈ adj u → m < N) (s : Nat) (hs : s < N)
    (f : Nat) (hf : N ≤ f) (v : Nat) :
    v ∈ bfsFrom adj f s ↔ Reaches adj s v := by
  unfold bfsFrom
  have h := bfsAux_mem_iff adj N hadj f [s] [s]
    (fun x hx => hx) (List.nodup_singleton s)
    (fun x hx => by rw [List.mem_singleton] at hx; omega)
    (by simp only [List.length_singleton]; omega) v
  rw [h]
  constructor
  · rintro ⟨x, hx, hreach⟩
    rw [List.mem_singleton] at hx
    subst hx
    exact hreach.toReaches
  · intro hreach
    by_cases hvs : v = s
    · exact ⟨s, List.mem_singleton_self s, hvs ▸ .refl v⟩
    · rcases hreach.last_exit (S := [s]) (by simpa using hvs) with ⟨y, hy, hyv⟩ | hsv
      · rw [List.mem_singleton] at hy
        subst hy
        exact ⟨y, List.mem_singleton_self y, by simpa using hyv⟩
      · exact ⟨s, List.mem_singleton_self s, by simpa using hsv⟩

end NixDu

namespace NixDu

theorem dfsAux_not_mem_vis (adj : Nat → List Nat) :
    ∀ (f : Nat) (st vis : List Nat) (v : Nat), v ∈ dfsAux adj f st vis → v ∉ vis := by
  intro f
  induction f with
  | zero => intro st vis v hv; simp [dfsAux] at hv
  | succ f ih =>
    intro st vis v hv
    match st with
    | [] => simp [dfsAux] at hv
    | x :: st' =>
      simp only [dfsAux] at hv
      by_cases hx : x ∈ vis
      · rw [if_pos hx] at hv
        exact ih _ _ _ hv
      · rw [if_neg hx] at hv
        rcases List.mem_cons.mp hv with rfl | hv
        · exact hx
        · intro hmem
          exact ih _ _ _ hv (List.mem_append_left _ hmem)

theorem dfsAux_nodup (adj : Nat → List Nat) :
    ∀ (f : Nat) (st vis : List Nat), (dfsAux adj f st vis).Nodup := by
  intro f
  induction f with
  | zero => intro st vis; simp [dfsAux]
  | succ f ih =>
    intro st vis
    match st with
    | [] => simp [dfsAux]
    | x :: st' =>
      simp only [dfsAux]
      by_cases hx : x ∈ vis
      · rw [if_pos hx]; exact ih _ _
      · rw [if_neg hx]
        rw [List.nodup_cons]
        refine ⟨?_, ih _ _⟩
        intro hmem
        exact dfsAux_not_mem_vis adj _ _ _ _ hmem (List.mem_append_right _ (List.mem_singleton_self x))

theorem dfsAux_mem_iff (adj : Nat → List Nat) (N A : Nat)
    (hadj : ∀ u m, m ∈ adj u → m < N) (hA : ∀ u, (adj u).length ≤ A) :
    ∀ (f : Nat) (st vis : List Nat), vis.Nodup →
    (∀ x ∈ vis, x < N) → (∀ x ∈ st, x < N) →
    st.length + (N - vis.length) * (A + 1) ≤ f →
    ∀ v, (v ∈ dfsAux adj f st vis ↔ ∃ x, x ∈ st ∧ x ∉ vis ∧ ReachOut adj vis x v) := by
  intro f
  induction f with
  | zero =>
    intro st vis _ _ _ hfuel v
    have hst : st = [] := List.eq_nil_of_length_eq_zero (by omega)
    subst hst
    simp [dfsAux]
  | succ f ih =>
    intro st vis hnd hbv hbs hfuel v
    match st with
    | [] => simp [dfsAux]
    | x :: st' =>
      simp only [dfsAux]
      by_cases hx : x ∈ vis
      · rw [if_pos hx]
        have hfuel' : st'.length + (N - vis.length) * (A + 1) ≤ f := by
          have h3 : (x :: st').length = st'.length + 1 := List.length_cons _ _
          rw [h3] at hfuel
          omega
        rw [ih st' vis hnd hbv (fun y hy => hbs y (List.mem_cons_of_mem x hy)) hfuel' v]
        constructor
        · rintro ⟨y, hy, hyn, hr⟩
          exact ⟨y, List.mem_cons_of_mem x hy, hyn, hr⟩
        · rintro ⟨y, hy, hyn, hr⟩
          rcases List.mem_cons.mp hy with rfl | hy
          · exact absurd hx hyn
          · exact ⟨y, hy, hyn, hr⟩
      · rw [if_neg hx]
        have hxN : x < N := hbs x (List.mem_cons_self _ _)
        set vis' := vis ++ [x] with hvis'
        set pushed := ((adj x).filter (fun m => decide (m ∉ vis ++ [x]))).reverse
          with hpushed
        have hmem_pushed : ∀ m, m ∈ pushed ↔ m ∈ adj x ∧ m ∉ vis' := by
          intro m
          rw [hpushed, List.mem_reverse, List.mem_filter]
          simp [hvis']
        have hnd' : vis'.Nodup := by
          rw [hvis', List.nodup_append]
          exact ⟨hnd, List.nodup_singleton x, by
            intro a ha hb
            rw [List.mem_singleton] at hb
            exact hx (hb ▸ ha)⟩
        have hbv' : ∀ y ∈ vis', y < N := by
          intro y hy
          rcases List.mem_append.mp hy with h | h
          · exact hbv y h
          · rw [List.mem_singleton] at h; omega
        have hbs' : ∀ y ∈ pushed ++ st', y < N := by
          intro y hy
          rcases List.mem_append.mp hy with h | h
          · exact hadj x y ((hmem_pushed y).mp h).1
          · exact hbs y (List.mem_cons_of_mem x h)
        have hlen' : vis'.length ≤ N := nodup_bounded_length hnd' hbv'
        have hfuel' : (pushed ++ st').length + (N - vis'.length) * (A + 1) ≤ f := by
          have h1 : (pushed ++ st').length = pushed.length + st'.length :=
            List.length_append _ _
          have h2 : vis'.length = vis.length + 1 := by
            rw [hvis', List.length_append, List.length_singleton]
          have h3 : (x :: st').length = st'.length + 1 := List.length_cons _ _
          have h4 : pushed.length ≤ A := by
            rw [hpushed, List.length_reverse]
            exact le_trans (List.length_filter_le _ _) (hA x)
          have h5 : N - vis.length = (N - vis'.length) + 1 := by omega
          have h6 : (N - vis.length) * (A + 1) = (N - vis'.length) * (A + 1) + (A + 1) := by
            rw [h5, Nat.add_mul, Nat.one_mul]
          rw [h1]
          rw [h3, h6] at hfuel
          omega
        have hrest := ih (pushed ++ st') vis' hnd' hbv' hbs' hfuel'
        constructor
        · intro hv
          rcases List.mem_cons.mp hv with rfl | hv
          · exact ⟨v, List.mem_cons_self _ _, hx, .refl v⟩
          · rcases (hrest v).mp hv with ⟨y, hy, hyn, hr⟩
            have hr0 : ReachOut adj vis y v :=
              hr.mono (fun b hb2 => List.mem_append_left _ hb2)
            have hyn0 : y ∉ vis := fun h => hyn (List.mem_append_left _ h)
            rcases List.mem_append.mp hy with h | h
            · have hya := (hmem_pushed y).mp h
              exact ⟨x, List.mem_cons_self _ _, hx,
                ReachOut.trans (.step (.refl x) hya.1 hyn0) hr0⟩
            · exact ⟨y, List.mem_cons_of_mem x h, hyn0, hr0⟩
        · rintro ⟨y, hy, hyn, hr⟩
          by_cases hvx : v = x
          · exact hvx ▸ List.mem_cons_self _ _
          have hxcase : ReachOut adj vis' x v → v ∈ x :: dfsAux adj f (pushed ++ st') vis' := by
            intro hxv
            rcases hxv.head_decomp with rfl | ⟨z, hz, hnz, hzv⟩
            · exact absurd rfl hvx
            · refine List.mem_cons_of_mem x ((hrest v).mpr ⟨z, ?_, hnz, hzv⟩)
              exact List.mem_append_left _ ((hmem_pushed z).mpr ⟨hz, hnz⟩)
          have hvnx : v ∉ [x] := by
            rw [List.mem_singleton]; exact hvx
          by_cases hyx : y = x
          · rw [hyx] at hr
            rcases hr.last_exit (S := [x]) hvnx with ⟨w, hw, hwv⟩ | hyv
            · rw [List.mem_singleton] at hw
              subst hw
              exact hxcase hwv
            · exact hxcase hyv
          · rcases hr.last_exit (S := [x]) hvnx with ⟨w, hw, hwv⟩ | hyv
            · rw [List.mem_singleton] at hw
              subst hw
              exact hxcase hwv
            · have hyst : y ∈ st' := by
                rcases List.mem_cons.mp hy with h | h
                · exact absurd h hyx
                · exact h
              have hyn' : y ∉ vis' := by
                intro h
                rcases List.mem_append.mp h with h | h
                · exact hyn h
                · rw [List.mem_singleton] at h; exact hyx h
              exact List.mem_cons_of_mem x
                ((hrest v).mpr ⟨y, List.mem_append_right _ hyst, hyn', hyv⟩)

theorem mem_dfsFrom_iff (adj : Nat → List Nat) (N A : Nat)
    (hadj : ∀ u m, m ∈ adj u → m < N) (hA : ∀ u, (adj u).length ≤ A)
    (s : Nat) (hs : s < N) (f : Nat) (hf : 1 + N * (A + 1) ≤ f) (v : Nat) :
    v ∈ dfsFrom adj f s ↔ Reaches adj s v := by
  unfold dfsFrom
  have h := dfsAux_mem_iff adj N A hadj hA f [s] []
    List.nodup_nil (by intro x hx; simp at hx)
    (fun x hx => by rw [List.mem_singleton] at hx; omega)
    (by simpa using hf) v
  rw [h]
  constructor
  · rintro ⟨x, hx, _, hreach⟩
    rw [List.mem_singleton] at hx
    subst hx
    exact hreach
  · intro hreach
    exact ⟨s, List.mem_singleton_self s, List.not_mem_nil s, hreach⟩

end NixDu

namespace NixDu

/-! ## The reduction-stage node model

src/reduction.rs and src/main.rs operate on the repository's earlier node
model: a struct `Derivation` with the fields `path`, `size` and `is_root`
(the field set is visible in the struct literals of src/reduction.rs,
lines 23-27 and 219-223), and a `DepInfos` holding a
`petgraph::graph::Graph<Derivation, ()>` together with the list `roots` of
root node indices (destructured in src/reduction.rs, lines 19-22).  The
impl blocks of this model (`Derivation::dummy`,
`Derivation::is_transient_root`, `DepInfos::new_from_graph`,
`DepInfos::reachable_size`) are not part of the given sources -- only
their call sites are -- so those operations are modelled from the spec
where indicated. -/

/-- The `Derivation` node weight of src/reduction.rs. -/
structure Derivation where
  path : List Nat
  size : Nat
  is_root : Bool
deriving DecidableEq, Repr

/-- Modelled from the spec: the missing `Derivation::dummy` constructor.
Per spec §3 a Dummy node carries no payload and (per §4.4/§4.5, where
dummy weights swapped into the consumed graph must not contribute to any
size sum) has size zero and is not a root. -/
def Derivation.dummy : Derivation := ⟨bytes "{dummy}", 0, false⟩

/-- The kind the §4.1 classification assigns to this node, tested for
Memory/Temporary (spec §3: `is_transient` holds for Memory and Temporary
only). -/
def Derivation.kindIsTransient (d : Derivation) : Bool :=
  match classifyKind d.path d.is_root with
  | some k => k.is_transient
  | none => false

/-- Modelled from the spec: the missing `Derivation::is_transient_root`.
Per spec §2/§4.3 and the glossary, a transient root is a GC root which is
in-memory or temporary, i.e. a root node whose classified kind is Memory
or Temporary. -/
def Derivation.is_transient_root (d : Derivation) : Bool :=
  d.is_root && d.kindIsTransient

/-- `petgraph::graph::Graph<Derivation, ()>`: nodes in insertion order
(indices are positions), edges as (source, target) pairs in insertion
order.  `add_node` appends and returns the fresh index; `add_edge`
appends; `update_edge` appends only when the pair is absent. -/
structure DepGraph where
  nodes : List Derivation
  edges : List (Nat × Nat)
deriving DecidableEq, Repr

/-- Node weight at an index (panics in Rust when out of range; every use
below is in range for well-formed inputs). -/
def DepGraph.node (g : DepGraph) (i : Nat) : Derivation :=
  g.nodes.getD i Derivation.dummy

/-- petgraph neighbor iteration order for this graph. -/
def DepGraph.adj (g : DepGraph) : Nat → List Nat := adjOf g.edges

/-- The `DepInfos` of src/reduction.rs: the graph plus the list of root
node indices. -/
structure DepInfos where
  graph : DepGraph
  roots : List Nat
deriving DecidableEq, Repr

/-- Well-formedness, the invariant `roots_attr_coherent` of the repository:
edge endpoints and roots are in range, `roots` lists exactly the node
indices whose weight carries `is_root`, each once. -/
def DepInfos.WF (di : DepInfos) : Prop :=
  (∀ e ∈ di.graph.edges, e.1 < di.graph.nodes.length ∧ e.2 < di.graph.nodes.length) ∧
  (∀ r ∈ di.roots, r < di.graph.nodes.length) ∧
  di.roots.Nodup ∧
  (∀ i < di.graph.nodes.length, (i ∈ di.roots ↔ (di.graph.node i).is_root = true))

instance (di : DepInfos) : Decidable di.WF := by
  unfold DepInfos.WF
  infer_instance

/-- A node reachable from some root by directed edges. -/
def DepInfos.RootReachable (di : DepInfos) (v : Nat) : Prop :=
  ∃ r ∈ di.roots, Reaches di.graph.adj r v

/-- Modelled from the spec: `DepInfos::reachable_size` (§4.2), the sum of
the sizes of all nodes visited by a traversal from the roots, i.e. of all
nodes reachable from some root, each counted once. -/
def DepInfos.reachable_size (di : DepInfos) : Nat :=
  (((List.range di.graph.nodes.length).filter
    (fun v => di.roots.any
      (fun r => (bfsFrom di.graph.adj di.graph.nodes.length r).contains v))).map
        (fun v => (di.graph.node v).size)).sum

/-- `DepInfos::size` (total size): the sum of the sizes of all nodes. -/
def DepInfos.size (di : DepInfos) : Nat :=
  (di.graph.nodes.map (fun d => d.size)).sum

/-- Modelled from the spec: `DepInfos::new_from_graph`, which packages a
freshly built graph as a `DepInfos`; the roots are the nodes flagged
`is_root` (the coherence invariant checked by `roots_attr_coherent`). -/
def DepInfos.new_from_graph (g : DepGraph) : DepInfos :=
  ⟨g, (List.range g.nodes.length).filter (fun i => (g.node i).is_root)⟩

end NixDu

namespace NixDu

theorem mem_adjOf (edges : List (Nat × Nat)) (u m : Nat) :
    m ∈ adjOf edges u ↔ (u, m) ∈ edges := by
  unfold adjOf
  rw [List.mem_reverse, List.mem_map]
  constructor
  · rintro ⟨e, he, rfl⟩
    rw [List.mem_filter] at he
    have h1 : e.1 = u := by simpa using he.2
    have : e = (u, e.2) := by
      cases e; simp at h1; simp [h1]
    exact this ▸ he.1
  · intro h
    exact ⟨(u, m), List.mem_filter.mpr ⟨h, by simp⟩, rfl⟩

theorem DepGraph.mem_adj (g : DepGraph) (u m : Nat) :
    m ∈ g.adj u ↔ (u, m) ∈ g.edges :=
  mem_adjOf g.edges u m

theorem DepGraph.node_set_ne (nodes : List Derivation)
    (edges edges2 : List (Nat × Nat)) (i j : Nat) (d : Derivation)
    (h : i ≠ j) :
    (DepGraph.mk (nodes.set i d) edges2).node j =
      (DepGraph.mk nodes edges).node j := by
  unfold DepGraph.node
  rw [List.getD_eq_getElem?_getD, List.getD_eq_getElem?_getD]
  rw [List.getElem?_set_ne h]

theorem DepGraph.node_set_self (nodes : List Derivation)
    (edges : List (Nat × Nat)) (i : Nat) (d : Derivation)
    (h : i < nodes.length) :
    (DepGraph.mk (nodes.set i d) edges).node i = d := by
  unfold DepGraph.node
  rw [List.getD_eq_getElem?_getD, List.getElem?_set_self h]
  rfl

theorem DepGraph.node_append_lt (nodes extra : List Derivation)
    (edges : List (Nat × Nat)) (i : Nat) (h : i < nodes.length) :
    (DepGraph.mk (nodes ++ extra) edges).node i =
      (DepGraph.mk nodes edges).node i := by
  unfold DepGraph.node
  rw [List.getD_eq_getElem?_getD, List.getD_eq_getElem?_getD,
    List.getElem?_append]
  rw [if_pos h]

theorem DepGraph.node_concat_self (nodes : List Derivation)
    (edges : List (Nat × Nat)) (d : Derivation) :
    (DepGraph.mk (nodes ++ [d]) edges).node nodes.length = d := by
  unfold DepGraph.node
  rw [List.getD_eq_getElem?_getD, List.getElem?_concat_length]
  rfl

end NixDu

namespace NixDu

/-! ## Transient Merger (src/reduction.rs, lines 18-45) -/

def TRANSIENT_ROOT_NAME : List Nat := bytes "{memory/temp}"

def FILTERED_ROOT_NAME : List Nat := bytes "{filtered out}"

/-- The body of the `filter` closure of `merge_transient_roots`: a
transient root gets an edge from the fake root, loses its `is_root` flag
and is dropped from the root list; any other root is kept. -/
def mergeStep (fake_root_idx : Nat) (s : DepGraph × List Nat) (idx : Nat) :
    DepGraph × List Nat :=
  if (s.1.node idx).is_transient_root then
    (⟨s.1.nodes.set idx { s.1.node idx with is_root := false },
      s.1.edges ++ [(fake_root_idx, idx)]⟩, s.2)
  else (s.1, s.2 ++ [idx])

/-- `merge_transient_roots` from src/reduction.rs (lines 18-45): add the
fake `{memory/temp}` root node, rewire every transient root below it, and
append it to the root list. -/
def merge_transient_roots (di : DepInfos) : DepInfos :=
  let fake_root : Derivation := ⟨TRANSIENT_ROOT_NAME, 0, true⟩
  let fake_root_idx := di.graph.nodes.length
  let s := di.roots.foldl (mergeStep fake_root_idx)
    (⟨di.graph.nodes ++ [fake_root], di.graph.edges⟩, [])
  ⟨s.1, s.2 ++ [fake_root_idx]⟩

theorem merge_transient_roots_graph (di : DepInfos) :
    (merge_transient_roots di).graph =
      (di.roots.foldl (mergeStep di.graph.nodes.length)
        (⟨di.graph.nodes ++ [⟨TRANSIENT_ROOT_NAME, 0, true⟩],
          di.graph.edges⟩, [])).1 := rfl

theorem merge_transient_roots_roots (di : DepInfos) :
    (merge_transient_roots di).roots =
      (di.roots.foldl (mergeStep di.graph.nodes.length)
        (⟨di.graph.nodes ++ [⟨TRANSIENT_ROOT_NAME, 0, true⟩],
          di.graph.edges⟩, [])).2 ++ [di.graph.nodes.length] := rfl

theorem mergeStep_fold_spec (di : DepInfos) :
    ∀ (l : List Nat) (s : DepGraph × List Nat), l.Nodup →
    (∀ i ∈ l, s.1.node i = di.graph.node i) →
    ((l.foldl (mergeStep di.graph.nodes.length) s).1.nodes.length
        = s.1.nodes.length) ∧
    (∀ j, j ∉ l →
      (l.foldl (mergeStep di.graph.nodes.length) s).1.node j = s.1.node j) ∧
    (∀ j ∈ l,
      (l.foldl (mergeStep di.graph.nodes.length) s).1.node j =
        (if (di.graph.node j).is_transient_root then
          { di.graph.node j with is_root := false } else s.1.node j)) ∧
    ((l.foldl (mergeStep di.graph.nodes.length) s).1.edges =
      s.1.edges ++
        (l.filter (fun i => (di.graph.node i).is_transient_root)).map
          (fun i => (di.graph.nodes.length, i))) ∧
    ((l.foldl (mergeStep di.graph.nodes.length) s).2 =
      s.2 ++ l.filter (fun i => ¬ (di.graph.node i).is_transient_root)) := by
  intro l
  induction l with
  | nil =>
    intro s _ _
    simp
  | cons a l ih =>
    intro s hnd huntouched
    have hanl : a ∉ l := (List.nodup_cons.mp hnd).1
    have ha : s.1.node a = di.graph.node a :=
      huntouched a (List.mem_cons_self _ _)
    have hstep : ∀ i, i ≠ a →
        (mergeStep di.graph.nodes.length s a).1.node i = s.1.node i := by
      intro i hi
      unfold mergeStep
      by_cases ht : (s.1.node a).is_transient_root
      · rw [if_pos ht]
        exact DepGraph.node_set_ne _ _ _ _ _ _ (fun h => hi h.symm)
      · rw [if_neg ht]
    have huntouched' : ∀ i ∈ l, (mergeStep di.graph.nodes.length s a).1.node i
        = di.graph.node i := by
      intro i hi
      rw [hstep i (fun h => hanl (h ▸ hi))]
      exact huntouched i (List.mem_cons_of_mem _ hi)
    have hlen : (mergeStep di.graph.nodes.length s a).1.nodes.length
        = s.1.nodes.length := by
      unfold mergeStep
      by_cases ht : (s.1.node a).is_transient_root
      · rw [if_pos ht]
        exact List.length_set _ _ _
      · rw [if_neg ht]
    obtain ⟨ih1, ih2, ih3, ih4, ih5⟩ :=
      ih (mergeStep di.graph.nodes.length s a) (List.nodup_cons.mp hnd).2
        huntouched'
    rw [List.foldl_cons]
    refine ⟨by rw [ih1, hlen], ?_, ?_, ?_, ?_⟩
    · intro j hj
      rw [ih2 j (fun h => hj (List.mem_cons_of_mem _ h))]
      exact hstep j (fun h => hj (h ▸ List.mem_cons_self _ _))
    · intro j hj
      rcases List.mem_cons.mp hj with rfl | hj
      · rw [ih2 j hanl]
        unfold mergeStep
        rw [ha]
        by_cases ht : (di.graph.node j).is_transient_root
        · rw [if_pos ht, if_pos ht]
          refine DepGraph.node_set_self _ _ _ _ ?_
          by_cases hlt : j < s.1.nodes.length
          · exact hlt
          · exfalso
            have hd : s.1.node j = Derivation.dummy := by
              unfold DepGraph.node
              rw [List.getD_eq_getElem?_getD, List.getElem?_eq_none (by omega)]
              rfl
            rw [hd] at ha
            rw [← ha, Derivation.dummy] at ht
            simp [Derivation.is_transient_root] at ht
        · rw [if_neg ht, if_neg ht, ha]
      · rw [ih3 j hj]
        by_cases ht : (di.graph.node j).is_transient_root
        · rw [if_pos ht, if_pos ht]
        · rw [if_neg ht, if_neg ht]
          exact hstep j (fun h => hanl (h ▸ hj))
    · rw [ih4]
      unfold mergeStep
      rw [ha, List.filter_cons]
      by_cases ht : (di.graph.node a).is_transient_root
      · rw [if_pos ht]
        simp [ht, List.append_assoc]
      · rw [if_neg ht]
        simp [ht]
    · rw [ih5]
      unfold mergeStep
      rw [ha, List.filter_cons]
      by_cases ht : (di.graph.node a).is_transient_root
      · rw [if_pos ht]
        simp [ht]
      · rw [if_neg ht]
        simp [ht, List.append_assoc]

end NixDu

namespace NixDu

theorem merge_fold_keeps_fake (n : Nat) :
    ∀ (l : List Nat) (s : DepGraph × List Nat),
    s.1.node n = ⟨TRANSIENT_ROOT_NAME, 0, true⟩ →
    s.1.nodes.length = n + 1 →
    (l.foldl (mergeStep n) s).1.node n = ⟨TRANSIENT_ROOT_NAME, 0, true⟩ ∧
    (l.foldl (mergeStep n) s).1.nodes.length = n + 1 := by
  intro l
  induction l with
  | nil => intro s h hl; exact ⟨h, hl⟩
  | cons a l ih =>
    intro s h hl
    rw [List.foldl_cons]
    refine ih _ ?_ ?_
    · unfold mergeStep
      by_cases ha : (s.1.node a).is_transient_root
      · rw [if_pos ha]
        by_cases han : a = n
        · subst han
          rw [h] at ha
          exact absurd ha (by decide)
        · rw [DepGraph.node_set_ne s.1.nodes s.1.edges _ _ _ _ han]
          exact h
      · rw [if_neg ha]
        exact h
    · unfold mergeStep
      by_cases ha : (s.1.node a).is_transient_root
      · rw [if_pos ha]
        simpa using hl
      · rw [if_neg ha]
        exact hl

/-- C9: `merge_transient_roots` creates the synthetic `{memory/temp}`
aggregate node (size zero, flagged as a root) and appends it to the root
set unconditionally -- for every input, even one with no transient roots,
the output root set contains the synthetic node (src/reduction.rs, lines
23-44: the node is added and `roots.push(fake_root_idx)` runs before any
check). -/
theorem claim_C9_fake_root_unconditional (di : DepInfos) :
    di.graph.nodes.length ∈ (merge_transient_roots di).roots ∧
    (merge_transient_roots di).graph.node di.graph.nodes.length =
      ⟨TRANSIENT_ROOT_NAME, 0, true⟩ := by
  constructor
  · rw [merge_transient_roots_roots]
    exact List.mem_append_right _ (List.mem_singleton_self _)
  · rw [merge_transient_roots_graph]
    refine (merge_fold_keeps_fake di.graph.nodes.length di.roots _ ?_ ?_).1
    · exact DepGraph.node_concat_self _ _ _
    · simp

/-- The complete effect of `merge_transient_roots` on a well-formed input,
phrased with the original weights.  Writing `n` for the input node count
(the index of the synthetic node): transient roots lose their root flag,
keep path and size, leave the root list and gain an in-edge from `n`;
non-transient roots and non-root nodes are untouched; the edges are the
old ones plus exactly the synthetic ones; the root list is the
non-transient old roots followed by `n`. -/
theorem merge_transient_roots_spec (di : DepInfos) (hwf : di.WF) :
    ((merge_transient_roots di).roots =
      di.roots.filter (fun i => ¬ (di.graph.node i).kindIsTransient)
        ++ [di.graph.nodes.length]) ∧
    (∀ r ∈ di.roots, (merge_transient_roots di).graph.node r =
      (if (di.graph.node r).kindIsTransient then
        { di.graph.node r with is_root := false } else di.graph.node r)) ∧
    (∀ i, i < di.graph.nodes.length → i ∉ di.roots →
      (merge_transient_roots di).graph.node i = di.graph.node i) ∧
    ((merge_transient_roots di).graph.edges = di.graph.edges ++
      (di.roots.filter (fun i => (di.graph.node i).kindIsTransient)).map
        (fun i => (di.graph.nodes.length, i))) ∧
    ((merge_transient_roots di).graph.nodes.length
      = di.graph.nodes.length + 1) := by
  obtain ⟨hedge, hrlt, hrnd, hriff⟩ := hwf
  have htr : ∀ r ∈ di.roots, (di.graph.node r).is_transient_root
      = (di.graph.node r).kindIsTransient := by
    intro r hr
    unfold Derivation.is_transient_root
    rw [(hriff r (hrlt r hr)).mp hr]
    simp
  have huntouched : ∀ i ∈ di.roots,
      (DepGraph.mk (di.graph.nodes ++ [⟨TRANSIENT_ROOT_NAME, 0, true⟩])
        di.graph.edges).node i = di.graph.node i := by
    intro i hi
    exact DepGraph.node_append_lt _ _ _ _ (hrlt i hi)
  obtain ⟨h1, h2, h3, h4, h5⟩ :=
    mergeStep_fold_spec di di.roots
      (⟨di.graph.nodes ++ [⟨TRANSIENT_ROOT_NAME, 0, true⟩],
        di.graph.edges⟩, []) hrnd huntouched
  refine ⟨?_, ?_, ?_, ?_, ?_⟩
  · rw [merge_transient_roots_roots, h5]
    simp only [List.nil_append]
    congr 1
    apply List.filter_congr
    intro i hi
    rw [htr i hi]
  · intro r hr
    rw [merge_transient_roots_graph, h3 r hr, htr r hr]
    by_cases ht : (di.graph.node r).kindIsTransient
    · rw [if_pos ht, if_pos ht]
    · rw [if_neg ht, if_neg ht]
      exact huntouched r hr
  · intro i hlt hnr
    rw [merge_transient_roots_graph, h2 i hnr]
    exact DepGraph.node_append_lt _ _ _ _ hlt
  · rw [merge_transient_roots_graph, h4]
    congr 1
    congr 1
    apply List.filter_congr
    intro i hi
    rw [htr i hi]
  · rw [merge_transient_roots_graph, h1]
    simp

/-- C4: on a well-formed input, every direct root child of transient kind
(Memory or Temporary) is detached from the root set, keeps its weight
except for the cleared root flag, and becomes a child of the freshly
created synthetic `{memory/temp}` node; that synthetic node (size zero,
fixed label) joins the root set; non-transient direct children stay root
children with unchanged weight; and the edge and size structure of every
other node is unchanged (src/reduction.rs, lines 18-45). -/
theorem claim_C4_merge_transient (di : DepInfos) (hwf : di.WF) :
    (∀ r ∈ di.roots, (di.graph.node r).kindIsTransient = true →
      r ∉ (merge_transient_roots di).roots ∧
      (di.graph.nodes.length, r) ∈ (merge_transient_roots di).graph.edges ∧
      (merge_transient_roots di).graph.node r =
        { di.graph.node r with is_root := false }) ∧
    (∀ r ∈ di.roots, (di.graph.node r).kindIsTransient = false →
      r ∈ (merge_transient_roots di).roots ∧
      (merge_transient_roots di).graph.node r = di.graph.node r) ∧
    (di.graph.nodes.length ∈ (merge_transient_roots di).roots ∧
      (merge_transient_roots di).graph.node di.graph.nodes.length =
        ⟨TRANSIENT_ROOT_NAME, 0, true⟩) ∧
    (∀ i, i < di.graph.nodes.length → i ∉ di.roots →
      (merge_transient_roots di).graph.node i = di.graph.node i) ∧
    (∀ i, i < di.graph.nodes.length →
      ((merge_transient_roots di).graph.node i).size = (di.graph.node i).size ∧
      ((merge_transient_roots di).graph.node i).path = (di.graph.node i).path) ∧
    (∀ u v, (u, v) ∈ (merge_transient_roots di).graph.edges ↔
      ((u, v) ∈ di.graph.edges ∨ (u = di.graph.nodes.length ∧ v ∈ di.roots ∧
        (di.graph.node v).kindIsTransient = true))) := by
  obtain ⟨hroots, hnodes, huntouched, hedges, hlen⟩ :=
    merge_transient_roots_spec di hwf
  obtain ⟨hedge, hrlt, hrnd, hriff⟩ := hwf
  refine ⟨?_, ?_, ?_, huntouched, ?_, ?_⟩
  · intro r hr ht
    refine ⟨?_, ?_, ?_⟩
    · rw [hroots]
      intro hmem
      rcases List.mem_append.mp hmem with h | h
      · rw [List.mem_filter] at h
        simp [ht] at h
      · rw [List.mem_singleton] at h
        have := hrlt r hr
        omega
    · rw [hedges]
      refine List.mem_append_right _ (List.mem_map.mpr ⟨r, ?_, rfl⟩)
      exact List.mem_filter.mpr ⟨hr, ht⟩
    · rw [hnodes r hr, if_pos ht]
  · intro r hr ht
    constructor
    · rw [hroots]
      refine List.mem_append_left _ (List.mem_filter.mpr ⟨hr, ?_⟩)
      simp [ht]
    · rw [hnodes r hr, ht]
      simp
  · constructor
    · rw [hroots]
      exact List.mem_append_right _ (List.mem_singleton_self _)
    · have := merge_fold_keeps_fake di.graph.nodes.length di.roots
        (⟨di.graph.nodes ++ [⟨TRANSIENT_ROOT_NAME, 0, true⟩],
          di.graph.edges⟩, [])
        (DepGraph.node_concat_self _ _ _) (by simp)
      rw [merge_transient_roots_graph]
      exact this.1
  · intro i hlt
    by_cases hir : i ∈ di.roots
    · rw [hnodes i hir]
      by_cases ht : (di.graph.node i).kindIsTransient
      · rw [if_pos ht]
        exact ⟨rfl, rfl⟩
      · rw [if_neg ht]
        exact ⟨rfl, rfl⟩
    · rw [huntouched i hlt hir]
      exact ⟨rfl, rfl⟩
  · intro u v
    rw [hedges, List.mem_append]
    constructor
    · rintro (h | h)
      · exact Or.inl h
      · rw [List.mem_map] at h
        obtain ⟨i, hi, heq⟩ := h
        rw [List.mem_filter] at hi
        obtain ⟨h1, h2⟩ := Prod.mk.injEq .. ▸ heq
        refine Or.inr ⟨h1.symm, ?_, ?_⟩
        · rw [← h2]; exact hi.1
        · rw [← h2]; exact hi.2
    · rintro (h | ⟨rfl, hv, ht⟩)
      · exact Or.inl h
      · exact Or.inr (List.mem_map.mpr ⟨v, List.mem_filter.mpr ⟨hv, ht⟩, rfl⟩)

end NixDu

namespace NixDu

theorem list_contains_iff (l : List Nat) (v : Nat) :
    l.contains v = true ↔ v ∈ l := by
  unfold List.contains
  exact List.elem_iff

/-- Under well-formedness, the executable root-reachability test used by
`reachable_size` agrees with `RootReachable`. -/
theorem DepInfos.any_bfs_iff (di : DepInfos) (hwf : di.WF) (v : Nat) :
    (di.roots.any
      (fun r => (bfsFrom di.graph.adj di.graph.nodes.length r).contains v))
        = true ↔ di.RootReachable v := by
  obtain ⟨hedge, hrlt, _, _⟩ := hwf
  rw [List.any_eq_true]
  unfold DepInfos.RootReachable
  constructor
  · rintro ⟨r, hr, hb⟩
    rw [list_contains_iff] at hb
    refine ⟨r, hr, ?_⟩
    rw [← mem_bfsFrom_iff di.graph.adj di.graph.nodes.length ?_ r (hrlt r hr)
      di.graph.nodes.length le_rfl v]
    · exact hb
    · intro u m hm
      rw [DepGraph.adj, mem_adjOf] at hm
      exact (hedge _ hm).2
  · rintro ⟨r, hr, hreach⟩
    refine ⟨r, hr, ?_⟩
    rw [list_contains_iff]
    rw [mem_bfsFrom_iff di.graph.adj di.graph.nodes.length ?_ r (hrlt r hr)
      di.graph.nodes.length le_rfl v]
    · exact hreach
    · intro u m hm
      rw [DepGraph.adj, mem_adjOf] at hm
      exact (hedge _ hm).2

end NixDu

namespace NixDu

theorem reaches_of_sub_edges {edges edges2 : List (Nat × Nat)}
    (hsub : ∀ e ∈ edges, e ∈ edges2) {u v : Nat}
    (h : Reaches (adjOf edges) u v) : Reaches (adjOf edges2) u v := by
  induction h with
  | refl => exact .refl _
  | step hxy hz _ ih =>
    refine .step ih ?_ (List.not_mem_nil _)
    rw [mem_adjOf] at hz ⊢
    exact hsub _ hz

/-- The original node weights keep their size and path through the merge. -/
theorem merge_node_size (di : DepInfos) (hwf : di.WF) (i : Nat)
    (hi : i < di.graph.nodes.length) :
    ((merge_transient_roots di).graph.node i).size = (di.graph.node i).size ∧
    ((merge_transient_roots di).graph.node i).path = (di.graph.node i).path := by
  obtain ⟨_, hnodes, huntouched, _, _⟩ := merge_transient_roots_spec di hwf
  by_cases hir : i ∈ di.roots
  · rw [hnodes i hir]
    by_cases ht : (di.graph.node i).kindIsTransient
    · rw [if_pos ht]; exact ⟨rfl, rfl⟩
    · rw [if_neg ht]; exact ⟨rfl, rfl⟩
  · rw [huntouched i hi hir]; exact ⟨rfl, rfl⟩

/-- The synthetic node of the merge output. -/
theorem merge_fake_node (di : DepInfos) :
    (merge_transient_roots di).graph.node di.graph.nodes.length =
      ⟨TRANSIENT_ROOT_NAME, 0, true⟩ := by
  rw [merge_transient_roots_graph]
  refine (merge_fold_keeps_fake di.graph.nodes.length di.roots _ ?_ ?_).1
  · exact DepGraph.node_concat_self _ _ _
  · simp

theorem merge_reach_below (di : DepInfos) (hwf : di.WF) (u v : Nat)
    (hu : u < di.graph.nodes.length)
    (h : Reaches (merge_transient_roots di).graph.adj u v) :
    v < di.graph.nodes.length ∧ Reaches di.graph.adj u v := by
  have hedges := (merge_transient_roots_spec di hwf).2.2.2.1
  have hedge := hwf.1
  induction h with
  | refl => exact ⟨hu, .refl u⟩
  | step hxy hz hnz ih =>
    rename_i y z
    obtain ⟨hyn, hdy⟩ := ih
    have hezge : (y, z) ∈ (merge_transient_roots di).graph.edges :=
      (DepGraph.mem_adj _ _ _).mp hz
    rw [hedges] at hezge
    rcases List.mem_append.mp hezge with hmem | hmem
    · refine ⟨(hedge _ hmem).2, .step hdy ?_ (List.not_mem_nil _)⟩
      rw [DepGraph.mem_adj]
      exact hmem
    · exfalso
      rw [List.mem_map] at hmem
      obtain ⟨i, _, heq⟩ := hmem
      have : y = di.graph.nodes.length := by
        have := congrArg Prod.fst heq
        simpa using this.symm
      omega

theorem merge_reach_from_fake (di : DepInfos) (hwf : di.WF) (v : Nat)
    (h : Reaches (merge_transient_roots di).graph.adj di.graph.nodes.length v) :
    v = di.graph.nodes.length ∨
      ∃ t ∈ di.roots, (di.graph.node t).kindIsTransient = true ∧
        Reaches di.graph.adj t v := by
  have hedges := (merge_transient_roots_spec di hwf).2.2.2.1
  have hedge := hwf.1
  have hrlt := hwf.2.1
  rcases h.head_decomp with heq | ⟨z, hz, _, hzv⟩
  · exact Or.inl heq.symm
  · have hezge : (di.graph.nodes.length, z)
        ∈ (merge_transient_roots di).graph.edges := (DepGraph.mem_adj _ _ _).mp hz
    rw [hedges] at hezge
    rcases List.mem_append.mp hezge with hmem | hmem
    · exact absurd (hedge _ hmem).1 (by omega)
    · rw [List.mem_map] at hmem
      obtain ⟨i, hi, heq⟩ := hmem
      rw [List.mem_filter] at hi
      have hzi : z = i := by
        have := congrArg Prod.snd heq
        simpa using this.symm
      subst hzi
      have hzlt : z < di.graph.nodes.length := hrlt z hi.1
      exact Or.inr ⟨z, hi.1, hi.2,
        (merge_reach_below di hwf z v hzlt hzv).2⟩

theorem merge_rootReachable_iff (di : DepInfos) (hwf : di.WF) (v : Nat) :
    (merge_transient_roots di).RootReachable v ↔
      (v = di.graph.nodes.length ∨ di.RootReachable v) := by
  have hroots := (merge_transient_roots_spec di hwf).1
  have hedges := (merge_transient_roots_spec di hwf).2.2.2.1
  have hrlt := hwf.2.1
  have hsub : ∀ e ∈ di.graph.edges, e ∈ (merge_transient_roots di).graph.edges := by
    intro e he
    rw [hedges]
    exact List.mem_append_left _ he
  constructor
  · rintro ⟨r, hr, hreach⟩
    rw [hroots] at hr
    rcases List.mem_append.mp hr with hr | hr
    · rw [List.mem_filter] at hr
      have hrn : r < di.graph.nodes.length := hrlt r hr.1
      exact Or.inr ⟨r, hr.1, (merge_reach_below di hwf r v hrn hreach).2⟩
    · rw [List.mem_singleton] at hr
      subst hr
      rcases merge_reach_from_fake di hwf v hreach with h | ⟨t, ht, _, hrt⟩
      · exact Or.inl h
      · exact Or.inr ⟨t, ht, hrt⟩
  · rintro (rfl | ⟨r, hr, hreach⟩)
    · refine ⟨di.graph.nodes.length, ?_, .refl _⟩
      rw [hroots]
      exact List.mem_append_right _ (List.mem_singleton_self _)
    · by_cases ht : (di.graph.node r).kindIsTransient
      · refine ⟨di.graph.nodes.length, ?_, ?_⟩
        · rw [hroots]
          exact List.mem_append_right _ (List.mem_singleton_self _)
        · refine ReachOut.trans (.step (.refl _) ?_ (List.not_mem_nil _))
            (reaches_of_sub_edges hsub hreach)
          rw [DepGraph.mem_adj, hedges]
          refine List.mem_append_right _ (List.mem_map.mpr ⟨r, ?_, rfl⟩)
          exact List.mem_filter.mpr ⟨hr, ht⟩
      · refine ⟨r, ?_, reaches_of_sub_edges hsub hreach⟩
        rw [hroots]
        refine List.mem_append_left _ (List.mem_filter.mpr ⟨hr, ?_⟩)
        simp [ht]

theorem merge_WF (di : DepInfos) (hwf : di.WF) :
    (merge_transient_roots di).WF := by
  obtain ⟨hroots, hnodes, huntouched, hedges, hlen⟩ :=
    merge_transient_roots_spec di hwf
  obtain ⟨hedge, hrlt, hrnd, hriff⟩ := hwf
  refine ⟨?_, ?_, ?_, ?_⟩
  · intro e he
    rw [hedges] at he
    rw [hlen]
    rcases List.mem_append.mp he with h | h
    · have := hedge _ h
      omega
    · rw [List.mem_map] at h
      obtain ⟨i, hi, heq⟩ := h
      rw [List.mem_filter] at hi
      have h1 := congrArg Prod.fst heq
      have h2 := congrArg Prod.snd heq
      simp only at h1 h2
      have := hrlt i hi.1
      omega
  · intro r hr
    rw [hroots] at hr
    rw [hlen]
    rcases List.mem_append.mp hr with h | h
    · rw [List.mem_filter] at h
      have := hrlt r h.1
      omega
    · rw [List.mem_singleton] at h
      omega
  · rw [hroots]
    rw [List.nodup_append]
    refine ⟨List.Nodup.filter _ hrnd, List.nodup_singleton _, ?_⟩
    intro x hx hx2
    rw [List.mem_filter] at hx
    rw [List.mem_singleton] at hx2
    have := hrlt x hx.1
    omega
  · intro i hi
    rw [hlen] at hi
    rw [hroots]
    by_cases hin : i = di.graph.nodes.length
    · subst hin
      rw [merge_fake_node di]
      simp
    · have hilt : i < di.graph.nodes.length := by omega
      constructor
      · intro hmem
        rcases List.mem_append.mp hmem with h | h
        · rw [List.mem_filter] at h
          rw [hnodes i h.1]
          have hne : ¬ (di.graph.node i).kindIsTransient = true := by
            simpa using h.2
          rw [if_neg hne]
          exact (hriff i hilt).mp h.1
        · rw [List.mem_singleton] at h
          exact absurd h hin
      · intro hmem
        by_cases hir : i ∈ di.roots
        · refine List.mem_append_left _ (List.mem_filter.mpr ⟨hir, ?_⟩)
          by_contra hcon
          simp at hcon
          rw [hnodes i hir, if_pos hcon] at hmem
          simp at hmem
        · exfalso
          rw [huntouched i hilt hir] at hmem
          exact hir ((hriff i hilt).mpr hmem)

/-- The Transient Merger conserves reachable size. -/
theorem merge_preserves_reachable_size (di : DepInfos) (hwf : di.WF) :
    (merge_transient_roots di).reachable_size = di.reachable_size := by
  have hwf2 := merge_WF di hwf
  have hlen := (merge_transient_roots_spec di hwf).2.2.2.2
  unfold DepInfos.reachable_size
  rw [hlen, List.range_succ, List.filter_append]
  have hp : ((merge_transient_roots di).roots.any (fun r =>
      (bfsFrom (merge_transient_roots di).graph.adj
        (di.graph.nodes.length + 1) r).contains di.graph.nodes.length)) = true := by
    have h1 := (merge_transient_roots di).any_bfs_iff hwf2 di.graph.nodes.length
    rw [hlen] at h1
    rw [h1, merge_rootReachable_iff di hwf]
    exact Or.inl rfl
  have hfake : (List.filter (fun v =>
      (merge_transient_roots di).roots.any (fun r =>
        (bfsFrom (merge_transient_roots di).graph.adj
          (di.graph.nodes.length + 1) r).contains v)) [di.graph.nodes.length])
      = [di.graph.nodes.length] := by
    simp only [List.filter_singleton, hp, cond_true]
  rw [hfake]
  have hsame : (List.filter (fun v =>
      (merge_transient_roots di).roots.any (fun r =>
        (bfsFrom (merge_transient_roots di).graph.adj
          (di.graph.nodes.length + 1) r).contains v))
      (List.range di.graph.nodes.length)) = (List.filter (fun v =>
      di.roots.any (fun r =>
        (bfsFrom di.graph.adj di.graph.nodes.length r).contains v))
      (List.range di.graph.nodes.length)) := by
    apply List.filter_congr
    intro v hv
    rw [List.mem_range] at hv
    rw [Bool.eq_iff_iff]
    have h1 := (merge_transient_roots di).any_bfs_iff hwf2 v
    rw [hlen] at h1
    rw [h1, di.any_bfs_iff hwf v]
    rw [merge_rootReachable_iff di hwf]
    constructor
    · rintro (h | h)
      · omega
      · exact h
    · intro h
      exact Or.inr h
  rw [hsame]
  rw [List.map_append, List.sum_append]
  have hsz : (List.map (fun v => ((merge_transient_roots di).graph.node v).size)
      [di.graph.nodes.length]).sum = 0 := by
    simp [merge_fake_node di]
  rw [hsz, Nat.add_zero]
  apply congrArg
  apply List.map_congr_left
  intro i hi
  have hi2 : i < di.graph.nodes.length :=
    List.mem_range.mp (List.mem_of_mem_filter hi)
  exact (merge_node_size di hwf i hi2).1

end NixDu

namespace NixDu

/-! ## Claims C7 and C10: node classification -/

theorem classify_oob_iff (path : List Nat) (is_root : Bool) :
    classify path is_root = ClassifyResult.oobPanic ↔ path = [] := by
  unfold classify
  split_ifs <;> simp_all

theorem classify_unknown_iff (path : List Nat) (is_root : Bool)
    (h : path ≠ []) :
    classify path is_root = ClassifyResult.unknownPanic ↔
      classifySpec path is_root = none := by
  constructor
  · intro hu
    have := classify_agrees_spec path is_root h
    unfold classifyKind at this
    rw [hu] at this
    exact this.symm
  · intro hn
    have := classify_agrees_spec path is_root h
    rw [hn] at this
    unfold classifyKind at this
    match hc : classify path is_root with
    | .ok d => rw [hc] at this; exact absurd this (by simp)
    | .oobPanic => exact absurd ((classify_oob_iff path is_root).mp hc) h
    | .unknownPanic => rfl

/-- C7: for every ingested fact with a non-empty path, the classification
of `DepNode::new` produces exactly the kind the spec's rules dictate
(Memory under the process-memory prefix, else Link for declared roots,
else Path for `/`-paths; Memory for the bracketed legacy markers;
Temporary for the `{temp:` marker), and it aborts with the fatal
unknown-store-path error exactly when the path matches none of those
shapes (src/depgraph.rs, lines 170-200). -/
theorem claim_C7_classification (path : List Nat) (is_root : Bool)
    (h : path ≠ []) :
    classifyKind path is_root = classifySpec path is_root ∧
    (classify path is_root = ClassifyResult.unknownPanic ↔
      classifySpec path is_root = none) :=
  ⟨classify_agrees_spec path is_root h, classify_unknown_iff path is_root h⟩

theorem claim_C7_classification_witness :
    (bytes "{temp:1}" ≠ [] ∧
      (classifyKind (bytes "{temp:1}") false =
          classifySpec (bytes "{temp:1}") false ∧
        (classify (bytes "{temp:1}") false = ClassifyResult.unknownPanic ↔
          classifySpec (bytes "{temp:1}") false = none))) :=
  ⟨by decide, claim_C7_classification (bytes "{temp:1}") false (by decide)⟩

/-- C10: the classification reads the first path byte with no emptiness
check: on the empty path it fails with the out-of-bounds panic of
`path[0]` -- a failure distinct from the documented unknown-store-path
fatal error -- before any classification rule applies, and for non-empty
paths that indexing failure never occurs (src/depgraph.rs, lines
170-195). -/
theorem claim_C10_empty_path_oob :
    (∀ b, classify [] b = ClassifyResult.oobPanic) ∧
    (ClassifyResult.oobPanic ≠ ClassifyResult.unknownPanic) ∧
    (∀ (p : List Nat) (b : Bool), p ≠ [] →
      classify p b ≠ ClassifyResult.oobPanic) := by
  refine ⟨?_, by decide, ?_⟩
  · intro b
    exact (classify_oob_iff [] b).mpr rfl
  · intro p b hp hc
    exact hp ((classify_oob_iff p b).mp hc)

theorem claim_C10_empty_path_oob_witness :
    classify (bytes "/x") true ≠ ClassifyResult.oobPanic :=
  claim_C10_empty_path_oob.2.2 (bytes "/x") true (by decide)

end NixDu

namespace NixDu

/-! ## Claim C8: size metadata (src/depgraph.rs, current node model)

src/depgraph.rs in the given sources carries the current node model:
`DepNode` (a `NodeDescription` plus size), a graph of `DepNode`s with a
single designated root index, and a `SizeMetadata` value with one
optional cell per (dedup-awareness, reachability) pair. -/

/-- `Reachability` from src/depgraph.rs. -/
inductive Reachability : Type
  | connected
  | disconnected
deriving DecidableEq, Repr

/-- `DedupAwareness` from src/depgraph.rs. -/
inductive DedupAwareness : Type
  | aware
  | unaware
deriving DecidableEq, Repr

/-- `DepNode` from src/depgraph.rs. -/
structure DepNode where
  description : NodeDescription
  size : Nat
deriving DecidableEq, Repr

/-- `SizeMetadata` from src/depgraph.rs; the `EnumMap` of optional cached
sizes is a function of the two enum indices. -/
structure SizeMetadata where
  reachable : Reachability
  dedup : DedupAwareness
  size : DedupAwareness → Reachability → Option Nat

/-- Updating one cell of the 2x2 table. -/
def setCell (m : DedupAwareness → Reachability → Option Nat)
    (d0 : DedupAwareness) (r0 : Reachability) (v : Option Nat) :
    DedupAwareness → Reachability → Option Nat :=
  fun d r => if d = d0 ∧ r = r0 then v else m d r

/-- The graph of the current node model, and `DepInfos` from
src/depgraph.rs (graph, designated root index, metadata). -/
structure DepNodeGraph where
  nodes : List DepNode
  edges : List (Nat × Nat)

structure DepInfosV2 where
  graph : DepNodeGraph
  root : Nat
  metadata : SizeMetadata

/-- `DepInfos::reachable_size` from src/depgraph.rs (lines 340-348): sum
of the sizes of the nodes visited by a `Dfs` from the designated root. -/
def DepInfosV2.reachable_size (di : DepInfosV2) : Nat :=
  ((dfsFrom (adjOf di.graph.edges)
    (1 + di.graph.nodes.length * (di.graph.edges.length + 1)) di.root).map
      (fun v => (di.graph.nodes.getD v ⟨NodeDescription.dummy, 0⟩).size)).sum

/-- `DepInfos::size` from src/depgraph.rs (lines 350-353): sum of the
sizes of all nodes. -/
def DepInfosV2.size (di : DepInfosV2) : Nat :=
  (di.graph.nodes.map (fun n => n.size)).sum

/-- The cell updates of `record_metadata`, as a function of the graph's
reachability mode, the current dedup row, the two freshly computed sizes
and the current table: fill the Connected cell of the current dedup row
with `reachable_size()` when unset, and, when the mode is Disconnected,
also fill the Disconnected cell with `size()` when unset. -/
def recordCells (mode : Reachability) (dedup : DedupAwareness)
    (rsz tsz : Nat) (m : DedupAwareness → Reachability → Option Nat) :
    DedupAwareness → Reachability → Option Nat :=
  let m1 := if m dedup Reachability.connected = none then
      setCell m dedup Reachability.connected (some rsz)
    else m
  if mode = Reachability.disconnected ∧
      m1 dedup Reachability.disconnected = none then
    setCell m1 dedup Reachability.disconnected (some tsz)
  else m1

/-- `DepInfos::record_metadata` from src/depgraph.rs (lines 355-371). -/
def DepInfosV2.record_metadata (di : DepInfosV2) : DepInfosV2 :=
  { di with metadata := { di.metadata with size :=
      (recordCells di.metadata.reachable di.metadata.dedup di.reachable_size
        di.size di.metadata.size) } }

theorem recordCells_apply (mode : Reachability) (dedup : DedupAwareness)
    (rsz tsz : Nat) (m : DedupAwareness → Reachability → Option Nat)
    (d : DedupAwareness) (r : Reachability) :
    recordCells mode dedup rsz tsz m d r =
      if d = dedup ∧ r = Reachability.connected ∧
          m dedup Reachability.connected = none then some rsz
      else if d = dedup ∧ r = Reachability.disconnected ∧
          mode = Reachability.disconnected ∧
          m dedup Reachability.disconnected = none then some tsz
      else m d r := by
  unfold recordCells setCell
  rcases r with _ | _ <;> rcases mode with _ | _ <;>
    by_cases hd : d = dedup <;>
    by_cases h1 : m dedup Reachability.connected = none <;>
    by_cases h3 : m dedup Reachability.disconnected = none <;>
    simp_all

end NixDu

namespace NixDu

theorem record_metadata_size_fun (di : DepInfosV2) :
    di.record_metadata.metadata.size =
      recordCells di.metadata.reachable di.metadata.dedup di.reachable_size
        di.size di.metadata.size := rfl

/-- C8: `record_metadata()` fills the Connected cell (current dedup row)
with the reachable size only when that cell is unset, fills the
Disconnected cell with the total size only when that cell is unset and
the graph's reachability mode is Disconnected, never overwrites any
populated cell, and a second call changes nothing (src/depgraph.rs,
lines 356-371). -/
theorem claim_C8_record_metadata (di : DepInfosV2) :
    (di.record_metadata.metadata.size di.metadata.dedup
        Reachability.connected =
      (if di.metadata.size di.metadata.dedup Reachability.connected = none
        then some di.reachable_size
        else di.metadata.size di.metadata.dedup Reachability.connected)) ∧
    (di.record_metadata.metadata.size di.metadata.dedup
        Reachability.disconnected =
      (if di.metadata.reachable = Reachability.disconnected ∧
          di.metadata.size di.metadata.dedup Reachability.disconnected = none
        then some di.size
        else di.metadata.size di.metadata.dedup Reachability.disconnected)) ∧
    (∀ d r v, di.metadata.size d r = some v →
      di.record_metadata.metadata.size d r = some v) ∧
    di.record_metadata.record_metadata = di.record_metadata := by
  refine ⟨?_, ?_, ?_, ?_⟩
  · rw [record_metadata_size_fun, recordCells_apply]
    by_cases h1 : di.metadata.size di.metadata.dedup Reachability.connected
        = none
    · rw [if_pos ⟨rfl, rfl, h1⟩, if_pos h1]
    · rw [if_neg (by simp [h1]), if_neg (by simp), if_neg h1]
  · rw [record_metadata_size_fun, recordCells_apply]
    rw [if_neg (by simp)]
    by_cases h2 : di.metadata.reachable = Reachability.disconnected ∧
        di.metadata.size di.metadata.dedup Reachability.disconnected = none
    · rw [if_pos ⟨rfl, rfl, h2.1, h2.2⟩, if_pos h2]
    · rw [if_neg ?_, if_neg h2]
      rintro ⟨-, -, hm, hn⟩
      exact h2 ⟨hm, hn⟩
  · intro d r v hv
    rw [record_metadata_size_fun, recordCells_apply]
    rw [if_neg ?_, if_neg ?_]
    · exact hv
    · rintro ⟨rfl, rfl, -, hn⟩
      rw [hv] at hn
      exact Option.noConfusion hn
    · rintro ⟨rfl, rfl, hn⟩
      rw [hv] at hn
      exact Option.noConfusion hn
  · show DepInfosV2.mk di.graph di.root
      ⟨di.metadata.reachable, di.metadata.dedup,
        recordCells di.metadata.reachable di.metadata.dedup di.reachable_size
          di.size
          (recordCells di.metadata.reachable di.metadata.dedup
            di.reachable_size di.size di.metadata.size)⟩ =
      DepInfosV2.mk di.graph di.root
      ⟨di.metadata.reachable, di.metadata.dedup,
        recordCells di.metadata.reachable di.metadata.dedup di.reachable_size
          di.size di.metadata.size⟩
    have hfun : recordCells di.metadata.reachable di.metadata.dedup
        di.reachable_size di.size
        (recordCells di.metadata.reachable di.metadata.dedup
          di.reachable_size di.size di.metadata.size) =
        recordCells di.metadata.reachable di.metadata.dedup di.reachable_size
          di.size di.metadata.size := by
      funext d r
      simp only [recordCells_apply]
      by_cases hcon : di.metadata.size di.metadata.dedup
          Reachability.connected = none <;>
      by_cases hrm : di.metadata.reachable = Reachability.disconnected <;>
      by_cases hdisc : di.metadata.size di.metadata.dedup
          Reachability.disconnected = none <;>
      by_cases hd : d = di.metadata.dedup <;>
      rcases r with _ | _ <;>
      simp_all
    rw [hfun]

end NixDu

namespace NixDu

/-- A small well-formed example graph: a temporary root, a link root and
one store path below it. -/
def exampleDi : DepInfos :=
  ⟨⟨[⟨bytes "{temp:1}", 5, true⟩, ⟨bytes "/nix/store/aa-foo", 7, true⟩,
     ⟨bytes "/nix/store/bb-bar", 3, false⟩], [(1, 2)]⟩, [0, 1]⟩

theorem claim_C4_merge_transient_witness :
    exampleDi.WF ∧
    0 ∉ (merge_transient_roots exampleDi).roots ∧
    (3, 0) ∈ (merge_transient_roots exampleDi).graph.edges :=
  ⟨by decide,
    ((claim_C4_merge_transient exampleDi (by decide)).1 0 (by decide)
      (by decide)).1,
    ((claim_C4_merge_transient exampleDi (by decide)).1 0 (by decide)
      (by decide)).2.1⟩

end NixDu

namespace NixDu

/-! ## Condenser (src/reduction.rs, lines 49-118)

`condense` labels every vertex of the root-augmented graph `g` with the
set of root ordinals whose BFS reaches it, walks `g` breadth-first from
the fake super-root, groups the visited original vertices by label --
the first-visited member of each group becoming the representative and
accumulating the group's sizes -- and reprojects the edges of `g` onto
representatives through `update_edge`. -/

/-- State of the `while let Some(idx) = bfs.next(&g)` loop of `condense`:
`new_ids` (a map from bit-label to new node index, an association list
with unique keys here), the nodes of `new_graph`, and the node weights of
the consumed input graph (mutated by the `mem::swap` with a dummy). -/
structure CondState where
  newIds : List (Finset Nat × Nat)
  newNodes : List Derivation
  oldNodes : List Derivation
deriving DecidableEq

/-- `BTreeMap::get` on the association list. -/
def lookupIds : List (Finset Nat × Nat) → Finset Nat → Option Nat
  | [], _ => none
  | p :: ps, l => if p.1 = l then some p.2 else lookupIds ps l

/-- `Graph::update_edge` with unit weight: append the edge only when the
endpoint pair is new. -/
def updateEdge (edges : List (Nat × Nat)) (e : Nat × Nat) : List (Nat × Nat) :=
  if e ∈ edges then edges else edges ++ [e]

/-- The edge list of `g`: the input edges plus one edge from the fake
super-root (index `nodes.length`) to every root, in insertion order. -/
def condenseGEdges (di : DepInfos) : List (Nat × Nat) :=
  di.graph.edges ++ di.roots.map (fun r => (di.graph.nodes.length, r))

/-- The per-vertex root-ordinal label: bit `i` is set on every vertex the
BFS of `g` from the `i`-th root visits (src/reduction.rs, lines 75-81). -/
def condenseLabels (di : DepInfos) (v : Nat) : Finset Nat :=
  (Finset.range di.roots.length).filter
    (fun i => v ∈ bfsFrom (adjOf (condenseGEdges di))
      (di.graph.nodes.length + 1) (di.roots.getD i 0))

/-- The BFS visitation order from the fake super-root, with the first
`next` (the fake root itself) skipped and indices `>= fake_root` dropped
(src/reduction.rs, lines 83-96). -/
def condenseOrder (di : DepInfos) : List Nat :=
  ((bfsFrom (adjOf (condenseGEdges di)) (di.graph.nodes.length + 1)
    di.graph.nodes.length).drop 1).filter
      (fun v => decide (v < di.graph.nodes.length))

/-- One iteration of the grouping loop (src/reduction.rs, lines 93-104):
look the label up in `new_ids`; on a miss, swap the weight out of the old
graph (leaving a dummy) and append it to `new_graph`; then add the old
graph's current size at `idx` (zero after a swap) to the entry's size. -/
def condenseStep (labels : Nat → Finset Nat) (st : CondState) (idx : Nat) :
    CondState :=
  let rep := labels idx
  let pr := match lookupIds st.newIds rep with
    | some nn => (st, nn)
    | none =>
        (⟨st.newIds ++ [(rep, st.newNodes.length)],
          st.newNodes ++ [st.oldNodes.getD idx Derivation.dummy],
          st.oldNodes.set idx Derivation.dummy⟩, st.newNodes.length)
  ⟨pr.1.newIds,
    pr.1.newNodes.set pr.2
      { pr.1.newNodes.getD pr.2 Derivation.dummy with size :=
          (pr.1.newNodes.getD pr.2 Derivation.dummy).size +
            (pr.1.oldNodes.getD idx Derivation.dummy).size },
    pr.1.oldNodes⟩

/-- The grouping loop, run over the whole visitation order. -/
def condenseState (di : DepInfos) : CondState :=
  (condenseOrder di).foldl (condenseStep (condenseLabels di))
    ⟨[], [], di.graph.nodes⟩

/-- The edge-reprojection loop (src/reduction.rs, lines 107-116): for
every raw edge of `g` whose endpoint labels differ, when both labels have
representatives, `update_edge` between them. -/
def condenseEdges (labels : Nat → Finset Nat) (newIds : List (Finset Nat × Nat))
    (gEdges : List (Nat × Nat)) : List (Nat × Nat) :=
  gEdges.foldl (fun acc e =>
    if labels e.1 ≠ labels e.2 then
      match lookupIds newIds (labels e.1), lookupIds newIds (labels e.2) with
      | some nf, some nt => updateEdge acc (nf, nt)
      | _, _ => acc
    else acc) []

/-- `condense` from src/reduction.rs (lines 65-118). -/
def condense (di : DepInfos) : DepInfos :=
  DepInfos.new_from_graph
    ⟨(condenseState di).newNodes,
      condenseEdges (condenseLabels di) (condenseState di).newIds
        (condenseGEdges di)⟩

/-- The output class of an input vertex: the entry of the final `new_ids`
at the vertex's label. -/
def condenseClassOf (di : DepInfos) (v : Nat) : Option Nat :=
  lookupIds (condenseState di).newIds (condenseLabels di v)

/-- The set of roots from which `v` is reachable (the spec's `roots(v)`),
computed through the BFS. -/
def rootsOf (di : DepInfos) (v : Nat) : Finset Nat :=
  (di.roots.filter
    (fun r => (bfsFrom di.graph.adj di.graph.nodes.length r).contains v)).toFinset

end NixDu

namespace NixDu

/-- The grouping loop over an arbitrary visitation list. -/
def condenseFold (di : DepInfos) (l : List Nat) : CondState :=
  l.foldl (condenseStep (condenseLabels di)) ⟨[], [], di.graph.nodes⟩

theorem condenseState_eq_fold (di : DepInfos) :
    condenseState di = condenseFold di (condenseOrder di) := rfl

/-- The members of the label class `L` in visitation order. -/
def classMembers (di : DepInfos) (l : List Nat) (L : Finset Nat) : List Nat :=
  l.filter (fun v => condenseLabels di v = L)

theorem getD_set_self_or {α : Type} (l : List α) (i : Nat) (x d : α) :
    (l.set i x).getD i d = if i < l.length then x else d := by
  rw [List.getD_eq_getElem?_getD, List.getElem?_set]
  by_cases h : i < l.length
  · simp [h]
  · simp [h, List.getElem?_eq_none (by omega : l.length ≤ i)]

theorem set_concat_length {α : Type} (xs : List α) (w wp : α) :
    (xs ++ [w]).set xs.length wp = xs ++ [wp] := by
  induction xs with
  | nil => rfl
  | cons x xs ih => simp [List.set_cons_succ, ih]

theorem sum_set_getD (l : List Nat) (n a : Nat) (h : n < l.length) :
    (l.set n a).sum + l.getD n 0 = l.sum + a := by
  induction l generalizing n with
  | nil => simp at h
  | cons x xs ih =>
    match n with
    | 0 => simp [List.set_cons_zero, List.getD_cons_zero]; omega
    | m + 1 =>
      have hm : m < xs.length := by
        simpa using h
      simp only [List.set_cons_succ, List.sum_cons, List.getD_cons_succ]
      have := ih m hm
      omega

theorem lookupIds_append_single (ids : List (Finset Nat × Nat))
    (L0 : Finset Nat) (j0 : Nat) (L : Finset Nat) :
    lookupIds (ids ++ [(L0, j0)]) L =
      match lookupIds ids L with
      | some j => some j
      | none => if L0 = L then some j0 else none := by
  induction ids with
  | nil => simp [lookupIds]
  | cons p ps ih =>
    by_cases hp : p.1 = L
    · simp only [List.cons_append, lookupIds, if_pos hp]
    · simp only [List.cons_append, lookupIds, if_neg hp]
      exact ih

theorem classMembers_ne_nil_iff (di : DepInfos) (l : List Nat)
    (L : Finset Nat) :
    classMembers di l L ≠ [] ↔ L ∈ l.map (condenseLabels di) := by
  unfold classMembers
  rw [Ne, List.filter_eq_nil_iff]
  push_neg
  constructor
  · rintro ⟨a, ha, hp⟩
    rw [decide_eq_true_eq] at hp
    exact List.mem_map.mpr ⟨a, ha, hp⟩
  · intro hm
    obtain ⟨a, ha, hp⟩ := List.mem_map.mp hm
    exact ⟨a, ha, by rw [decide_eq_true_eq]; exact hp⟩

theorem condenseStep_hit (labels : Nat → Finset Nat) (st : CondState)
    (idx nn : Nat) (h : lookupIds st.newIds (labels idx) = some nn) :
    condenseStep labels st idx =
      ⟨st.newIds,
        st.newNodes.set nn
          { st.newNodes.getD nn Derivation.dummy with size :=
              (st.newNodes.getD nn Derivation.dummy).size +
                (st.oldNodes.getD idx Derivation.dummy).size },
        st.oldNodes⟩ := by
  simp only [condenseStep, h]

theorem condenseStep_miss (labels : Nat → Finset Nat) (st : CondState)
    (idx : Nat) (h : lookupIds st.newIds (labels idx) = none) :
    condenseStep labels st idx =
      ⟨st.newIds ++ [(labels idx, st.newNodes.length)],
        st.newNodes ++ [st.oldNodes.getD idx Derivation.dummy],
        st.oldNodes.set idx Derivation.dummy⟩ := by
  simp only [condenseStep, h]
  congr 1
  have hg : (st.newNodes ++ [st.oldNodes.getD idx Derivation.dummy]).getD
      st.newNodes.length Derivation.dummy =
      st.oldNodes.getD idx Derivation.dummy := by
    rw [List.getD_eq_getElem?_getD, List.getElem?_concat_length]
    rfl
  have hd : ((st.oldNodes.set idx Derivation.dummy).getD idx
      Derivation.dummy).size = 0 := by
    rw [getD_set_self_or]
    by_cases h2 : idx < st.oldNodes.length
    · rw [if_pos h2]; rfl
    · rw [if_neg h2]; rfl
  rw [hg, hd, set_concat_length]
  rw [Nat.add_zero]

end NixDu

namespace NixDu

theorem listGetD_set_ne {α : Type} (l : List α) (i j : Nat) (x d : α)
    (h : i ≠ j) : (l.set i x).getD j d = l.getD j d := by
  rw [List.getD_eq_getElem?_getD, List.getD_eq_getElem?_getD,
    List.getElem?_set_ne h]

theorem getD_map_lt {α β : Type} (l : List α) (f : α → β) (n : Nat)
    (d : β) (d2 : α) (h : n < l.length) :
    (l.map f).getD n d = f (l.getD n d2) := by
  rw [List.getD_eq_getElem?_getD, List.getD_eq_getElem?_getD,
    List.getElem?_map, List.getElem?_eq_getElem h]
  rfl

theorem headD_append_left {α : Type} (xs ys : List α) (d : α)
    (h : xs ≠ []) : (xs ++ ys).headD d = xs.headD d := by
  cases xs with
  | nil => exact absurd rfl h
  | cons x xs => rfl

theorem classMembers_concat (di : DepInfos) (l : List Nat) (a : Nat)
    (L : Finset Nat) :
    classMembers di (l ++ [a]) L = classMembers di l L ++
      (if condenseLabels di a = L then [a] else []) := by
  unfold classMembers
  rw [List.filter_append]
  congr 1
  by_cases hc : condenseLabels di a = L <;> simp [hc]

theorem condenseFold_concat (di : DepInfos) (l : List Nat) (a : Nat) :
    condenseFold di (l ++ [a]) =
      condenseStep (condenseLabels di) (condenseFold di l) a := by
  unfold condenseFold
  exact List.foldl_concat _ _ _ _

theorem condense_fold_spec (di : DepInfos) (l : List Nat) (hnd : l.Nodup) :
    ((condenseFold di l).newNodes.length = (condenseFold di l).newIds.length) ∧
    (∀ L, lookupIds (condenseFold di l).newIds L ≠ none ↔
      L ∈ l.map (condenseLabels di)) ∧
    (∀ L j, lookupIds (condenseFold di l).newIds L = some j →
      j < (condenseFold di l).newNodes.length) ∧
    (∀ L Lp j jp, lookupIds (condenseFold di l).newIds L = some j →
      lookupIds (condenseFold di l).newIds Lp = some jp → (j = jp ↔ L = Lp)) ∧
    (∀ j, j < (condenseFold di l).newNodes.length →
      ∃ L, lookupIds (condenseFold di l).newIds L = some j) ∧
    (∀ L j, lookupIds (condenseFold di l).newIds L = some j →
      classMembers di l L ≠ [] ∧
      (condenseFold di l).newNodes.getD j Derivation.dummy =
        { di.graph.node ((classMembers di l L).headD 0) with
          size := ((classMembers di l L).map
            (fun v => (di.graph.node v).size)).sum }) ∧
    ((condenseFold di l).newNodes.length =
      (l.map (condenseLabels di)).toFinset.card) ∧
    (∀ v, v ∉ l →
      (condenseFold di l).oldNodes.getD v Derivation.dummy = di.graph.node v) ∧
    (((condenseFold di l).newNodes.map (fun d => d.size)).sum =
      (l.map (fun v => (di.graph.node v).size)).sum) := by
  induction l using List.reverseRecOn with
  | nil =>
    refine ⟨rfl, ?_, ?_, ?_, ?_, ?_, by simp [condenseFold], ?_, rfl⟩
    · intro L
      simp [condenseFold, lookupIds]
    · intro L j h
      exact absurd h (by simp [condenseFold, lookupIds])
    · intro L Lp j jp h
      exact absurd h (by simp [condenseFold, lookupIds])
    · intro j h
      exact absurd h (by simp [condenseFold])
    · intro L j h
      exact absurd h (by simp [condenseFold, lookupIds])
    · intro v _
      rfl
  | append_singleton l' a ih =>
    have hnd' : l'.Nodup := (List.nodup_append.mp hnd).1
    have hal' : a ∉ l' := by
      have hd := (List.nodup_append.mp hnd).2.2
      intro hmem
      exact hd hmem (List.mem_singleton_self a)
    obtain ⟨h1, h2, h3, h4, h5, h6, h7, h8, h9⟩ := ih hnd'
    have holdA : (condenseFold di l').oldNodes.getD a Derivation.dummy =
      di.graph.node a := h8 a hal'
    rw [condenseFold_concat]
    rcases hlk : lookupIds (condenseFold di l').newIds (condenseLabels di a)
      with _ | nn
    · -- miss branch: fresh class
      rw [condenseStep_miss _ _ _ hlk]
      have hL0 : condenseLabels di a ∉ l'.map (condenseLabels di) := by
        intro hmem
        exact ((h2 _).mpr hmem) hlk
      have hcmA : classMembers di l' (condenseLabels di a) = [] := by
        by_contra hc
        exact hL0 ((classMembers_ne_nil_iff di l' _).mp hc)
      have hsplit : ∀ (M : Finset Nat) (k : Nat),
          lookupIds ((condenseFold di l').newIds ++
            [(condenseLabels di a, (condenseFold di l').newNodes.length)]) M
              = some k →
          lookupIds (condenseFold di l').newIds M = some k ∨
          (condenseLabels di a = M ∧
            k = (condenseFold di l').newNodes.length ∧
            lookupIds (condenseFold di l').newIds M = none) := by
        intro M k hk
        rw [lookupIds_append_single] at hk
        rcases hM : lookupIds (condenseFold di l').newIds M with _ | k0
        · rw [hM] at hk
          simp only at hk
          by_cases hc : condenseLabels di a = M
          · rw [if_pos hc] at hk
            exact Or.inr ⟨hc, by simpa using hk.symm, rfl⟩
          · rw [if_neg hc] at hk
            exact absurd hk (by simp)
        · rw [hM] at hk
          simp only at hk
          have hk0 : k0 = k := by simpa using hk
          exact Or.inl (by rw [hk0])
      have hfwd : ∀ M k, lookupIds (condenseFold di l').newIds M = some k →
          lookupIds ((condenseFold di l').newIds ++
            [(condenseLabels di a, (condenseFold di l').newNodes.length)]) M
              = some k := by
        intro M k hk
        rw [lookupIds_append_single, hk]
      have hnew : lookupIds ((condenseFold di l').newIds ++
          [(condenseLabels di a, (condenseFold di l').newNodes.length)])
            (condenseLabels di a) =
          some (condenseFold di l').newNodes.length := by
        rw [lookupIds_append_single, hlk]
        simp
      refine ⟨by simp [h1], ?_, ?_, ?_, ?_, ?_, ?_, ?_, ?_⟩
      · intro L
        rw [List.map_append, List.mem_append]
        constructor
        · intro hne
          rcases ho : lookupIds ((condenseFold di l').newIds ++
            [(condenseLabels di a, (condenseFold di l').newNodes.length)]) L
              with _ | k
          · exact absurd ho hne
          · rcases hsplit L k ho with hold | ⟨hc, _, _⟩
            · exact Or.inl ((h2 L).mp (by rw [hold]; simp))
            · refine Or.inr ?_
              rw [← hc]
              simp
        · intro hm
          rcases hm with hm | hm
          · have hne := (h2 L).mpr hm
            rcases ho : lookupIds (condenseFold di l').newIds L with _ | k
            · exact absurd ho hne
            · rw [hfwd L k ho]
              simp
          · rw [List.map_singleton, List.mem_singleton] at hm
            rw [hm, hnew]
            simp
      · intro L j hj
        rw [List.length_append, List.length_singleton]
        rcases hsplit L j hj with hold | ⟨_, hje, _⟩
        · have := h3 L j hold
          omega
        · omega
      · intro L Lp j jp hj hjp
        rcases hsplit L j hj with hold | ⟨hc, hje, hn⟩
        · rcases hsplit Lp jp hjp with holdp | ⟨hcp, hjpe, hnp⟩
          · exact h4 L Lp j jp hold holdp
          · have hjlt := h3 L j hold
            constructor
            · intro he
              exfalso
              omega
            · intro he
              exfalso
              rw [he] at hold
              rw [hold] at hnp
              exact Option.noConfusion hnp
        · rcases hsplit Lp jp hjp with holdp | ⟨hcp, hjpe, hnp⟩
          · have hjplt := h3 Lp jp holdp
            constructor
            · intro he
              exfalso
              omega
            · intro he
              exfalso
              rw [← he] at holdp
              rw [holdp] at hn
              exact Option.noConfusion hn
          · constructor
            · intro _
              rw [← hc, ← hcp]
            · intro _
              omega
      · intro j hj
        rw [List.length_append, List.length_singleton] at hj
        by_cases hje : j = (condenseFold di l').newNodes.length
        · exact ⟨condenseLabels di a, hje ▸ hnew⟩
        · obtain ⟨L, hL⟩ := h5 j (by omega)
          exact ⟨L, hfwd L j hL⟩
      · intro L j hj
        rcases hsplit L j hj with hold | ⟨hc, hje, hn⟩
        · have hLne : condenseLabels di a ≠ L := by
            intro hce
            rw [hce, hold] at hlk
            exact Option.noConfusion hlk
          obtain ⟨hne, hw⟩ := h6 L j hold
          rw [classMembers_concat, if_neg hLne, List.append_nil]
          refine ⟨hne, ?_⟩
          rw [List.getD_append _ _ _ _ (h3 L j hold)]
          exact hw
        · subst hc
          rw [classMembers_concat, hcmA, if_pos rfl, List.nil_append]
          refine ⟨by simp, ?_⟩
          rw [hje, List.getD_eq_getElem?_getD, List.getElem?_concat_length]
          simp only [Option.getD_some, List.headD, List.map, List.sum_cons,
            List.sum_nil]
          rw [holdA]
          rfl
      · rw [List.length_append, List.length_singleton, List.map_append,
          List.toFinset_append]
        simp only [List.map, List.toFinset_cons, List.toFinset_nil]
        rw [show insert (condenseLabels di a) (∅ : Finset (Finset Nat)) =
          ({condenseLabels di a} : Finset (Finset Nat)) from rfl,
          Finset.union_comm, ← Finset.insert_eq]
        rw [Finset.card_insert_of_not_mem (by
          rw [List.mem_toFinset]
          exact hL0)]
        rw [h7]
      · intro v hv
        have hvl : v ∉ l' := fun h => hv (List.mem_append_left _ h)
        have hva : v ≠ a := fun h =>
          hv (List.mem_append_right _ (h ▸ List.mem_singleton_self a))
        rw [listGetD_set_ne _ _ _ _ _ (fun h => hva h.symm)]
        exact h8 v hvl
      · rw [List.map_append, List.sum_append, List.map_append,
          List.sum_append, h9, holdA]
        rfl
    · -- hit branch: existing class
      rw [condenseStep_hit _ _ _ nn hlk]
      have hmem0 : condenseLabels di a ∈ l'.map (condenseLabels di) :=
        (h2 _).mp (by rw [hlk]; simp)
      have hnnlt := h3 _ nn hlk
      refine ⟨by simp [h1], ?_, ?_, ?_, ?_, ?_, ?_, ?_, ?_⟩
      · intro L
        rw [h2 L, List.map_append, List.mem_append]
        constructor
        · intro h
          exact Or.inl h
        · rintro (h | h)
          · exact h
          · rw [List.map_singleton, List.mem_singleton] at h
            rw [h]
            exact hmem0
      · intro L j hj
        rw [List.length_set]
        exact h3 L j hj
      · exact h4
      · intro j hj
        rw [List.length_set] at hj
        exact h5 j hj
      · intro L j hj
        obtain ⟨hne, hw⟩ := h6 L j hj
        by_cases hLe : condenseLabels di a = L
        · have hje : j = nn := by
            rw [hLe] at hlk
            have := h4 L L j nn hj hlk
            exact (this.mpr rfl)
          subst hje
          rw [classMembers_concat, if_pos hLe]
          refine ⟨by simp [hne], ?_⟩
          rw [getD_set_self_or, if_pos hnnlt, hw]
          rw [headD_append_left _ _ _ hne]
          rw [List.map_append, List.sum_append, holdA]
          simp
        · have hjne : j ≠ nn := by
            intro hje
            have := h4 L (condenseLabels di a) j nn hj hlk
            exact hLe ((this.mp hje)).symm
          rw [classMembers_concat, if_neg hLe, List.append_nil]
          refine ⟨hne, ?_⟩
          rw [listGetD_set_ne _ _ _ _ _ (fun h => hjne h.symm)]
          exact hw
      · rw [List.length_set, List.map_append, List.toFinset_append]
        simp only [List.map, List.toFinset_cons, List.toFinset_nil]
        rw [show insert (condenseLabels di a) (∅ : Finset (Finset Nat)) =
          ({condenseLabels di a} : Finset (Finset Nat)) from rfl,
          Finset.union_comm, ← Finset.insert_eq,
          Finset.insert_eq_self.mpr (List.mem_toFinset.mpr hmem0)]
        exact h7
      · intro v hv
        exact h8 v (fun h => hv (List.mem_append_left _ h))
      · rw [List.map_set]
        have hgs : ((condenseFold di l').newNodes.map (fun d => d.size)).getD
            nn 0 = ((condenseFold di l').newNodes.getD nn
              Derivation.dummy).size :=
          getD_map_lt _ _ _ _ _ hnnlt
        have hsum := sum_set_getD
          ((condenseFold di l').newNodes.map (fun d => d.size)) nn
          (((condenseFold di l').newNodes.getD nn Derivation.dummy).size +
            ((condenseFold di l').oldNodes.getD a Derivation.dummy).size)
          (by rw [List.length_map]; exact hnnlt)
        rw [hgs] at hsum
        rw [List.map_append, List.sum_append, ← h9, holdA]
        simp only [List.map, List.sum_cons, List.sum_nil]
        rw [holdA] at hsum
        omega

end NixDu

namespace NixDu

theorem condense_gedges_target_lt (di : DepInfos) (hwf : di.WF) :
    ∀ e ∈ condenseGEdges di, e.2 < di.graph.nodes.length := by
  intro e he
  rcases List.mem_append.mp he with h | h
  · exact (hwf.1 e h).2
  · rw [List.mem_map] at h
    obtain ⟨r, hr, heq⟩ := h
    have := hwf.2.1 r hr
    rw [← heq]
    exact this

theorem condense_adj_bound (di : DepInfos) (hwf : di.WF) :
    ∀ u m, m ∈ adjOf (condenseGEdges di) u → m < di.graph.nodes.length + 1 := by
  intro u m hm
  rw [mem_adjOf] at hm
  have := condense_gedges_target_lt di hwf (u, m) hm
  omega

theorem condense_reach_below (di : DepInfos) (hwf : di.WF) (u v : Nat)
    (hu : u < di.graph.nodes.length)
    (h : Reaches (adjOf (condenseGEdges di)) u v) :
    v < di.graph.nodes.length ∧ Reaches di.graph.adj u v := by
  induction h with
  | refl => exact ⟨hu, .refl u⟩
  | step hxy hz hnz ih =>
    rename_i y z
    obtain ⟨hyn, hdy⟩ := ih
    have hezge : (y, z) ∈ condenseGEdges di := (mem_adjOf _ _ _).mp hz
    rcases List.mem_append.mp hezge with hmem | hmem
    · refine ⟨(hwf.1 _ hmem).2, .step hdy ?_ (List.not_mem_nil _)⟩
      rw [DepGraph.mem_adj]
      exact hmem
    · exfalso
      rw [List.mem_map] at hmem
      obtain ⟨i, _, heq⟩ := hmem
      have : y = di.graph.nodes.length := by
        have := congrArg Prod.fst heq
        simpa using this.symm
      omega

theorem condense_reach_lift (di : DepInfos) {u v : Nat}
    (h : Reaches di.graph.adj u v) :
    Reaches (adjOf (condenseGEdges di)) u v := by
  refine reaches_of_sub_edges ?_ h
  intro e he
  exact List.mem_append_left _ he

theorem condense_reach_from_fake (di : DepInfos) (hwf : di.WF) (v : Nat)
    (h : Reaches (adjOf (condenseGEdges di)) di.graph.nodes.length v) :
    v = di.graph.nodes.length ∨
      ∃ r ∈ di.roots, Reaches di.graph.adj r v := by
  rcases h.head_decomp with heq | ⟨z, hz, _, hzv⟩
  · exact Or.inl heq.symm
  · have hezge : (di.graph.nodes.length, z) ∈ condenseGEdges di :=
      (mem_adjOf _ _ _).mp hz
    rcases List.mem_append.mp hezge with hmem | hmem
    · exact absurd (hwf.1 _ hmem).1 (by omega)
    · rw [List.mem_map] at hmem
      obtain ⟨r, hr, heq⟩ := hmem
      have hzr : z = r := by
        have := congrArg Prod.snd heq
        simpa using this.symm
      subst hzr
      have hzlt : z < di.graph.nodes.length := hwf.2.1 z hr
      exact Or.inr ⟨z, hr, (condense_reach_below di hwf z v hzlt hzv).2⟩

/-- The label of a vertex below the fake root records exactly the root
ordinals that reach it in the input graph. -/
theorem condenseLabels_mem (di : DepInfos) (hwf : di.WF) (v : Nat) (i : Nat) :
    i ∈ condenseLabels di v ↔
      i < di.roots.length ∧ Reaches di.graph.adj (di.roots.getD i 0) v := by
  unfold condenseLabels
  rw [Finset.mem_filter, Finset.mem_range]
  constructor
  · rintro ⟨hi, hmem⟩
    have hroot : di.roots.getD i 0 ∈ di.roots := by
      rw [List.getD_eq_getElem?_getD, List.getElem?_eq_getElem hi]
      exact List.getElem_mem hi
    have hrlt : di.roots.getD i 0 < di.graph.nodes.length := hwf.2.1 _ hroot
    rw [mem_bfsFrom_iff (adjOf (condenseGEdges di)) (di.graph.nodes.length + 1)
      (condense_adj_bound di hwf) _ (by omega) _ le_rfl] at hmem
    exact ⟨hi, (condense_reach_below di hwf _ v hrlt hmem).2⟩
  · rintro ⟨hi, hreach⟩
    refine ⟨hi, ?_⟩
    have hroot : di.roots.getD i 0 ∈ di.roots := by
      rw [List.getD_eq_getElem?_getD, List.getElem?_eq_getElem hi]
      exact List.getElem_mem hi
    have hrlt : di.roots.getD i 0 < di.graph.nodes.length := hwf.2.1 _ hroot
    rw [mem_bfsFrom_iff (adjOf (condenseGEdges di)) (di.graph.nodes.length + 1)
      (condense_adj_bound di hwf) _ (by omega) _ le_rfl]
    exact condense_reach_lift di hreach

theorem reach_target_lt (di : DepInfos) (hwf : di.WF) {u v : Nat}
    (h : Reaches di.graph.adj u v) (hu : u < di.graph.nodes.length) :
    v < di.graph.nodes.length := by
  cases h with
  | refl => exact hu
  | step _ hz _ =>
    rw [DepGraph.mem_adj] at hz
    exact (hwf.1 _ hz).2

/-- Labels are empty exactly on the vertices no root reaches. -/
theorem condenseLabels_empty_iff (di : DepInfos) (hwf : di.WF) (v : Nat) :
    condenseLabels di v = ∅ ↔ ¬ di.RootReachable v := by
  constructor
  · intro hemp ⟨r, hr, hreach⟩
    obtain ⟨i, hi, hri⟩ := List.mem_iff_getElem.mp hr
    have : i ∈ condenseLabels di v := by
      rw [condenseLabels_mem di hwf]
      refine ⟨hi, ?_⟩
      rw [List.getD_eq_getElem?_getD, List.getElem?_eq_getElem hi]
      simpa [hri] using hreach
    rw [hemp] at this
    exact absurd this (Finset.not_mem_empty i)
  · intro hnr
    by_contra hne
    obtain ⟨i, hi⟩ := Finset.nonempty_iff_ne_empty.mpr hne
    rw [condenseLabels_mem di hwf] at hi
    refine hnr ⟨di.roots.getD i 0, ?_, hi.2⟩
    rw [List.getD_eq_getElem?_getD, List.getElem?_eq_getElem hi.1]
    exact List.getElem_mem hi.1

/-- Equal labels and equal root sets determine each other. -/
theorem condenseLabels_eq_iff_rootsOf_eq (di : DepInfos) (hwf : di.WF)
    (u v : Nat) :
    condenseLabels di u = condenseLabels di v ↔ rootsOf di u = rootsOf di v := by
  have hro : ∀ w r, r ∈ rootsOf di w ↔ r ∈ di.roots ∧ Reaches di.graph.adj r w := by
    intro w r
    unfold rootsOf
    rw [List.mem_toFinset, List.mem_filter]
    constructor
    · rintro ⟨hr, hb⟩
      rw [list_contains_iff] at hb
      rw [mem_bfsFrom_iff di.graph.adj di.graph.nodes.length
        (fun a m hm => (hwf.1 _ ((DepGraph.mem_adj _ _ _).mp hm)).2) r
        (hwf.2.1 r hr) _ le_rfl] at hb
      exact ⟨hr, hb⟩
    · rintro ⟨hr, hreach⟩
      refine ⟨hr, ?_⟩
      rw [list_contains_iff]
      rw [mem_bfsFrom_iff di.graph.adj di.graph.nodes.length
        (fun a m hm => (hwf.1 _ ((DepGraph.mem_adj _ _ _).mp hm)).2) r
        (hwf.2.1 r hr) _ le_rfl]
      exact hreach
  constructor
  · intro hl
    ext r
    rw [hro, hro]
    constructor
    · rintro ⟨hr, hreach⟩
      obtain ⟨i, hi, hri⟩ := List.mem_iff_getElem.mp hr
      have hmem : i ∈ condenseLabels di u := by
        rw [condenseLabels_mem di hwf]
        refine ⟨hi, ?_⟩
        rw [List.getD_eq_getElem?_getD, List.getElem?_eq_getElem hi]
        simpa [hri] using hreach
      rw [hl, condenseLabels_mem di hwf] at hmem
      refine ⟨hr, ?_⟩
      rw [List.getD_eq_getElem?_getD, List.getElem?_eq_getElem hi] at hmem
      simpa [hri] using hmem.2
    · rintro ⟨hr, hreach⟩
      obtain ⟨i, hi, hri⟩ := List.mem_iff_getElem.mp hr
      have hmem : i ∈ condenseLabels di v := by
        rw [condenseLabels_mem di hwf]
        refine ⟨hi, ?_⟩
        rw [List.getD_eq_getElem?_getD, List.getElem?_eq_getElem hi]
        simpa [hri] using hreach
      rw [← hl, condenseLabels_mem di hwf] at hmem
      refine ⟨hr, ?_⟩
      rw [List.getD_eq_getElem?_getD, List.getElem?_eq_getElem hi] at hmem
      simpa [hri] using hmem.2
  · intro hr
    ext i
    rw [condenseLabels_mem di hwf, condenseLabels_mem di hwf]
    constructor
    · rintro ⟨hi, hreach⟩
      refine ⟨hi, ?_⟩
      have hroot : di.roots.getD i 0 ∈ di.roots := by
        rw [List.getD_eq_getElem?_getD, List.getElem?_eq_getElem hi]
        exact List.getElem_mem hi
      have : di.roots.getD i 0 ∈ rootsOf di u := (hro u _).mpr ⟨hroot, hreach⟩
      rw [hr] at this
      exact ((hro v _).mp this).2
    · rintro ⟨hi, hreach⟩
      refine ⟨hi, ?_⟩
      have hroot : di.roots.getD i 0 ∈ di.roots := by
        rw [List.getD_eq_getElem?_getD, List.getElem?_eq_getElem hi]
        exact List.getElem_mem hi
      have : di.roots.getD i 0 ∈ rootsOf di v := (hro v _).mpr ⟨hroot, hreach⟩
      rw [← hr] at this
      exact ((hro u _).mp this).2

end NixDu

namespace NixDu

theorem enqueue_eq_self_aux (vis : List Nat) :
    ∀ (ns acc : List Nat), ns.Nodup → (∀ m ∈ ns, m ∉ vis ∧ m ∉ acc) →
    ns.foldl (fun acc m => if m ∈ vis ∨ m ∈ acc then acc else acc ++ [m]) acc
      = acc ++ ns := by
  intro ns
  induction ns with
  | nil => intro acc _ _; simp
  | cons n ns ih =>
    intro acc hnd hdis
    have hn := hdis n (List.mem_cons_self _ _)
    rw [List.foldl_cons, if_neg (by
      rintro (h | h)
      · exact hn.1 h
      · exact hn.2 h)]
    rw [ih (acc ++ [n]) (List.nodup_cons.mp hnd).2 ?_]
    · simp
    · intro m hm
      refine ⟨(hdis m (List.mem_cons_of_mem _ hm)).1, ?_⟩
      intro hmem
      rcases List.mem_append.mp hmem with h | h
      · exact (hdis m (List.mem_cons_of_mem _ hm)).2 h
      · rw [List.mem_singleton] at h
        exact (List.nodup_cons.mp hnd).1 (h ▸ hm)

theorem enqueue_eq_self (vis ns : List Nat) (hnd : ns.Nodup)
    (hdis : ∀ m ∈ ns, m ∉ vis) : enqueue vis ns = ns := by
  unfold enqueue
  rw [enqueue_eq_self_aux vis ns [] hnd (fun m hm => ⟨hdis m hm, by simp⟩)]
  simp

theorem bfsAux_take_shape (adj : Nat → List Nat) :
    ∀ (f : Nat) (q vis : List Nat),
    ∃ rest, bfsAux adj f q vis = q.take f ++ rest ∧ ∀ x ∈ rest, x ∉ vis := by
  intro f
  induction f with
  | zero =>
    intro q vis
    exact ⟨[], by simp [bfsAux], by simp⟩
  | succ f ih =>
    intro q vis
    match q with
    | [] => exact ⟨[], by simp [bfsAux], by simp⟩
    | a :: qs =>
      obtain ⟨rest, heq, hrest⟩ := ih (qs ++ enqueue vis (adj a))
        (vis ++ enqueue vis (adj a))
      refine ⟨(enqueue vis (adj a)).take (f - qs.length) ++ rest, ?_, ?_⟩
      · simp only [bfsAux]
        rw [heq, List.take_append_eq_append_take]
        simp [List.take_cons]
      · intro x hx
        rcases List.mem_append.mp hx with h | h
        · exact ((mem_enqueue _ _ _).mp (List.mem_of_mem_take h)).2
        · intro hmem
          exact hrest x h (List.mem_append_left _ hmem)

/-- The fake-root BFS pops the roots (in reverse insertion order) first:
the visit order is the fake root, the reversed root list, then vertices
that are not roots. -/
theorem condense_bfs_shape (di : DepInfos) (hwf : di.WF) :
    ∃ rest, bfsFrom (adjOf (condenseGEdges di)) (di.graph.nodes.length + 1)
      di.graph.nodes.length = di.graph.nodes.length :: (di.roots.reverse ++ rest) ∧
      ∀ x ∈ rest, x ∉ di.roots ∧ x ≠ di.graph.nodes.length := by
  have hadjn : adjOf (condenseGEdges di) di.graph.nodes.length
      = di.roots.reverse := by
    unfold adjOf condenseGEdges
    rw [List.filter_append]
    have h1 : di.graph.edges.filter
        (fun e => e.1 == di.graph.nodes.length) = [] := by
      rw [List.filter_eq_nil_iff]
      intro e he
      have := (hwf.1 e he).1
      simp only [beq_iff_eq]
      omega
    have h2 : (di.roots.map (fun r => (di.graph.nodes.length, r))).filter
        (fun e => e.1 == di.graph.nodes.length)
        = di.roots.map (fun r => (di.graph.nodes.length, r)) := by
      rw [List.filter_eq_self]
      intro e he
      rw [List.mem_map] at he
      obtain ⟨r, _, heq⟩ := he
      rw [← heq]
      simp
    rw [h1, h2, List.nil_append, List.map_map]
    simp [Function.comp]
  have hrootsnd : di.roots.reverse.Nodup := List.nodup_reverse.mpr hwf.2.2.1
  have hdisj : ∀ m ∈ di.roots.reverse, m ∉ [di.graph.nodes.length] := by
    intro m hm
    rw [List.mem_reverse] at hm
    have := hwf.2.1 m hm
    rw [List.mem_singleton]
    omega
  unfold bfsFrom
  simp only [bfsAux]
  rw [hadjn, enqueue_eq_self _ _ hrootsnd hdisj]
  obtain ⟨rest, heq, hrest⟩ := bfsAux_take_shape (adjOf (condenseGEdges di))
    di.graph.nodes.length ([] ++ di.roots.reverse)
    ([di.graph.nodes.length] ++ di.roots.reverse)
  have hlenroots : di.roots.length ≤ di.graph.nodes.length :=
    nodup_bounded_length hwf.2.2.1 hwf.2.1
  refine ⟨rest, ?_, ?_⟩
  · rw [heq]
    congr 1
    rw [List.nil_append, List.take_of_length_le (by
      rw [List.length_reverse]; exact hlenroots)]
  · intro x hx
    have := hrest x hx
    constructor
    · intro hmem
      exact this (List.mem_append_right _ (List.mem_reverse.mpr hmem))
    · intro hmem
      exact this (List.mem_append_left _ (by rw [hmem]; simp))

/-- Membership in the condensation's visitation order is root-reachability. -/
theorem condenseOrder_mem (di : DepInfos) (hwf : di.WF) (v : Nat) :
    v ∈ condenseOrder di ↔ di.RootReachable v := by
  unfold condenseOrder
  rw [List.mem_filter]
  have hb := mem_bfsFrom_iff (adjOf (condenseGEdges di))
    (di.graph.nodes.length + 1) (condense_adj_bound di hwf)
    di.graph.nodes.length (by omega) (di.graph.nodes.length + 1) le_rfl v
  have hnodup : (bfsFrom (adjOf (condenseGEdges di))
      (di.graph.nodes.length + 1) di.graph.nodes.length).Nodup := by
    unfold bfsFrom
    exact bfsAux_nodup _ _ _ _ (List.nodup_singleton _) (fun x hx => hx)
  obtain ⟨rest, heq, _⟩ := condense_bfs_shape di hwf
  constructor
  · rintro ⟨hmem, hlt⟩
    rw [decide_eq_true_eq] at hlt
    have hvb : v ∈ bfsFrom (adjOf (condenseGEdges di))
        (di.graph.nodes.length + 1) di.graph.nodes.length := by
      rw [heq]
      rw [heq] at hmem
      simp only [List.drop_one, List.tail_cons] at hmem
      exact List.mem_cons_of_mem _ hmem
    rw [hb] at hvb
    rcases condense_reach_from_fake di hwf v hvb with h | ⟨r, hr, hreach⟩
    · omega
    · exact ⟨r, hr, hreach⟩
  · rintro ⟨r, hr, hreach⟩
    have hrlt := hwf.2.1 r hr
    have hvlt : v < di.graph.nodes.length :=
      reach_target_lt di hwf hreach hrlt
    have hvb : v ∈ bfsFrom (adjOf (condenseGEdges di))
        (di.graph.nodes.length + 1) di.graph.nodes.length := by
      rw [hb]
      refine ReachOut.trans (.step (.refl _) ?_ (List.not_mem_nil _))
        (condense_reach_lift di hreach)
      rw [mem_adjOf]
      unfold condenseGEdges
      exact List.mem_append_right _ (List.mem_map.mpr ⟨r, hr, rfl⟩)
    refine ⟨?_, by rw [decide_eq_true_eq]; exact hvlt⟩
    rw [heq] at hvb ⊢
    simp only [List.drop_one, List.tail_cons]
    rcases List.mem_cons.mp hvb with h | h
    · omega
    · exact h

theorem condenseOrder_nodup (di : DepInfos) : (condenseOrder di).Nodup := by
  unfold condenseOrder
  refine List.Nodup.filter _ ?_
  have hnodup : (bfsFrom (adjOf (condenseGEdges di))
      (di.graph.nodes.length + 1) di.graph.nodes.length).Nodup := by
    unfold bfsFrom
    exact bfsAux_nodup _ _ _ _ (List.nodup_singleton _) (fun x hx => hx)
  match hq : bfsFrom (adjOf (condenseGEdges di))
      (di.graph.nodes.length + 1) di.graph.nodes.length with
  | [] => simp
  | x :: xs =>
    rw [hq] at hnodup
    simp only [List.drop_one, List.tail_cons]
    exact (List.nodup_cons.mp hnodup).2

end NixDu

namespace NixDu

theorem condense_graph_nodes (di : DepInfos) :
    (condense di).graph.nodes = (condenseState di).newNodes := rfl

theorem condense_graph_edges (di : DepInfos) :
    (condense di).graph.edges =
      condenseEdges (condenseLabels di) (condenseState di).newIds
        (condenseGEdges di) := rfl

theorem condense_roots (di : DepInfos) :
    (condense di).roots = (List.range (condenseState di).newNodes.length).filter
      (fun i => ((condense di).graph.node i).is_root) := rfl

/-- All input vertices reachable from a root, in index order. -/
def DepInfos.reachableList (di : DepInfos) : List Nat :=
  (List.range di.graph.nodes.length).filter
    (fun v => di.roots.any
      (fun r => (bfsFrom di.graph.adj di.graph.nodes.length r).contains v))

theorem reachable_size_eq_list (di : DepInfos) :
    di.reachable_size =
      (di.reachableList.map (fun v => (di.graph.node v).size)).sum := rfl

theorem mem_reachableList (di : DepInfos) (hwf : di.WF) (v : Nat) :
    v ∈ di.reachableList ↔ di.RootReachable v := by
  unfold DepInfos.reachableList
  rw [List.mem_filter, List.mem_range]
  constructor
  · rintro ⟨_, hb⟩
    exact (di.any_bfs_iff hwf v).mp hb
  · intro h
    obtain ⟨r, hr, hreach⟩ := h
    exact ⟨reach_target_lt di hwf hreach (hwf.2.1 r hr),
      (di.any_bfs_iff hwf v).mpr ⟨r, hr, hreach⟩⟩

theorem toFinset_map_eq_of_mem_iff {α β : Type} [DecidableEq β]
    (l₁ l₂ : List α) (f : α → β) (h : ∀ x, x ∈ l₁ ↔ x ∈ l₂) :
    (l₁.map f).toFinset = (l₂.map f).toFinset := by
  ext b
  rw [List.mem_toFinset, List.mem_toFinset, List.mem_map, List.mem_map]
  constructor
  · rintro ⟨a, ha, rfl⟩
    exact ⟨a, (h a).mp ha, rfl⟩
  · rintro ⟨a, ha, rfl⟩
    exact ⟨a, (h a).mpr ha, rfl⟩

theorem toFinset_card_map_congr {α β γ : Type} [DecidableEq β] [DecidableEq γ]
    (l : List α) (f : α → β) (g : α → γ)
    (h : ∀ a ∈ l, ∀ b ∈ l, (f a = f b ↔ g a = g b)) :
    (l.map f).toFinset.card = (l.map g).toFinset.card := by
  induction l with
  | nil => simp
  | cons a l ih =>
    simp only [List.map_cons, List.toFinset_cons]
    have hmemiff : f a ∈ (l.map f).toFinset ↔ g a ∈ (l.map g).toFinset := by
      rw [List.mem_toFinset, List.mem_toFinset, List.mem_map, List.mem_map]
      constructor
      · rintro ⟨b, hb, hfb⟩
        exact ⟨b, hb, (h b (List.mem_cons_of_mem _ hb) a
          (List.mem_cons_self _ _)).mp hfb⟩
      · rintro ⟨b, hb, hgb⟩
        exact ⟨b, hb, (h b (List.mem_cons_of_mem _ hb) a
          (List.mem_cons_self _ _)).mpr hgb⟩
    have ih2 := ih (fun x hx y hy =>
      h x (List.mem_cons_of_mem _ hx) y (List.mem_cons_of_mem _ hy))
    by_cases hfa : f a ∈ (l.map f).toFinset
    · rw [Finset.insert_eq_self.mpr hfa,
        Finset.insert_eq_self.mpr (hmemiff.mp hfa)]
      exact ih2
    · rw [Finset.card_insert_of_not_mem hfa,
        Finset.card_insert_of_not_mem (fun hc => hfa (hmemiff.mpr hc)), ih2]

theorem condenseLabels_fake_empty (di : DepInfos) (hwf : di.WF) :
    condenseLabels di di.graph.nodes.length = ∅ := by
  rw [condenseLabels_empty_iff di hwf]
  rintro ⟨r, hr, hreach⟩
  have := reach_target_lt di hwf hreach (hwf.2.1 r hr)
  omega

theorem condense_lookup_empty (di : DepInfos) (hwf : di.WF) :
    lookupIds (condenseState di).newIds ∅ = none := by
  obtain ⟨h1, h2, h3, h4, h5, h6, h7, h8, h9⟩ :=
    condense_fold_spec di (condenseOrder di) (condenseOrder_nodup di)
  rw [condenseState_eq_fold]
  by_contra hc
  have := (h2 ∅).mp hc
  rw [List.mem_map] at this
  obtain ⟨v, hv, hlv⟩ := this
  have hrv := (condenseOrder_mem di hwf v).mp hv
  exact (condenseLabels_empty_iff di hwf v).mp hlv hrv

theorem condenseClassOf_isSome (di : DepInfos) (hwf : di.WF) (v : Nat)
    (h : di.RootReachable v) : ∃ j, condenseClassOf di v = some j := by
  obtain ⟨h1, h2, h3, h4, h5, h6, h7, h8, h9⟩ :=
    condense_fold_spec di (condenseOrder di) (condenseOrder_nodup di)
  unfold condenseClassOf
  rw [condenseState_eq_fold]
  have hmem : condenseLabels di v ∈
      (condenseOrder di).map (condenseLabels di) :=
    List.mem_map.mpr ⟨v, (condenseOrder_mem di hwf v).mpr h, rfl⟩
  have := (h2 _).mpr hmem
  rcases hc : lookupIds (condenseFold di (condenseOrder di)).newIds
      (condenseLabels di v) with _ | j
  · exact absurd hc this
  · exact ⟨j, rfl⟩

/-- C1: the condenser's output has one vertex per distinct `roots(v)`
among the root-reachable input vertices; reachable vertices obtain a
class, two of them share a class exactly when their root sets coincide,
every output vertex is some reachable vertex's class, and unreachable
vertices have no counterpart (src/reduction.rs, lines 65-104). -/
theorem claim_C1_condense_classes (di : DepInfos) (hwf : di.WF) :
    ((condense di).graph.nodes.length =
      (di.reachableList.map (rootsOf di)).toFinset.card) ∧
    (∀ v, di.RootReachable v → ∃ j, condenseClassOf di v = some j) ∧
    (∀ u v, di.RootReachable u → di.RootReachable v →
      (condenseClassOf di u = condenseClassOf di v ↔
        rootsOf di u = rootsOf di v)) ∧
    (∀ j, j < (condense di).graph.nodes.length →
      ∃ v, di.RootReachable v ∧ condenseClassOf di v = some j) ∧
    (∀ v, ¬ di.RootReachable v → condenseClassOf di v = none) := by
  obtain ⟨h1, h2, h3, h4, h5, h6, h7, h8, h9⟩ :=
    condense_fold_spec di (condenseOrder di) (condenseOrder_nodup di)
  refine ⟨?_, fun v h => condenseClassOf_isSome di hwf v h, ?_, ?_, ?_⟩
  · rw [show (condense di).graph.nodes.length
      = (condenseFold di (condenseOrder di)).newNodes.length from rfl, h7]
    rw [toFinset_map_eq_of_mem_iff (condenseOrder di) di.reachableList
      (condenseLabels di) (fun x => by
        rw [condenseOrder_mem di hwf x, mem_reachableList di hwf x])]
    exact toFinset_card_map_congr di.reachableList (condenseLabels di)
      (rootsOf di) (fun a _ b _ => by
        constructor
        · intro he
          exact (condenseLabels_eq_iff_rootsOf_eq di hwf a b).mp he
        · intro he
          exact (condenseLabels_eq_iff_rootsOf_eq di hwf a b).mpr he)
  · intro u v hu hv
    obtain ⟨ju, hju⟩ := condenseClassOf_isSome di hwf u hu
    obtain ⟨jv, hjv⟩ := condenseClassOf_isSome di hwf v hv
    rw [hju, hjv]
    rw [← condenseLabels_eq_iff_rootsOf_eq di hwf]
    unfold condenseClassOf at hju hjv
    rw [condenseState_eq_fold] at hju hjv
    constructor
    · intro he
      have hee : ju = jv := by simpa using he
      exact (h4 _ _ _ _ hju hjv).mp hee
    · intro he
      have := (h4 _ _ _ _ hju hjv).mpr he
      rw [this]
  · intro j hj
    rw [show (condense di).graph.nodes.length
      = (condenseFold di (condenseOrder di)).newNodes.length from rfl] at hj
    obtain ⟨L, hL⟩ := h5 j hj
    have hmem := (h2 L).mp (by rw [hL]; simp)
    rw [List.mem_map] at hmem
    obtain ⟨v, hv, hlv⟩ := hmem
    refine ⟨v, (condenseOrder_mem di hwf v).mp hv, ?_⟩
    unfold condenseClassOf
    rw [condenseState_eq_fold, hlv]
    exact hL
  · intro v hv
    unfold condenseClassOf
    rw [(condenseLabels_empty_iff di hwf v).mpr hv]
    exact condense_lookup_empty di hwf

end NixDu

namespace NixDu

theorem claim_C1_condense_classes_witness :
    exampleDi.WF ∧
    (condense exampleDi).graph.nodes.length =
      (exampleDi.reachableList.map (rootsOf exampleDi)).toFinset.card :=
  ⟨by decide, (claim_C1_condense_classes exampleDi (by decide)).1⟩

theorem updateEdge_mem (edges : List (Nat × Nat)) (e x : Nat × Nat) :
    x ∈ updateEdge edges e ↔ x ∈ edges ∨ x = e := by
  unfold updateEdge
  by_cases h : e ∈ edges
  · rw [if_pos h]
    constructor
    · exact Or.inl
    · rintro (hx | rfl)
      · exact hx
      · exact h
  · rw [if_neg h]
    simp

theorem updateEdge_nodup (edges : List (Nat × Nat)) (e : Nat × Nat)
    (h : edges.Nodup) : (updateEdge edges e).Nodup := by
  unfold updateEdge
  by_cases he : e ∈ edges
  · rw [if_pos he]
    exact h
  · rw [if_neg he]
    exact List.Nodup.append h (List.nodup_singleton e)
      (fun a ha hb => he (List.mem_singleton.mp hb ▸ ha))

/-- One iteration of the edge-reprojection loop, named for the proofs. -/
def condenseEdgeStep (labels : Nat → Finset Nat)
    (newIds : List (Finset Nat × Nat)) (acc : List (Nat × Nat))
    (e : Nat × Nat) : List (Nat × Nat) :=
  if labels e.1 ≠ labels e.2 then
    match lookupIds newIds (labels e.1), lookupIds newIds (labels e.2) with
    | some nf, some nt => updateEdge acc (nf, nt)
    | _, _ => acc
  else acc

theorem condenseEdges_eq_fold (labels : Nat → Finset Nat)
    (newIds : List (Finset Nat × Nat)) (gEdges : List (Nat × Nat)) :
    condenseEdges labels newIds gEdges =
      gEdges.foldl (condenseEdgeStep labels newIds) [] := rfl

theorem condenseEdgeStep_mem (labels : Nat → Finset Nat)
    (newIds : List (Finset Nat × Nat)) (acc : List (Nat × Nat))
    (e p : Nat × Nat) :
    p ∈ condenseEdgeStep labels newIds acc e ↔
      p ∈ acc ∨ (labels e.1 ≠ labels e.2 ∧
        lookupIds newIds (labels e.1) = some p.1 ∧
        lookupIds newIds (labels e.2) = some p.2) := by
  unfold condenseEdgeStep
  by_cases hne : labels e.1 ≠ labels e.2
  · rw [if_pos hne]
    rcases h1 : lookupIds newIds (labels e.1) with _ | nf
    · simp [h1]
    · rcases h2 : lookupIds newIds (labels e.2) with _ | nt
      · simp [h1, h2]
      · rw [updateEdge_mem]
        constructor
        · rintro (hp | rfl)
          · exact Or.inl hp
          · exact Or.inr ⟨hne, rfl, rfl⟩
        · rintro (hp | ⟨_, ha, hb⟩)
          · exact Or.inl hp
          · exact Or.inr (Prod.ext
              (Option.some_inj.mp ha).symm
              (Option.some_inj.mp hb).symm)
  · rw [if_neg hne]
    simp [hne]

theorem condenseEdgeStep_nodup (labels : Nat → Finset Nat)
    (newIds : List (Finset Nat × Nat)) (acc : List (Nat × Nat))
    (e : Nat × Nat) (h : acc.Nodup) :
    (condenseEdgeStep labels newIds acc e).Nodup := by
  unfold condenseEdgeStep
  split
  · split
    · exact updateEdge_nodup _ _ h
    · exact h
  · exact h

theorem condenseEdges_fold_mem (labels : Nat → Finset Nat)
    (newIds : List (Finset Nat × Nat)) (gEdges : List (Nat × Nat))
    (acc : List (Nat × Nat)) (p : Nat × Nat) :
    p ∈ gEdges.foldl (condenseEdgeStep labels newIds) acc ↔
      p ∈ acc ∨ ∃ e ∈ gEdges, labels e.1 ≠ labels e.2 ∧
        lookupIds newIds (labels e.1) = some p.1 ∧
        lookupIds newIds (labels e.2) = some p.2 := by
  induction gEdges generalizing acc with
  | nil => simp
  | cons e es ih =>
    rw [List.foldl_cons, ih, condenseEdgeStep_mem]
    simp only [List.mem_cons]
    constructor
    · rintro ((hp | he) | ⟨x, hx, hP⟩)
      · exact Or.inl hp
      · exact Or.inr ⟨e, Or.inl rfl, he⟩
      · exact Or.inr ⟨x, Or.inr hx, hP⟩
    · rintro (hp | ⟨x, (rfl | hx), hP⟩)
      · exact Or.inl (Or.inl hp)
      · exact Or.inl (Or.inr hP)
      · exact Or.inr ⟨x, hx, hP⟩

theorem condenseEdges_fold_nodup (labels : Nat → Finset Nat)
    (newIds : List (Finset Nat × Nat)) (gEdges : List (Nat × Nat))
    (acc : List (Nat × Nat)) (h : acc.Nodup) :
    (gEdges.foldl (condenseEdgeStep labels newIds) acc).Nodup := by
  induction gEdges generalizing acc with
  | nil => exact h
  | cons e es ih => exact ih _ (condenseEdgeStep_nodup _ _ _ _ h)

theorem condenseEdges_mem (labels : Nat → Finset Nat)
    (newIds : List (Finset Nat × Nat)) (gEdges : List (Nat × Nat))
    (p : Nat × Nat) :
    p ∈ condenseEdges labels newIds gEdges ↔
      ∃ e ∈ gEdges, labels e.1 ≠ labels e.2 ∧
        lookupIds newIds (labels e.1) = some p.1 ∧
        lookupIds newIds (labels e.2) = some p.2 := by
  rw [condenseEdges_eq_fold, condenseEdges_fold_mem]
  simp

end NixDu

namespace NixDu

/-- C2: the condensed graph has an edge between two distinct classes iff
some input edge crosses between their members; it never has a self-edge,
and its edge list has no duplicate pair (src/reduction.rs, lines
107-116). -/
theorem claim_C2_condense_edges (di : DepInfos) (hwf : di.WF) :
    (∀ a b, a ≠ b →
      ((a, b) ∈ (condense di).graph.edges ↔
        ∃ u v, (u, v) ∈ di.graph.edges ∧
          condenseClassOf di u = some a ∧ condenseClassOf di v = some b)) ∧
    (∀ a, (a, a) ∉ (condense di).graph.edges) ∧
    (condense di).graph.edges.Nodup := by
  have hinj : ∀ L Lp j jp, lookupIds (condenseState di).newIds L = some j →
      lookupIds (condenseState di).newIds Lp = some jp → (j = jp ↔ L = Lp) := by
    rw [condenseState_eq_fold]
    exact (condense_fold_spec di (condenseOrder di)
      (condenseOrder_nodup di)).2.2.2.1
  refine ⟨?_, ?_, ?_⟩
  · intro a b hab
    rw [condense_graph_edges, condenseEdges_mem]
    simp only [condenseClassOf]
    constructor
    · rintro ⟨⟨u, v⟩, he, hne, hl1, hl2⟩
      unfold condenseGEdges at he
      rw [List.mem_append] at he
      rcases he with he | he
      · exact ⟨u, v, he, hl1, hl2⟩
      · rw [List.mem_map] at he
        obtain ⟨r, hr, heq⟩ := he
        cases heq
        rw [condenseLabels_fake_empty di hwf,
          condense_lookup_empty di hwf] at hl1
        exact absurd hl1 (by simp)
    · rintro ⟨u, v, huv, hcu, hcv⟩
      refine ⟨(u, v), ?_, ?_, hcu, hcv⟩
      · unfold condenseGEdges
        rw [List.mem_append]
        exact Or.inl huv
      · intro hl
        have hcu2 : lookupIds (condenseState di).newIds
            (condenseLabels di v) = some a := by
          rw [← hl]
          exact hcu
        have : (some a : Option Nat) = some b := hcu2.symm.trans hcv
        exact hab (Option.some_inj.mp this)
  · intro a
    rw [condense_graph_edges, condenseEdges_mem]
    rintro ⟨e, he, hne, hl1, hl2⟩
    exact hne ((hinj _ _ _ _ hl1 hl2).mp rfl)
  · rw [condense_graph_edges, condenseEdges_eq_fold]
    exact condenseEdges_fold_nodup _ _ _ _ List.nodup_nil

theorem claim_C2_condense_edges_witness :
    exampleDi.WF ∧ (condense exampleDi).graph.edges.Nodup :=
  ⟨by decide, (claim_C2_condense_edges exampleDi (by decide)).2.2⟩

/-- C6: every output vertex of the condenser is, for some label class,
the first member of the class in the breadth-first visitation order from
the super-root, keeping that member's description and carrying the sum of
all members' sizes (src/reduction.rs, lines 93-104). -/
theorem claim_C6_condense_representatives (di : DepInfos) (j : Nat)
    (hj : j < (condense di).graph.nodes.length) :
    ∃ L, lookupIds (condenseState di).newIds L = some j ∧
      classMembers di (condenseOrder di) L ≠ [] ∧
      (condense di).graph.node j =
        { di.graph.node ((classMembers di (condenseOrder di) L).headD 0) with
          size := ((classMembers di (condenseOrder di) L).map
            (fun v => (di.graph.node v).size)).sum } := by
  obtain ⟨h1, h2, h3, h4, h5, h6, h7, h8, h9⟩ :=
    condense_fold_spec di (condenseOrder di) (condenseOrder_nodup di)
  have hj2 : j < (condenseFold di (condenseOrder di)).newNodes.length := hj
  obtain ⟨L, hL⟩ := h5 j hj2
  refine ⟨L, ?_, (h6 L j hL).1, ?_⟩
  · rw [condenseState_eq_fold]
    exact hL
  · exact (h6 L j hL).2

theorem claim_C6_condense_representatives_witness :
    0 < (condense exampleDi).graph.nodes.length ∧
    ∃ L, lookupIds (condenseState exampleDi).newIds L = some 0 ∧
      classMembers exampleDi (condenseOrder exampleDi) L ≠ [] ∧
      (condense exampleDi).graph.node 0 =
        { exampleDi.graph.node
            ((classMembers exampleDi (condenseOrder exampleDi) L).headD 0) with
          size := ((classMembers exampleDi (condenseOrder exampleDi) L).map
            (fun v => (exampleDi.graph.node v).size)).sum } :=
  ⟨by decide, claim_C6_condense_representatives exampleDi 0 (by decide)⟩

end NixDu

namespace NixDu

theorem condenseOrder_shape (di : DepInfos) (hwf : di.WF) :
    ∃ rest, condenseOrder di = di.roots.reverse ++ rest ∧
      ∀ x ∈ rest, x ∉ di.roots := by
  obtain ⟨rest, heq, hrest⟩ := condense_bfs_shape di hwf
  unfold condenseOrder
  rw [heq, List.drop_one, List.tail_cons, List.filter_append]
  refine ⟨rest.filter (fun v => decide (v < di.graph.nodes.length)), ?_, ?_⟩
  · congr 1
    rw [List.filter_eq_self]
    intro a ha
    rw [List.mem_reverse] at ha
    simpa using hwf.2.1 a ha
  · intro x hx
    exact (hrest x (List.mem_filter.mp hx).1).1

theorem condense_lookup_inj (di : DepInfos) {L Lp : Finset Nat} {j jp : Nat}
    (h : lookupIds (condenseState di).newIds L = some j)
    (hp : lookupIds (condenseState di).newIds Lp = some jp) :
    j = jp ↔ L = Lp := by
  rw [condenseState_eq_fold] at h hp
  exact (condense_fold_spec di (condenseOrder di)
    (condenseOrder_nodup di)).2.2.2.1 _ _ _ _ h hp

theorem condense_edge_of (di : DepInfos) {u v a b : Nat}
    (huv : (u, v) ∈ di.graph.edges)
    (ha : condenseClassOf di u = some a) (hb : condenseClassOf di v = some b)
    (hne : condenseLabels di u ≠ condenseLabels di v) :
    (a, b) ∈ (condense di).graph.edges := by
  rw [condense_graph_edges, condenseEdges_mem]
  refine ⟨(u, v), ?_, hne, ha, hb⟩
  unfold condenseGEdges
  rw [List.mem_append]
  exact Or.inl huv

theorem condense_root_class_is_root (di : DepInfos) (hwf : di.WF) (r : Nat)
    (hr : r ∈ di.roots) :
    ∃ jr, condenseClassOf di r = some jr ∧
      ((condense di).graph.node jr).is_root = true := by
  have hrr : di.RootReachable r := ⟨r, hr, .refl r⟩
  obtain ⟨jr, hjr⟩ := condenseClassOf_isSome di hwf r hrr
  refine ⟨jr, hjr, ?_⟩
  have hjr2 : lookupIds (condenseFold di (condenseOrder di)).newIds
      (condenseLabels di r) = some jr := by
    rw [← condenseState_eq_fold]
    exact hjr
  have hnode := ((condense_fold_spec di (condenseOrder di)
    (condenseOrder_nodup di)).2.2.2.2.2.1 _ _ hjr2).2
  have hnode_eq : (condense di).graph.node jr =
      (condenseFold di (condenseOrder di)).newNodes.getD jr
        Derivation.dummy := rfl
  rw [hnode_eq, hnode]
  show (di.graph.node
    ((classMembers di (condenseOrder di) (condenseLabels di r)).headD 0)
      ).is_root = true
  obtain ⟨rest, hos, hrest⟩ := condenseOrder_shape di hwf
  have hcm : classMembers di (condenseOrder di) (condenseLabels di r) =
      classMembers di di.roots.reverse (condenseLabels di r) ++
        classMembers di rest (condenseLabels di r) := by
    unfold classMembers
    rw [hos, List.filter_append]
  have hrmem : r ∈ classMembers di di.roots.reverse (condenseLabels di r) := by
    unfold classMembers
    rw [List.mem_filter]
    exact ⟨List.mem_reverse.mpr hr, by simp⟩
  have hne : classMembers di di.roots.reverse (condenseLabels di r) ≠ [] := by
    intro hnil
    rw [hnil] at hrmem
    exact absurd hrmem (List.not_mem_nil r)
  rw [hcm, headD_append_left _ _ _ hne]
  have hhead : (classMembers di di.roots.reverse
      (condenseLabels di r)).headD 0 ∈
        classMembers di di.roots.reverse (condenseLabels di r) := by
    cases hcl : classMembers di di.roots.reverse (condenseLabels di r) with
    | nil => exact absurd hcl hne
    | cons x xs => exact List.mem_cons_self _ _
  have hmr : (classMembers di di.roots.reverse
      (condenseLabels di r)).headD 0 ∈ di.roots := by
    unfold classMembers at hhead
    rw [List.mem_filter, List.mem_reverse] at hhead
    exact hhead.1
  exact (hwf.2.2.2 _ (hwf.2.1 _ hmr)).mp hmr

end NixDu

namespace NixDu

theorem new_from_graph_WF (g : DepGraph)
    (hedges : ∀ e ∈ g.edges, e.1 < g.nodes.length ∧ e.2 < g.nodes.length) :
    (DepInfos.new_from_graph g).WF := by
  refine ⟨hedges, ?_, ?_, ?_⟩
  · intro r hrm
    exact List.mem_range.mp (List.mem_filter.mp hrm).1
  · exact List.Nodup.filter _ (List.nodup_range _)
  · intro i hi
    constructor
    · intro hmem
      simpa using (List.mem_filter.mp hmem).2
    · intro hroot
      exact List.mem_filter.mpr ⟨List.mem_range.mpr hi, by simpa using hroot⟩

theorem condense_edge_bound (di : DepInfos) :
    ∀ e ∈ (condense di).graph.edges,
      e.1 < (condense di).graph.nodes.length ∧
      e.2 < (condense di).graph.nodes.length := by
  intro e he
  rw [condense_graph_edges, condenseEdges_mem] at he
  obtain ⟨x, _, _, hl1, hl2⟩ := he
  have hb := (condense_fold_spec di (condenseOrder di)
    (condenseOrder_nodup di)).2.2.1
  rw [condenseState_eq_fold] at hl1 hl2
  exact ⟨hb _ _ hl1, hb _ _ hl2⟩

theorem condense_WF (di : DepInfos) : (condense di).WF := by
  have h : condense di = DepInfos.new_from_graph (condense di).graph := rfl
  rw [h]
  exact new_from_graph_WF _ (condense_edge_bound di)

theorem condense_reach_lift_classes (di : DepInfos) (hwf : di.WF)
    {u v a b : Nat} (hu : di.RootReachable u)
    (h : Reaches di.graph.adj u v)
    (ha : condenseClassOf di u = some a)
    (hb : condenseClassOf di v = some b) :
    Reaches (condense di).graph.adj a b := by
  induction h generalizing b with
  | refl =>
    have hab : a = b := Option.some_inj.mp (ha.symm.trans hb)
    rw [hab]
    exact .refl b
  | step hxy hz hnz ih =>
    rename_i y z
    have hy : di.RootReachable y := by
      obtain ⟨r0, hr0, hru⟩ := hu
      exact ⟨r0, hr0, hru.trans hxy⟩
    obtain ⟨cy, hcy⟩ := condenseClassOf_isSome di hwf y hy
    have hreach := ih hcy
    by_cases hcc : cy = b
    · rw [hcc] at hreach
      exact hreach
    · have hlne : condenseLabels di y ≠ condenseLabels di z := by
        intro hl
        have hcy2 : lookupIds (condenseState di).newIds
            (condenseLabels di z) = some cy := by
          rw [← hl]
          exact hcy
        exact hcc (Option.some_inj.mp (hcy2.symm.trans hb))
      have hedge := condense_edge_of di ((DepGraph.mem_adj _ _ _).mp hz)
        hcy hb hlne
      exact .step hreach ((DepGraph.mem_adj _ _ _).mpr hedge)
        (List.not_mem_nil _)

theorem condense_output_reachable (di : DepInfos) (hwf : di.WF) :
    ∀ j < (condense di).graph.nodes.length,
      (condense di).RootReachable j := by
  intro j hj
  obtain ⟨h1, h2, h3, h4, h5, h6, h7, h8, h9⟩ :=
    condense_fold_spec di (condenseOrder di) (condenseOrder_nodup di)
  obtain ⟨L, hL⟩ := h5 j hj
  have hLmem := (h2 L).mp (by rw [hL]; simp)
  rw [List.mem_map] at hLmem
  obtain ⟨v, hv, hlv⟩ := hLmem
  have hvr := (condenseOrder_mem di hwf v).mp hv
  obtain ⟨r, hr, hreach⟩ := hvr
  obtain ⟨jr, hjr, hjroot⟩ := condense_root_class_is_root di hwf r hr
  have hbv : condenseClassOf di v = some j := by
    unfold condenseClassOf
    rw [condenseState_eq_fold, hlv]
    exact hL
  have hlift := condense_reach_lift_classes di hwf ⟨r, hr, .refl r⟩
    hreach hjr hbv
  refine ⟨jr, ?_, hlift⟩
  have hjrlt : jr < (condense di).graph.nodes.length := by
    have hjr2 : lookupIds (condenseFold di (condenseOrder di)).newIds
        (condenseLabels di r) = some jr := by
      rw [← condenseState_eq_fold]
      exact hjr
    exact h3 _ _ hjr2
  have hroots : (condense di).roots =
      (List.range (condense di).graph.nodes.length).filter
        (fun i => ((condense di).graph.node i).is_root) := rfl
  rw [hroots]
  exact List.mem_filter.mpr ⟨List.mem_range.mpr hjrlt, by simpa using hjroot⟩

end NixDu

namespace NixDu

theorem range_map_node_size (g : DepGraph) :
    (List.range g.nodes.length).map (fun v => (g.node v).size) =
      g.nodes.map (fun d => d.size) := by
  apply List.ext_getElem
  · simp
  · intro i h1 h2
    have hi : i < g.nodes.length := by simpa using h2
    simp only [List.getElem_map, List.getElem_range]
    unfold DepGraph.node
    rw [List.getD_eq_getElem?_getD, List.getElem?_eq_getElem hi]
    rfl

theorem reachable_size_eq_size_of_all (di : DepInfos) (hwf : di.WF)
    (hall : ∀ v < di.graph.nodes.length, di.RootReachable v) :
    di.reachable_size = di.size := by
  unfold DepInfos.reachable_size DepInfos.size
  have hfil : (List.range di.graph.nodes.length).filter
      (fun v => di.roots.any
        (fun r => (bfsFrom di.graph.adj di.graph.nodes.length r).contains v)) =
      List.range di.graph.nodes.length := by
    rw [List.filter_eq_self]
    intro v hv
    exact (di.any_bfs_iff hwf v).mpr (hall v (List.mem_range.mp hv))
  rw [hfil, range_map_node_size]

theorem condenseOrder_perm_reachableList (di : DepInfos) (hwf : di.WF) :
    (condenseOrder di).Perm di.reachableList := by
  refine (List.perm_ext_iff_of_nodup (condenseOrder_nodup di) ?_).mpr ?_
  · exact List.Nodup.filter _ (List.nodup_range _)
  · intro v
    rw [condenseOrder_mem di hwf, mem_reachableList di hwf]

theorem condense_preserves_reachable_size (di : DepInfos) (hwf : di.WF) :
    (condense di).reachable_size = di.reachable_size := by
  rw [reachable_size_eq_size_of_all (condense di) (condense_WF di)
    (condense_output_reachable di hwf)]
  unfold DepInfos.size
  have h9 := (condense_fold_spec di (condenseOrder di)
    (condenseOrder_nodup di)).2.2.2.2.2.2.2.2
  have hnodes : (condense di).graph.nodes =
      (condenseFold di (condenseOrder di)).newNodes := rfl
  rw [hnodes, h9, reachable_size_eq_list]
  exact List.Perm.sum_eq
    (List.Perm.map _ (condenseOrder_perm_reachableList di hwf))

end NixDu

namespace NixDu

/-- First-match association lookup, as `BTreeMap::get` over unique keys. -/
def lookupNat : List (Nat × Nat) → Nat → Option Nat
  | [], _ => none
  | p :: ps, k => if p.1 = k then some p.2 else lookupNat ps k

/-- First-match association lookup for weights. -/
def lookupDrv : List (Nat × Derivation) → Nat → Option Derivation
  | [], _ => none
  | p :: ps, k => if p.1 = k then some p.2 else lookupDrv ps k

/-- `BTreeMap::remove` over unique keys. -/
def removeDrv (l : List (Nat × Derivation)) (k : Nat) :
    List (Nat × Derivation) :=
  l.filter (fun p => p.1 != k)

/-- In-place update of the entry at key `k` (`BTreeMap::get_mut`). -/
def mapDrv (l : List (Nat × Derivation)) (k : Nat)
    (f : Derivation → Derivation) : List (Nat × Derivation) :=
  l.map (fun p => if p.1 = k then (p.1, f p.2) else p)

/-- The mutable state of `keep` (src/reduction.rs, lines 153-227):
the old graph's weights, the new graph under construction, the
`new_ids` and `ondemand_weights` maps and the `old_kept_ids` set (kept
as a list in ascending insertion order, the `BTreeSet` iteration
order). -/
structure KeepState where
  oldNodes : List Derivation
  newNodes : List Derivation
  newEdges : List (Nat × Nat)
  newIds : List (Nat × Nat)
  ondemand : List (Nat × Derivation)
  oldKept : List Nat
  deriving DecidableEq

/-- One iteration of the first loop of `keep` (lines 164-176): roots and
kept nodes have their weight swapped out (into `new_ids`/`new_graph` when
kept, into `ondemand_weights` for a non-kept root). -/
def keepPhase1Step (flt : Derivation → Bool) (st : KeepState) (idx : Nat) :
    KeepState :=
  let w := st.oldNodes.getD idx Derivation.dummy
  let kp := flt w
  if w.is_root || kp then
    let st1 : KeepState :=
      { st with oldNodes := st.oldNodes.set idx Derivation.dummy,
                oldKept := st.oldKept ++ [idx] }
    if kp then
      { st1 with newIds := (st1.newIds ++ [(idx, st1.newNodes.length)]),
                 newNodes := st1.newNodes ++ [w] }
    else
      { st1 with ondemand := st1.ondemand ++ [(idx, w)] }
  else st

/-- The first loop of `keep` over all node indices. -/
def keepPhase1 (di : DepInfos) (flt : Derivation → Bool) : KeepState :=
  (List.range di.graph.nodes.length).foldl (keepPhase1Step flt)
    ⟨di.graph.nodes, [], [], [], [], []⟩

/-- The `EdgeFiltered` adjacency used by the walk from `old`: an edge is
followed iff its source is `old` itself or a non-kept vertex (lines
182-184). -/
def keepAdj (edges : List (Nat × Nat)) (oldKeptAll : List Nat) (old : Nat) :
    Nat → List Nat :=
  adjOf (edges.filter (fun e => e.1 == old || ! (oldKeptAll.contains e.1)))

/-- The visit order of the DFS from `old` on the filtered graph, with
`old` itself (the first visit) skipped (lines 185-188). -/
def keepVisit (edges : List (Nat × Nat)) (oldKeptAll : List Nat)
    (fuel old : Nat) : List Nat :=
  (dfsFrom (keepAdj edges oldKeptAll old) fuel old).drop 1

/-- The body of the inner `while` of `keep` (lines 188-214): a kept child
gets an edge from `old`'s new node (materialising an ondemand root
first); a non-kept child has its size absorbed upstream and zeroed. -/
def keepVisitStep (old : Nat) (st : KeepState) (idx : Nat) : KeepState :=
  match lookupNat st.newIds idx with
  | some new2 =>
    (match lookupDrv st.ondemand old with
     | some w =>
       { st with newNodes := st.newNodes ++ [w],
                 ondemand := removeDrv st.ondemand old,
                 newIds := st.newIds ++ [(old, st.newNodes.length)],
                 newEdges := st.newEdges ++ [(st.newNodes.length, new2)] }
     | none =>
       { st with newEdges := (st.newEdges ++
           [((lookupNat st.newIds old).getD 0, new2)]) })
  | none =>
    let sz := (st.oldNodes.getD idx Derivation.dummy).size
    let st2 : KeepState :=
      match lookupDrv st.ondemand old with
      | some _ =>
        { st with ondemand := (mapDrv st.ondemand old
            (fun w => { w with size := w.size + sz })) }
      | none =>
        let ni := (lookupNat st.newIds old).getD 0
        { st with newNodes := (st.newNodes.set ni
            { st.newNodes.getD ni Derivation.dummy with size :=
                (st.newNodes.getD ni Derivation.dummy).size + sz }) }
    { st2 with oldNodes := (st2.oldNodes.set idx
        { st2.oldNodes.getD idx Derivation.dummy with size := 0 }) }

/-- The walk for one element of `old_kept_ids` (lines 179-215). -/
def keepOldStep (edges : List (Nat × Nat)) (oldKeptAll : List Nat)
    (fuel : Nat) (st : KeepState) (old : Nat) : KeepState :=
  (keepVisit edges oldKeptAll fuel old).foldl (keepVisitStep old) st

/-- The DFS fuel: enough to exhaust any traversal of the graph. -/
def keepFuel (di : DepInfos) : Nat :=
  1 + di.graph.nodes.length * (di.graph.edges.length + 1)

/-- The state after both loops of `keep`. -/
def keepPhase2 (di : DepInfos) (flt : Derivation → Bool) : KeepState :=
  (keepPhase1 di flt).oldKept.foldl
    (keepOldStep di.graph.edges (keepPhase1 di flt).oldKept (keepFuel di))
    (keepPhase1 di flt)

/-- The size left in never-materialised ondemand roots (line 217). -/
def keepRemaining (di : DepInfos) (flt : Derivation → Bool) : Nat :=
  ((keepPhase2 di flt).ondemand.map (fun p => p.2.size)).sum

/-- `keep` from src/reduction.rs (lines 153-227). -/
def keep (di : DepInfos) (flt : Derivation → Bool) : DepInfos :=
  DepInfos.new_from_graph
    ⟨if 0 < keepRemaining di flt then
        (keepPhase2 di flt).newNodes ++
          [⟨FILTERED_ROOT_NAME, keepRemaining di flt, true⟩]
      else (keepPhase2 di flt).newNodes,
     (keepPhase2 di flt).newEdges⟩

end NixDu

namespace NixDu

/-- The set of root names (paths of root nodes) of a graph. -/
def DepInfos.rootNames (di : DepInfos) : Finset (List Nat) :=
  (di.roots.map (fun r => (di.graph.node r).path)).toFinset

/-- A kept non-root vertex unreachable from any root, absorbing the size
of a vertex shared with a root: `x -> y`, `r -> y`, only `r` is a root. -/
def diX : DepInfos :=
  ⟨⟨[⟨bytes "x", 1, false⟩, ⟨bytes "r", 1, true⟩, ⟨bytes "y", 1, false⟩],
    [(0, 2), (1, 2)]⟩, [1]⟩

/-- A predicate keeping exactly the vertex named `x`. -/
def fltX : Derivation → Bool := fun d => decide (d.path = bytes "x")

/-- A graph whose only vertex is not a root: positive total size, empty
reachable set. -/
def diT : DepInfos := ⟨⟨[⟨bytes "z", 5, false⟩], []⟩, []⟩

/-- A root with one non-kept child. -/
def diR : DepInfos :=
  ⟨⟨[⟨bytes "r", 1, true⟩, ⟨bytes "y", 1, false⟩], [(0, 1)]⟩, [0]⟩

/-- C3, counterexample: the Filter does not conserve reachable size (a
kept vertex unreachable from the roots absorbs a root-reachable vertex's
size) and does not conserve total size (a vertex unreachable from the
root-or-kept boundary is silently dropped), even on well-formed
inputs. -/
theorem claim_C3_size_conservation_counterexample :
    diX.WF ∧ (keep diX fltX).reachable_size ≠ diX.reachable_size ∧
    diT.WF ∧ (keep diT (fun _ => false)).size ≠ diT.size := by
  decide

/-- C5, counterexample: the Filter's output root-name set is not a
subset of the input's (the synthetic aggregate bears a fresh name); the
output root-name set can equal the input's under a predicate that is
false on a graph vertex; and with a constantly-false predicate and
positive total size the output roots can be empty rather than the
synthetic aggregate (zero reachable size). -/
theorem claim_C5_keep_roots_counterexample :
    diR.WF ∧
    ¬ ((keep diR (fun _ => false)).rootNames ⊆ diR.rootNames) ∧
    ((keep diR (fun d => d.is_root)).rootNames = diR.rootNames ∧
      ∃ i < diR.graph.nodes.length,
        (diR.graph.node i).is_root = false) ∧
    diT.WF ∧ 0 < diT.size ∧
    (keep diT (fun _ => false)).rootNames = ∅ := by
  decide

end NixDu

namespace NixDu

/-- The boundary test of the first loop: root or kept. -/
def keptB (di : DepInfos) (flt : Derivation → Bool) (v : Nat) : Bool :=
  (di.graph.node v).is_root || flt (di.graph.node v)

/-- The kept test of the first loop. -/
def keptK (di : DepInfos) (flt : Derivation → Bool) (v : Nat) : Bool :=
  flt (di.graph.node v)

/-- The ondemand test of the first loop: a non-kept root. -/
def ondB (di : DepInfos) (flt : Derivation → Bool) (v : Nat) : Bool :=
  (di.graph.node v).is_root && ! flt (di.graph.node v)

/-- The first loop of `keep` stopped after `m` node indices. -/
def keepP1 (di : DepInfos) (flt : Derivation → Bool) (m : Nat) : KeepState :=
  (List.range m).foldl (keepPhase1Step flt) ⟨di.graph.nodes, [], [], [], [], []⟩

theorem keepPhase1_eq_p1 (di : DepInfos) (flt : Derivation → Bool) :
    keepPhase1 di flt = keepP1 di flt di.graph.nodes.length := rfl

theorem lookupNat_append_single (l : List (Nat × Nat)) (k j v : Nat) :
    lookupNat (l ++ [(k, j)]) v =
      match lookupNat l v with
      | some x => some x
      | none => if k = v then some j else none := by
  induction l with
  | nil => rfl
  | cons p ps ih =>
    by_cases h : p.1 = v
    · simp [lookupNat, h]
    · simp [lookupNat, h, ih]

theorem lookupNat_append_some (l : List (Nat × Nat)) (k j v x : Nat)
    (h : lookupNat l v = some x) : lookupNat (l ++ [(k, j)]) v = some x := by
  rw [lookupNat_append_single, h]

theorem lookupNat_append_fresh (l : List (Nat × Nat)) (k j : Nat)
    (h : lookupNat l k = none) : lookupNat (l ++ [(k, j)]) k = some j := by
  rw [lookupNat_append_single, h]
  simp

theorem lookupNat_append_none (l : List (Nat × Nat)) (k j v : Nat)
    (h : lookupNat l v = none) (hne : k ≠ v) :
    lookupNat (l ++ [(k, j)]) v = none := by
  rw [lookupNat_append_single, h]
  simp [hne]

theorem getD_append_lt {α : Type} (l l' : List α) (i : Nat) (d : α)
    (h : i < l.length) : (l ++ l').getD i d = l.getD i d := by
  rw [List.getD_eq_getElem?_getD, List.getD_eq_getElem?_getD,
    List.getElem?_append_left h]

theorem getD_concat_self {α : Type} (l : List α) (x d : α) :
    (l ++ [x]).getD l.length d = x := by
  rw [List.getD_eq_getElem?_getD, List.getElem?_concat_length]
  rfl

theorem getD_of_length_le {α : Type} (l : List α) (i : Nat) (d : α)
    (h : l.length ≤ i) : l.getD i d = d := by
  rw [List.getD_eq_getElem?_getD, List.getElem?_eq_none h]
  rfl

end NixDu

namespace NixDu

theorem keepP1_spec (di : DepInfos) (flt : Derivation → Bool) (m : Nat)
    (hm : m ≤ di.graph.nodes.length) :
    (keepP1 di flt m).oldNodes.length = di.graph.nodes.length ∧
    (∀ v, (keepP1 di flt m).oldNodes.getD v Derivation.dummy =
      if v < m ∧ keptB di flt v = true then Derivation.dummy
      else di.graph.node v) ∧
    (keepP1 di flt m).newEdges = [] ∧
    (keepP1 di flt m).oldKept = (List.range m).filter (keptB di flt) ∧
    (keepP1 di flt m).ondemand =
      ((List.range m).filter (ondB di flt)).map
        (fun v => (v, di.graph.node v)) ∧
    (keepP1 di flt m).newNodes =
      ((List.range m).filter (keptK di flt)).map di.graph.node ∧
    (∀ v j, lookupNat (keepP1 di flt m).newIds v = some j →
      v < m ∧ keptK di flt v = true ∧
      j < (keepP1 di flt m).newNodes.length ∧
      (keepP1 di flt m).newNodes.getD j Derivation.dummy =
        di.graph.node v) ∧
    (∀ v, v < m → keptK di flt v = true →
      lookupNat (keepP1 di flt m).newIds v ≠ none) ∧
    (∀ j, j < (keepP1 di flt m).newNodes.length →
      ∃ v, lookupNat (keepP1 di flt m).newIds v = some j) := by
  induction m with
  | zero =>
    refine ⟨rfl, ?_, rfl, rfl, rfl, rfl, ?_, ?_, ?_⟩
    · intro v
      simp [keepP1, DepGraph.node]
    · intro v j h
      exact absurd h (by simp [keepP1, lookupNat])
    · intro v hv
      omega
    · intro j hj
      exact absurd hj (by simp [keepP1])
  | succ m ih =>
    obtain ⟨h1, h2, h3, h4, h5, h6, h7, h8, h9⟩ := ih (by omega)
    have hstep : keepP1 di flt (m + 1) =
        keepPhase1Step flt (keepP1 di flt m) m := by
      unfold keepP1
      rw [List.range_succ, List.foldl_append, List.foldl_cons, List.foldl_nil]
    have hw : (keepP1 di flt m).oldNodes.getD m Derivation.dummy =
        di.graph.node m := by
      rw [h2]
      simp
    by_cases hB : keptB di flt m = true
    · have hcond : ((di.graph.node m).is_root || flt (di.graph.node m))
          = true := hB
      by_cases hK : keptK di flt m = true
      · have hKf : flt (di.graph.node m) = true := hK
        have hstep2 : keepP1 di flt (m + 1) =
            { keepP1 di flt m with
              oldNodes := (keepP1 di flt m).oldNodes.set m Derivation.dummy,
              oldKept := (keepP1 di flt m).oldKept ++ [m],
              newIds := ((keepP1 di flt m).newIds ++
                [(m, (keepP1 di flt m).newNodes.length)]),
              newNodes := (keepP1 di flt m).newNodes ++
                [di.graph.node m] } := by
          rw [hstep]
          simp only [keepPhase1Step, hw, hKf, Bool.or_true]
          simp
        have hond : ondB di flt m = false := by
          unfold ondB
          rw [hKf]
          simp
        refine ⟨?_, ?_, ?_, ?_, ?_, ?_, ?_, ?_, ?_⟩
        · rw [hstep2]
          simpa using h1
        · intro v
          rw [hstep2]
          by_cases hv : v = m
          · subst hv
            rw [if_pos ⟨by omega, hB⟩]
            rw [getD_set_self_or]
            split_ifs <;> rfl
          · rw [listGetD_set_ne _ _ _ _ _ (fun hc => hv hc.symm), h2]
            have : (v < m + 1 ∧ keptB di flt v = true) ↔
                (v < m ∧ keptB di flt v = true) := by
              constructor
              · rintro ⟨hlt, hb⟩
                exact ⟨by omega, hb⟩
              · rintro ⟨hlt, hb⟩
                exact ⟨by omega, hb⟩
            rw [if_congr this rfl rfl]
        · rw [hstep2]
          exact h3
        · rw [hstep2]
          show (keepP1 di flt m).oldKept ++ [m] = _
          rw [h4, List.range_succ, List.filter_append, List.filter_singleton,
            hB]
          rfl
        · rw [hstep2]
          show (keepP1 di flt m).ondemand = _
          rw [h5, List.range_succ, List.filter_append, List.filter_singleton,
            hond]
          simp
        · rw [hstep2]
          show (keepP1 di flt m).newNodes ++ [di.graph.node m] = _
          rw [h6, List.range_succ, List.filter_append, List.filter_singleton,
            show keptK di flt m = true from hK]
          simp
        · intro v j hl
          rw [hstep2] at hl
          simp only at hl
          rw [lookupNat_append_single] at hl
          rw [hstep2]
          simp only [List.length_append, List.length_singleton]
          rcases hc : lookupNat (keepP1 di flt m).newIds v with _ | x
          · rw [hc] at hl
            simp only at hl
            split_ifs at hl with hmv
            · rcases hmv with rfl
              have hj : j = (keepP1 di flt m).newNodes.length :=
                (Option.some_inj.mp hl).symm
              subst hj
              refine ⟨by omega, hK, by omega, ?_⟩
              exact getD_concat_self _ _ _
          · rw [hc] at hl
            simp only at hl
            have hx : x = j := Option.some_inj.mp hl
            subst hx
            obtain ⟨hvm, hKv, hjlt, hget⟩ := h7 v x hc
            refine ⟨by omega, hKv, by omega, ?_⟩
            rw [getD_append_lt _ _ _ _ hjlt]
            exact hget
        · intro v hv hKv
          rw [hstep2]
          simp only
          rw [lookupNat_append_single]
          rcases hc : lookupNat (keepP1 di flt m).newIds v with _ | x
          · by_cases hvm : v = m
            · subst hvm
              simp
            · have hvlt : v < m := by omega
              exact absurd hc (h8 v hvlt hKv)
          · simp
        · intro j hj
          rw [hstep2] at hj ⊢
          simp only [List.length_append, List.length_singleton] at hj
          simp only
          by_cases hjl : j < (keepP1 di flt m).newNodes.length
          · obtain ⟨v, hv⟩ := h9 j hjl
            refine ⟨v, ?_⟩
            rw [lookupNat_append_single, hv]
          · have hje : j = (keepP1 di flt m).newNodes.length := by omega
            subst hje
            refine ⟨m, ?_⟩
            rw [lookupNat_append_single]
            rcases hc : lookupNat (keepP1 di flt m).newIds m with _ | x
            · simp
            · exact absurd (h7 m x hc).1 (by omega)
      · have hKf : flt (di.graph.node m) = false := by
          rcases hfv : flt (di.graph.node m) with _ | _
          · rfl
          · exact absurd hfv hK
        have hro : (di.graph.node m).is_root = true := by
          have hcb := hB
          unfold keptB at hcb
          rw [hKf] at hcb
          simpa using hcb
        have hstep2 : keepP1 di flt (m + 1) =
            { keepP1 di flt m with
              oldNodes := (keepP1 di flt m).oldNodes.set m Derivation.dummy,
              oldKept := (keepP1 di flt m).oldKept ++ [m],
              ondemand := ((keepP1 di flt m).ondemand ++
                [(m, di.graph.node m)]) } := by
          rw [hstep]
          simp only [keepPhase1Step, hw, hKf, hro, Bool.or_false]
          simp
        have hond : ondB di flt m = true := by
          unfold ondB
          rw [hKf]
          unfold keptB at hB
          rw [hKf] at hB
          simp at hB
          simp [hB]
        refine ⟨?_, ?_, ?_, ?_, ?_, ?_, ?_, ?_, ?_⟩
        · rw [hstep2]
          simpa using h1
        · intro v
          rw [hstep2]
          by_cases hv : v = m
          · subst hv
            rw [if_pos ⟨by omega, hB⟩]
            rw [getD_set_self_or]
            split_ifs <;> rfl
          · rw [listGetD_set_ne _ _ _ _ _ (fun hc => hv hc.symm), h2]
            have : (v < m + 1 ∧ keptB di flt v = true) ↔
                (v < m ∧ keptB di flt v = true) := by
              constructor
              · rintro ⟨hlt, hb⟩
                exact ⟨by omega, hb⟩
              · rintro ⟨hlt, hb⟩
                exact ⟨by omega, hb⟩
            rw [if_congr this rfl rfl]
        · rw [hstep2]
          exact h3
        · rw [hstep2]
          show (keepP1 di flt m).oldKept ++ [m] = _
          rw [h4, List.range_succ, List.filter_append, List.filter_singleton,
            hB]
          rfl
        · rw [hstep2]
          show (keepP1 di flt m).ondemand ++ [(m, di.graph.node m)] = _
          rw [h5, List.range_succ, List.filter_append, List.filter_singleton,
            hond]
          simp
        · rw [hstep2]
          show (keepP1 di flt m).newNodes = _
          rw [h6, List.range_succ, List.filter_append, List.filter_singleton,
            show keptK di flt m = false from hKf]
          simp
        · intro v j hl
          rw [hstep2] at hl ⊢
          simp only at hl
          obtain ⟨hvm, hKv, hjlt, hget⟩ := h7 v j hl
          exact ⟨by omega, hKv, hjlt, hget⟩
        · intro v hv hKv
          rw [hstep2]
          simp only
          by_cases hvm : v = m
          · subst hvm
            exact absurd hKv (by rw [show keptK di flt v = flt (di.graph.node v) from rfl, hKf]; simp)
          · exact h8 v (by omega) hKv
        · intro j hj
          rw [hstep2] at hj ⊢
          exact h9 j hj
    · have hcond : ((di.graph.node m).is_root || flt (di.graph.node m))
          = false := by
        rcases hfv : ((di.graph.node m).is_root || flt (di.graph.node m))
            with _ | _
        · rfl
        · exact absurd hfv hB
      have hstep2 : keepP1 di flt (m + 1) = keepP1 di flt m := by
        rw [hstep]
        simp only [keepPhase1Step, hw, hcond]
        simp
      have hKm : keptK di flt m = false := by
        unfold keptB at hB
        unfold keptK
        rcases hfv : flt (di.graph.node m) with _ | _
        · rfl
        · rw [hfv] at hcond
          simp at hcond
      have hondm : ondB di flt m = false := by
        unfold ondB
        have : (di.graph.node m).is_root = false := by
          rcases hr : (di.graph.node m).is_root with _ | _
          · rfl
          · rw [hr] at hcond
            simp at hcond
        rw [this]
        simp
      rw [hstep2]
      refine ⟨h1, ?_, h3, ?_, ?_, ?_, ?_, ?_, h9⟩
      · intro v
        rw [h2]
        by_cases hv : v = m
        · subst hv
          have hnb : ∀ k : Nat, ¬ (v < k ∧ keptB di flt v = true) := by
            intro k hc
            have hbv : keptB di flt v = false := hcond
            rw [hbv] at hc
            exact absurd hc.2 (by simp)
          rw [if_neg (hnb _), if_neg (hnb _)]
        · have : (v < m + 1 ∧ keptB di flt v = true) ↔
              (v < m ∧ keptB di flt v = true) := by
            constructor
            · rintro ⟨hlt, hb⟩
              exact ⟨by omega, hb⟩
            · rintro ⟨hlt, hb⟩
              exact ⟨by omega, hb⟩
          rw [if_congr this rfl rfl]
      · rw [h4, List.range_succ, List.filter_append, List.filter_singleton]
        rw [show keptB di flt m = false from hcond]
        simp
      · rw [h5, List.range_succ, List.filter_append, List.filter_singleton,
          hondm]
        simp
      · rw [h6, List.range_succ, List.filter_append, List.filter_singleton,
          hKm]
        simp
      · intro v j hl
        obtain ⟨hvm, hKv, hjlt, hget⟩ := h7 v j hl
        exact ⟨by omega, hKv, hjlt, hget⟩
      · intro v hv hKv
        by_cases hvm : v = m
        · subst hvm
          exact absurd hKv (by rw [hKm]; simp)
        · exact h8 v (by omega) hKv

end NixDu

namespace NixDu

theorem lookupDrv_mem (l : List (Nat × Derivation)) (k : Nat)
    (w : Derivation) (h : lookupDrv l k = some w) : (k, w) ∈ l := by
  induction l with
  | nil => exact absurd h (by simp [lookupDrv])
  | cons p ps ih =>
    rw [lookupDrv] at h
    split_ifs at h with hk
    · have hw : p.2 = w := Option.some_inj.mp h
      rw [← hk, ← hw]
      exact List.mem_cons_self _ _
    · exact List.mem_cons_of_mem _ (ih h)

theorem removeDrv_lookup_ne (l : List (Nat × Derivation)) (k v : Nat)
    (h : v ≠ k) : lookupDrv (removeDrv l k) v = lookupDrv l v := by
  induction l with
  | nil => rfl
  | cons p ps ih =>
    unfold removeDrv at ih ⊢
    rw [List.filter_cons]
    by_cases hp : p.1 = k
    · rw [if_neg (by simp [hp]), lookupDrv, if_neg (by rw [hp]; exact fun hc => h hc.symm), ih]
    · rw [if_pos (by simp [hp]), lookupDrv, lookupDrv, ih]

theorem removeDrv_lookup_self (l : List (Nat × Derivation)) (k : Nat) :
    lookupDrv (removeDrv l k) k = none := by
  induction l with
  | nil => rfl
  | cons p ps ih =>
    unfold removeDrv at ih ⊢
    rw [List.filter_cons]
    by_cases hp : p.1 = k
    · rw [if_neg (by simp [hp])]
      exact ih
    · rw [if_pos (by simp [hp]), lookupDrv, if_neg hp]
      exact ih

theorem removeDrv_keys_nodup (l : List (Nat × Derivation)) (k : Nat)
    (h : (l.map Prod.fst).Nodup) :
    ((removeDrv l k).map Prod.fst).Nodup :=
  List.Nodup.sublist (List.Sublist.map _ (List.filter_sublist l)) h

theorem removeDrv_sum (l : List (Nat × Derivation)) (k : Nat)
    (w : Derivation) (hnd : (l.map Prod.fst).Nodup)
    (h : lookupDrv l k = some w) :
    ((removeDrv l k).map (fun p => p.2.size)).sum + w.size =
      (l.map (fun p => p.2.size)).sum := by
  induction l with
  | nil => exact absurd h (by simp [lookupDrv])
  | cons p ps ih =>
    rw [lookupDrv] at h
    rw [List.map_cons, List.nodup_cons] at hnd
    unfold removeDrv
    rw [List.filter_cons]
    split_ifs at h with hk
    · have hw : p.2 = w := Option.some_inj.mp h
      rw [if_neg (by simp [hk])]
      have hrm : removeDrv ps k = ps := by
        unfold removeDrv
        rw [List.filter_eq_self]
        intro q hq
        simp only [bne_iff_ne, ne_eq, decide_eq_true_eq]
        intro hc
        have hqm : q.1 ∈ List.map Prod.fst ps := List.mem_map_of_mem Prod.fst hq
        rw [hc, ← hk] at hqm
        exact hnd.1 hqm
      unfold removeDrv at hrm
      rw [hrm, List.map_cons, List.sum_cons, hw]
      omega
    · rw [if_pos (by simp [hk]), List.map_cons, List.sum_cons, List.map_cons,
        List.sum_cons]
      have := ih hnd.2 h
      unfold removeDrv at this
      omega

theorem mapDrv_keys (l : List (Nat × Derivation)) (k : Nat)
    (f : Derivation → Derivation) :
    (mapDrv l k f).map Prod.fst = l.map Prod.fst := by
  unfold mapDrv
  rw [List.map_map]
  apply List.map_congr_left
  intro p _
  by_cases hp : p.1 = k
  · simp [hp]
  · simp [hp]

theorem mapDrv_lookup_ne (l : List (Nat × Derivation)) (k v : Nat)
    (f : Derivation → Derivation) (h : v ≠ k) :
    lookupDrv (mapDrv l k f) v = lookupDrv l v := by
  induction l with
  | nil => rfl
  | cons p ps ih =>
    unfold mapDrv at ih ⊢
    rw [List.map_cons]
    by_cases hp : p.1 = k
    · rw [if_pos hp, lookupDrv, lookupDrv,
        if_neg (by simp only; omega), if_neg (by omega)]
      exact ih
    · rw [if_neg hp, lookupDrv, lookupDrv]
      split_ifs with hv
      · rfl
      · exact ih

theorem mapDrv_lookup_self (l : List (Nat × Derivation)) (k : Nat)
    (f : Derivation → Derivation) :
    lookupDrv (mapDrv l k f) k = (lookupDrv l k).map f := by
  induction l with
  | nil => rfl
  | cons p ps ih =>
    unfold mapDrv at ih ⊢
    rw [List.map_cons]
    by_cases hp : p.1 = k
    · rw [if_pos hp, lookupDrv, lookupDrv, if_pos hp, if_pos hp]
      rfl
    · rw [if_neg hp, lookupDrv, lookupDrv, if_neg hp, if_neg hp]
      exact ih

theorem mapDrv_add_sum (l : List (Nat × Derivation)) (k : Nat) (sz : Nat)
    (w : Derivation) (hnd : (l.map Prod.fst).Nodup)
    (h : lookupDrv l k = some w) :
    ((mapDrv l k (fun d => { d with size := d.size + sz })).map
      (fun p => p.2.size)).sum = (l.map (fun p => p.2.size)).sum + sz := by
  induction l with
  | nil => exact absurd h (by simp [lookupDrv])
  | cons p ps ih =>
    rw [lookupDrv] at h
    rw [List.map_cons, List.nodup_cons] at hnd
    unfold mapDrv
    rw [List.map_cons]
    split_ifs at h with hk
    · rw [if_pos hk, List.map_cons, List.sum_cons, List.map_cons,
        List.sum_cons]
      have hrm : mapDrv ps k (fun d => { d with size := d.size + sz }) =
          ps := by
        unfold mapDrv
        have hcg : List.map
            (fun p => if p.1 = k then
              (p.1, (fun d => { d with size := d.size + sz }) p.2) else p)
            ps = List.map id ps := by
          apply List.map_congr_left
          intro q hq
          rw [if_neg ?_]
          · rfl
          · intro hc
            have hqm : q.1 ∈ List.map Prod.fst ps :=
              List.mem_map_of_mem Prod.fst hq
            rw [hc, ← hk] at hqm
            exact hnd.1 hqm
        rw [hcg, List.map_id]
      unfold mapDrv at hrm
      rw [hrm]
      simp only
      omega
    · rw [if_neg hk, List.map_cons, List.sum_cons, List.map_cons,
        List.sum_cons]
      have := ih hnd.2 h
      unfold mapDrv at this
      omega

theorem mapDrvSz_mem (l : List (Nat × Derivation)) (k sz : Nat)
    (p : Nat × Derivation)
    (h : p ∈ mapDrv l k (fun d => { d with size := d.size + sz })) :
    ∃ q ∈ l, p.1 = q.1 ∧ p.2.path = q.2.path ∧
      p.2.is_root = q.2.is_root := by
  unfold mapDrv at h
  rw [List.mem_map] at h
  obtain ⟨q, hq, hpq⟩ := h
  refine ⟨q, hq, ?_⟩
  by_cases hk : q.1 = k
  · rw [if_pos hk] at hpq
    rw [← hpq]
    exact ⟨rfl, rfl, rfl⟩
  · rw [if_neg hk] at hpq
    rw [← hpq]
    exact ⟨rfl, rfl, rfl⟩

theorem sum_map_size_set (l : List Derivation) (i : Nat) (w : Derivation)
    (h : i < l.length) :
    ((l.set i w).map (fun d => d.size)).sum +
      (l.getD i Derivation.dummy).size =
    (l.map (fun d => d.size)).sum + w.size := by
  rw [List.map_set]
  have hg : (l.map (fun d => d.size)).getD i 0 =
      (l.getD i Derivation.dummy).size :=
    getD_map_lt l _ i 0 Derivation.dummy h
  rw [← hg]
  exact sum_set_getD _ i w.size (by simpa using h)

end NixDu

namespace NixDu

/-- Add `sz` to a weight's size. -/
def addSize (d : Derivation) (sz : Nat) : Derivation :=
  { d with size := d.size + sz }

/-- Zero a weight's size. -/
def zeroSize (d : Derivation) : Derivation :=
  { d with size := 0 }

theorem addSize_path (d : Derivation) (sz : Nat) :
    (addSize d sz).path = d.path := rfl

theorem addSize_is_root (d : Derivation) (sz : Nat) :
    (addSize d sz).is_root = d.is_root := rfl

theorem addSize_size (d : Derivation) (sz : Nat) :
    (addSize d sz).size = d.size + sz := rfl

theorem zeroSize_size (d : Derivation) : (zeroSize d).size = 0 := rfl

theorem set_of_length_le {α : Type} (l : List α) (i : Nat) (x : α)
    (h : l.length ≤ i) : l.set i x = l := by
  induction l generalizing i with
  | nil => rfl
  | cons a as ih =>
    match i with
    | 0 => simp at h
    | k + 1 =>
      rw [List.set_cons_succ]
      rw [ih k (by simpa using h)]

theorem keepVisitStep_eqA (old : Nat) (st : KeepState) (idx new2 : Nat)
    (w : Derivation) (h1 : lookupNat st.newIds idx = some new2)
    (h2 : lookupDrv st.ondemand old = some w) :
    keepVisitStep old st idx =
      { st with newNodes := st.newNodes ++ [w],
                ondemand := removeDrv st.ondemand old,
                newIds := (st.newIds ++ [(old, st.newNodes.length)]),
                newEdges := (st.newEdges ++
                  [(st.newNodes.length, new2)]) } := by
  simp only [keepVisitStep, h1, h2]

theorem keepVisitStep_eqB (old : Nat) (st : KeepState) (idx new2 : Nat)
    (h1 : lookupNat st.newIds idx = some new2)
    (h2 : lookupDrv st.ondemand old = none) :
    keepVisitStep old st idx =
      { st with newEdges := (st.newEdges ++
          [((lookupNat st.newIds old).getD 0, new2)]) } := by
  simp only [keepVisitStep, h1, h2]

theorem keepVisitStep_eqC (old : Nat) (st : KeepState) (idx : Nat)
    (w : Derivation) (h1 : lookupNat st.newIds idx = none)
    (h2 : lookupDrv st.ondemand old = some w) :
    keepVisitStep old st idx =
      { st with ondemand := (mapDrv st.ondemand old
                  (fun d => addSize d
                    (st.oldNodes.getD idx Derivation.dummy).size)),
                oldNodes := (st.oldNodes.set idx
                  (zeroSize (st.oldNodes.getD idx Derivation.dummy))) } := by
  simp only [keepVisitStep, h1, h2]
  rfl

theorem keepVisitStep_eqD (old : Nat) (st : KeepState) (idx : Nat)
    (h1 : lookupNat st.newIds idx = none)
    (h2 : lookupDrv st.ondemand old = none) :
    keepVisitStep old st idx =
      { st with newNodes := (st.newNodes.set
                  ((lookupNat st.newIds old).getD 0)
                  (addSize
                    (st.newNodes.getD ((lookupNat st.newIds old).getD 0)
                      Derivation.dummy)
                    (st.oldNodes.getD idx Derivation.dummy).size)),
                oldNodes := (st.oldNodes.set idx
                  (zeroSize (st.oldNodes.getD idx Derivation.dummy))) } := by
  simp only [keepVisitStep, h1, h2]
  rfl

end NixDu

namespace NixDu

/-- Invariants of the second loop of `keep`, tied to the input graph and
the fixed `old_kept_ids` set. -/
structure KeepInv (di : DepInfos) (oldKeptAll : List Nat) (st : KeepState) :
    Prop where
  lenOld : st.oldNodes.length = di.graph.nodes.length
  ondKeys : (st.ondemand.map Prod.fst).Nodup
  idsLt : ∀ v j, lookupNat st.newIds v = some j → j < st.newNodes.length
  idsDom : ∀ v j, lookupNat st.newIds v = some j → v ∈ oldKeptAll
  presence : ∀ o ∈ oldKeptAll,
    lookupDrv st.ondemand o ≠ none ∨ lookupNat st.newIds o ≠ none
  disj : ∀ v, lookupDrv st.ondemand v ≠ none → lookupNat st.newIds v = none
  edgesLt : ∀ e ∈ st.newEdges,
    e.1 < st.newNodes.length ∧ e.2 < st.newNodes.length
  sums : (st.oldNodes.map (fun d => d.size)).sum +
    (st.newNodes.map (fun d => d.size)).sum +
    (st.ondemand.map (fun p => p.2.size)).sum =
    (di.graph.nodes.map (fun d => d.size)).sum
  nodeMatch : ∀ v j, lookupNat st.newIds v = some j →
    (st.newNodes.getD j Derivation.dummy).path = (di.graph.node v).path ∧
    (st.newNodes.getD j Derivation.dummy).is_root =
      (di.graph.node v).is_root
  ondMatch : ∀ p ∈ st.ondemand, p.2.path = (di.graph.node p.1).path ∧
    p.2.is_root = (di.graph.node p.1).is_root ∧ p.1 ∈ oldKeptAll
  surj : ∀ j, j < st.newNodes.length → ∃ v, lookupNat st.newIds v = some j

theorem keepVisitStep_inv (di : DepInfos) (oldKeptAll : List Nat)
    (old : Nat) (st : KeepState) (idx : Nat) (hold : old ∈ oldKeptAll)
    (hinv : KeepInv di oldKeptAll st) :
    KeepInv di oldKeptAll (keepVisitStep old st idx) := by
  rcases h1 : lookupNat st.newIds idx with _ | new2
  · rcases h2 : lookupDrv st.ondemand old with _ | w
    · -- branch D: absorb into the materialised node of old
      rw [keepVisitStep_eqD old st idx h1 h2]
      have hni : lookupNat st.newIds old ≠ none := by
        rcases hinv.presence old hold with hc | hc
        · exact absurd h2 hc
        · exact hc
      rcases hni2 : lookupNat st.newIds old with _ | ni
      · exact absurd hni2 hni
      have hnieq : (lookupNat st.newIds old).getD 0 = ni := by
        rw [hni2]
        rfl
      have hnilt : ni < st.newNodes.length := hinv.idsLt old ni hni2
      refine ⟨?_, hinv.ondKeys, ?_, hinv.idsDom, hinv.presence, hinv.disj,
        ?_, ?_, ?_, hinv.ondMatch, ?_⟩
      · simpa using hinv.lenOld
      · intro v j hv
        rw [List.length_set]
        exact hinv.idsLt v j hv
      · intro e he
        rw [List.length_set]
        exact hinv.edgesLt e he
      · simp only
        simp only [Option.getD_some]
        have hsz : (st.oldNodes.getD idx Derivation.dummy).size = 0 ∨
            idx < st.oldNodes.length := by
          by_cases hc : idx < st.oldNodes.length
          · exact Or.inr hc
          · exact Or.inl (by rw [getD_of_length_le _ _ _ (by omega)]; rfl)
        have hnew := sum_map_size_set st.newNodes ni
          (addSize (st.newNodes.getD ni Derivation.dummy)
            (st.oldNodes.getD idx Derivation.dummy).size) hnilt
        rw [addSize_size] at hnew
        rcases hsz with hsz | hsz
        · rw [hsz] at hnew ⊢
          by_cases hio : idx < st.oldNodes.length
          · have hold2 := sum_map_size_set st.oldNodes idx
              (zeroSize (st.oldNodes.getD idx Derivation.dummy)) hio
            rw [zeroSize_size, hsz] at hold2
            have := hinv.sums
            omega
          · rw [set_of_length_le _ _ _ (by omega)]
            have := hinv.sums
            omega
        · have hold2 := sum_map_size_set st.oldNodes idx
            (zeroSize (st.oldNodes.getD idx Derivation.dummy)) hsz
          rw [zeroSize_size] at hold2
          have := hinv.sums
          omega
      · intro v j hv
        simp only [Option.getD_some]
        by_cases hj : j = ni
        · subst hj
          rw [getD_set_self_or, if_pos hnilt, addSize_path, addSize_is_root]
          exact hinv.nodeMatch v j hv
        · rw [listGetD_set_ne _ _ _ _ _ (fun hc => hj hc.symm)]
          exact hinv.nodeMatch v j hv
      · intro j hj
        rw [List.length_set] at hj
        exact hinv.surj j hj
    · -- branch C: absorb into the pending ondemand weight of old
      rw [keepVisitStep_eqC old st idx w h1 h2]
      refine ⟨?_, ?_, hinv.idsLt, hinv.idsDom, ?_, ?_, hinv.edgesLt, ?_,
        hinv.nodeMatch, ?_, hinv.surj⟩
      · simpa using hinv.lenOld
      · simp only
        rw [mapDrv_keys]
        exact hinv.ondKeys
      · intro o ho
        by_cases hoo : o = old
        · subst hoo
          left
          rw [mapDrv_lookup_self, h2]
          simp
        · rcases hinv.presence o ho with hc | hc
          · left
            rw [mapDrv_lookup_ne _ _ _ _ hoo]
            exact hc
          · right
            exact hc
      · intro v hv
        by_cases hvv : v = old
        · subst hvv
          exact hinv.disj v (by rw [h2]; simp)
        · rw [mapDrv_lookup_ne _ _ _ _ hvv] at hv
          exact hinv.disj v hv
      · simp only
        have hadd : ((mapDrv st.ondemand old
            (fun d => addSize d
              (st.oldNodes.getD idx Derivation.dummy).size)).map
            (fun p => p.2.size)).sum =
            (st.ondemand.map (fun p => p.2.size)).sum +
              (st.oldNodes.getD idx Derivation.dummy).size :=
          mapDrv_add_sum st.ondemand old _ w hinv.ondKeys h2
        rw [hadd]
        by_cases hio : idx < st.oldNodes.length
        · have hold2 := sum_map_size_set st.oldNodes idx
            (zeroSize (st.oldNodes.getD idx Derivation.dummy)) hio
          rw [zeroSize_size] at hold2
          have := hinv.sums
          omega
        · rw [set_of_length_le _ _ _ (by omega),
            getD_of_length_le _ _ _ (by omega)]
          have := hinv.sums
          have hd0 : Derivation.dummy.size = 0 := rfl
          omega
      · intro p hp
        obtain ⟨q, hq, hk, hpath, hroot⟩ := mapDrvSz_mem _ _ _ _ hp
        obtain ⟨hqp, hqr, hqk⟩ := hinv.ondMatch q hq
        exact ⟨by rw [hpath, hqp, hk], by rw [hroot, hqr, hk],
          by rw [hk]; exact hqk⟩
  · rcases h2 : lookupDrv st.ondemand old with _ | w
    · -- branch B: plain new edge
      rw [keepVisitStep_eqB old st idx new2 h1 h2]
      have hni : lookupNat st.newIds old ≠ none := by
        rcases hinv.presence old hold with hc | hc
        · exact absurd h2 hc
        · exact hc
      rcases hni2 : lookupNat st.newIds old with _ | ni
      · exact absurd hni2 hni
      refine ⟨hinv.lenOld, hinv.ondKeys, hinv.idsLt, hinv.idsDom,
        hinv.presence, hinv.disj, ?_, hinv.sums, hinv.nodeMatch,
        hinv.ondMatch, hinv.surj⟩
      intro e he
      rw [List.mem_append] at he
      rcases he with he | he
      · exact hinv.edgesLt e he
      · rw [List.mem_singleton] at he
        subst he
        constructor
        · simp only [Option.getD_some]
          exact hinv.idsLt old ni hni2
        · exact hinv.idsLt idx new2 h1
    · -- branch A: materialise old and add an edge
      rw [keepVisitStep_eqA old st idx new2 w h1 h2]
      have hidsO : lookupNat st.newIds old = none :=
        hinv.disj old (by rw [h2]; simp)
      refine ⟨hinv.lenOld, ?_, ?_, ?_, ?_, ?_, ?_, ?_, ?_, ?_, ?_⟩
      · simp only
        exact removeDrv_keys_nodup _ _ hinv.ondKeys
      · intro v j hv
        rw [lookupNat_append_single] at hv
        rw [List.length_append, List.length_singleton]
        rcases hc : lookupNat st.newIds v with _ | x
        · rw [hc] at hv
          split_ifs at hv with hov
          · have := Option.some_inj.mp hv
            omega
        · rw [hc] at hv
          have hx := Option.some_inj.mp hv
          subst hx
          have := hinv.idsLt v x hc
          omega
      · intro v j hv
        rw [lookupNat_append_single] at hv
        rcases hc : lookupNat st.newIds v with _ | x
        · rw [hc] at hv
          split_ifs at hv with hov
          · subst hov
            exact hold
        · exact hinv.idsDom v x hc
      · intro o ho
        rw [lookupNat_append_single]
        by_cases hoo : o = old
        · subst hoo
          right
          rw [hidsO]
          simp
        · rcases hinv.presence o ho with hc | hc
          · left
            rw [removeDrv_lookup_ne _ _ _ hoo]
            exact hc
          · right
            rcases hc2 : lookupNat st.newIds o with _ | x
            · exact absurd hc2 hc
            · simp
      · intro v hv
        by_cases hvv : v = old
        · subst hvv
          rw [removeDrv_lookup_self] at hv
          exact absurd rfl hv
        · rw [removeDrv_lookup_ne _ _ _ hvv] at hv
          exact lookupNat_append_none _ _ _ _ (hinv.disj v hv)
            (fun hc => hvv hc.symm)
      · intro e he
        rw [List.mem_append] at he
        rw [List.length_append, List.length_singleton]
        rcases he with he | he
        · have := hinv.edgesLt e he
          omega
        · rw [List.mem_singleton] at he
          subst he
          have := hinv.idsLt idx new2 h1
          omega
      · simp only
        have hrm := removeDrv_sum st.ondemand old w hinv.ondKeys h2
        rw [List.map_append, List.sum_append]
        have := hinv.sums
        simp only [List.map_cons, List.sum_cons, List.map_nil,
          List.sum_nil]
        omega
      · intro v j hv
        rw [lookupNat_append_single] at hv
        rcases hc : lookupNat st.newIds v with _ | x
        · rw [hc] at hv
          split_ifs at hv with hov
          · have hj := Option.some_inj.mp hv
            subst hj
            rw [← hov, getD_concat_self]
            have := hinv.ondMatch (old, w) (lookupDrv_mem _ _ _ h2)
            exact ⟨this.1, this.2.1⟩
        · rw [hc] at hv
          have hx := Option.some_inj.mp hv
          subst hx
          rw [getD_append_lt _ _ _ _ (hinv.idsLt v x hc)]
          exact hinv.nodeMatch v x hc
      · intro p hp
        exact hinv.ondMatch p (List.mem_of_mem_filter hp)
      · intro j hj
        rw [List.length_append, List.length_singleton] at hj
        by_cases hjl : j < st.newNodes.length
        · obtain ⟨v, hv⟩ := hinv.surj j hjl
          refine ⟨v, ?_⟩
          rw [lookupNat_append_single, hv]
        · have hje : j = st.newNodes.length := by omega
          subst hje
          refine ⟨old, ?_⟩
          rw [lookupNat_append_single, hidsO]
          simp

end NixDu

namespace NixDu

theorem keepVisitStep_mono_ids (old : Nat) (st : KeepState) (idx v j : Nat)
    (h : lookupNat st.newIds v = some j) :
    lookupNat (keepVisitStep old st idx).newIds v = some j := by
  rcases h1 : lookupNat st.newIds idx with _ | new2
  · rcases h2 : lookupDrv st.ondemand old with _ | w
    · rw [keepVisitStep_eqD old st idx h1 h2]
      exact h
    · rw [keepVisitStep_eqC old st idx w h1 h2]
      exact h
  · rcases h2 : lookupDrv st.ondemand old with _ | w
    · rw [keepVisitStep_eqB old st idx new2 h1 h2]
      exact h
    · rw [keepVisitStep_eqA old st idx new2 w h1 h2]
      exact lookupNat_append_some _ _ _ _ _ h

theorem keepVisitStep_mono_edges (old : Nat) (st : KeepState)
    (idx : Nat) (e : Nat × Nat) (h : e ∈ st.newEdges) :
    e ∈ (keepVisitStep old st idx).newEdges := by
  rcases h1 : lookupNat st.newIds idx with _ | new2
  · rcases h2 : lookupDrv st.ondemand old with _ | w
    · rw [keepVisitStep_eqD old st idx h1 h2]
      exact h
    · rw [keepVisitStep_eqC old st idx w h1 h2]
      exact h
  · rcases h2 : lookupDrv st.ondemand old with _ | w
    · rw [keepVisitStep_eqB old st idx new2 h1 h2]
      exact List.mem_append_left _ h
    · rw [keepVisitStep_eqA old st idx new2 w h1 h2]
      exact List.mem_append_left _ h

theorem keepVisitStep_mono_zero (old : Nat) (st : KeepState)
    (idx v : Nat) (h : (st.oldNodes.getD v Derivation.dummy).size = 0) :
    ((keepVisitStep old st idx).oldNodes.getD v Derivation.dummy).size
      = 0 := by
  have hset : ∀ (l : List Derivation),
      (l.getD v Derivation.dummy).size = 0 →
      ((l.set idx (zeroSize (l.getD idx Derivation.dummy))).getD v
        Derivation.dummy).size = 0 := by
    intro l hl
    by_cases hv : idx = v
    · subst hv
      rw [getD_set_self_or]
      split_ifs
      · rfl
      · rfl
    · rw [listGetD_set_ne _ _ _ _ _ hv]
      exact hl
  rcases h1 : lookupNat st.newIds idx with _ | new2
  · rcases h2 : lookupDrv st.ondemand old with _ | w
    · rw [keepVisitStep_eqD old st idx h1 h2]
      exact hset _ h
    · rw [keepVisitStep_eqC old st idx w h1 h2]
      exact hset _ h
  · rcases h2 : lookupDrv st.ondemand old with _ | w
    · rw [keepVisitStep_eqB old st idx new2 h1 h2]
      exact h
    · rw [keepVisitStep_eqA old st idx new2 w h1 h2]
      exact h

theorem keepVisitFold_inv (di : DepInfos) (oldKeptAll : List Nat)
    (old : Nat) (l : List Nat) (st : KeepState) (hold : old ∈ oldKeptAll)
    (hinv : KeepInv di oldKeptAll st) :
    KeepInv di oldKeptAll (l.foldl (keepVisitStep old) st) := by
  induction l generalizing st with
  | nil => exact hinv
  | cons a as ih =>
    exact ih _ (keepVisitStep_inv di oldKeptAll old st a hold hinv)

theorem keepVisitFold_mono_ids (old : Nat) (l : List Nat) (st : KeepState)
    (v j : Nat) (h : lookupNat st.newIds v = some j) :
    lookupNat (l.foldl (keepVisitStep old) st).newIds v = some j := by
  induction l generalizing st with
  | nil => exact h
  | cons a as ih => exact ih _ (keepVisitStep_mono_ids old st a v j h)

theorem keepVisitFold_mono_edges (old : Nat) (l : List Nat)
    (st : KeepState) (e : Nat × Nat) (h : e ∈ st.newEdges) :
    e ∈ (l.foldl (keepVisitStep old) st).newEdges := by
  induction l generalizing st with
  | nil => exact h
  | cons a as ih => exact ih _ (keepVisitStep_mono_edges old st a e h)

theorem keepVisitFold_mono_zero (old : Nat) (l : List Nat)
    (st : KeepState) (v : Nat)
    (h : (st.oldNodes.getD v Derivation.dummy).size = 0) :
    ((l.foldl (keepVisitStep old) st).oldNodes.getD v
      Derivation.dummy).size = 0 := by
  induction l generalizing st with
  | nil => exact h
  | cons a as ih => exact ih _ (keepVisitStep_mono_zero old st a v h)

theorem keepOldStep_inv (di : DepInfos) (oldKeptAll : List Nat)
    (fuel old : Nat) (st : KeepState) (hold : old ∈ oldKeptAll)
    (hinv : KeepInv di oldKeptAll st) :
    KeepInv di oldKeptAll
      (keepOldStep di.graph.edges oldKeptAll fuel st old) :=
  keepVisitFold_inv di oldKeptAll old _ st hold hinv

theorem keepOldsFold_inv (di : DepInfos) (oldKeptAll : List Nat)
    (fuel : Nat) (olds : List Nat) (st : KeepState)
    (holds : ∀ o ∈ olds, o ∈ oldKeptAll)
    (hinv : KeepInv di oldKeptAll st) :
    KeepInv di oldKeptAll
      (olds.foldl (keepOldStep di.graph.edges oldKeptAll fuel) st) := by
  induction olds generalizing st with
  | nil => exact hinv
  | cons a as ih =>
    exact ih _ (fun o ho => holds o (List.mem_cons_of_mem _ ho))
      (keepOldStep_inv di oldKeptAll fuel a st
        (holds a (List.mem_cons_self _ _)) hinv)

theorem keepOldsFold_mono_ids (edges : List (Nat × Nat))
    (oldKeptAll : List Nat) (fuel : Nat) (olds : List Nat)
    (st : KeepState) (v j : Nat) (h : lookupNat st.newIds v = some j) :
    lookupNat (olds.foldl (keepOldStep edges oldKeptAll fuel)
      st).newIds v = some j := by
  induction olds generalizing st with
  | nil => exact h
  | cons a as ih =>
    exact ih _ (keepVisitFold_mono_ids a _ st v j h)

theorem keepOldsFold_mono_edges (edges : List (Nat × Nat))
    (oldKeptAll : List Nat) (fuel : Nat) (olds : List Nat)
    (st : KeepState) (e : Nat × Nat) (h : e ∈ st.newEdges) :
    e ∈ (olds.foldl (keepOldStep edges oldKeptAll fuel) st).newEdges := by
  induction olds generalizing st with
  | nil => exact h
  | cons a as ih =>
    exact ih _ (keepVisitFold_mono_edges a _ st e h)

theorem keepOldsFold_mono_zero (edges : List (Nat × Nat))
    (oldKeptAll : List Nat) (fuel : Nat) (olds : List Nat)
    (st : KeepState) (v : Nat)
    (h : (st.oldNodes.getD v Derivation.dummy).size = 0) :
    ((olds.foldl (keepOldStep edges oldKeptAll fuel) st).oldNodes.getD v
      Derivation.dummy).size = 0 := by
  induction olds generalizing st with
  | nil => exact h
  | cons a as ih =>
    exact ih _ (keepVisitFold_mono_zero a _ st v h)

end NixDu

namespace NixDu

theorem sum_filter_split {α : Type} (l : List α) (p : α → Bool)
    (f : α → Nat) :
    ((l.filter p).map f).sum + ((l.filter (fun x => ! p x)).map f).sum =
      (l.map f).sum := by
  induction l with
  | nil => rfl
  | cons a as ih =>
    rw [List.filter_cons, List.filter_cons]
    rcases hp : p a with _ | _
    · rw [if_neg (by simp [hp]), if_pos (by simp [hp])]
      simp only [List.map_cons, List.sum_cons]
      omega
    · rw [if_pos (by simp [hp]), if_neg (by simp [hp])]
      simp only [List.map_cons, List.sum_cons]
      omega

theorem sum_map_ite {α : Type} (l : List α) (p : α → Bool) (f : α → Nat) :
    (l.map (fun x => if p x = true then 0 else f x)).sum =
      ((l.filter (fun x => ! p x)).map f).sum := by
  induction l with
  | nil => rfl
  | cons a as ih =>
    rw [List.map_cons, List.sum_cons, List.filter_cons]
    rcases hp : p a with _ | _
    · rw [if_neg (by simp [hp]), if_pos (by simp [hp])]
      rw [List.map_cons, List.sum_cons, ih]
    · rw [if_pos rfl, if_neg (show ¬ ((!true : Bool) = true) by simp), ih]
      omega

theorem lookupDrv_map_pair (l : List Nat) (g : Nat → Derivation) (k : Nat) :
    lookupDrv (l.map (fun v => (v, g v))) k =
      if k ∈ l then some (g k) else none := by
  induction l with
  | nil => rfl
  | cons a as ih =>
    rw [List.map_cons, lookupDrv]
    by_cases ha : a = k
    · subst ha
      rw [if_pos rfl, if_pos (List.mem_cons_self _ _)]
    · rw [if_neg ha, ih]
      by_cases hk : k ∈ as
      · rw [if_pos hk, if_pos (List.mem_cons_of_mem _ hk)]
      · have hnm : k ∉ a :: as := by
          intro hc
          rcases List.mem_cons.mp hc with hc1 | hc2
          · exact ha hc1.symm
          · exact hk hc2
        rw [if_neg hk, if_neg hnm]

theorem keptK_keptB (di : DepInfos) (flt : Derivation → Bool) (v : Nat)
    (h : keptK di flt v = true) : keptB di flt v = true := by
  unfold keptB
  unfold keptK at h
  rw [h]
  simp

theorem ondB_keptB (di : DepInfos) (flt : Derivation → Bool) (v : Nat)
    (h : ondB di flt v = true) : keptB di flt v = true := by
  unfold keptB
  unfold ondB at h
  rw [Bool.and_eq_true] at h
  rw [h.1]
  simp

theorem ondB_not_keptK (di : DepInfos) (flt : Derivation → Bool) (v : Nat)
    (h : ondB di flt v = true) : keptK di flt v = false := by
  unfold ondB at h
  rw [Bool.and_eq_true] at h
  unfold keptK
  rcases hq : flt (di.graph.node v) with _ | _
  · rfl
  · rw [hq] at h
    simpa using h.2

end NixDu

namespace NixDu

theorem keepPhase1_oldKept_mem (di : DepInfos) (flt : Derivation → Bool)
    (v : Nat) :
    v ∈ (keepPhase1 di flt).oldKept ↔
      v < di.graph.nodes.length ∧ keptB di flt v = true := by
  obtain ⟨h1, h2, h3, h4, h5, h6, h7, h8, h9⟩ :=
    keepP1_spec di flt di.graph.nodes.length le_rfl
  rw [keepPhase1_eq_p1, h4, List.mem_filter, List.mem_range]

theorem keepPhase1_inv (di : DepInfos) (flt : Derivation → Bool) :
    KeepInv di (keepPhase1 di flt).oldKept (keepPhase1 di flt) := by
  obtain ⟨h1, h2, h3, h4, h5, h6, h7, h8, h9⟩ :=
    keepP1_spec di flt di.graph.nodes.length le_rfl
  rw [keepPhase1_eq_p1]
  refine ⟨h1, ?_, ?_, ?_, ?_, ?_, ?_, ?_, ?_, ?_, h9⟩
  · rw [h5, List.map_map]
    have : (Prod.fst ∘ fun v => (v, di.graph.node v)) = fun v => v := rfl
    rw [this, List.map_id']
    exact List.Nodup.filter _ (List.nodup_range _)
  · intro v j hv
    exact (h7 v j hv).2.2.1
  · intro v j hv
    rw [← keepPhase1_eq_p1, keepPhase1_oldKept_mem]
    exact ⟨(h7 v j hv).1, keptK_keptB di flt v (h7 v j hv).2.1⟩
  · intro o ho
    rw [← keepPhase1_eq_p1, keepPhase1_oldKept_mem] at ho
    by_cases hK : keptK di flt o = true
    · right
      exact h8 o ho.1 hK
    · left
      rw [h5, lookupDrv_map_pair]
      have hond : ondB di flt o = true := by
        unfold ondB
        unfold keptB at ho
        unfold keptK at hK
        rcases hr : (di.graph.node o).is_root with _ | _
        · rw [hr] at ho
          rcases hf : flt (di.graph.node o) with _ | _
          · rw [hf] at ho
            exact absurd ho.2 (by simp)
          · exact absurd hf hK
        · rcases hf : flt (di.graph.node o) with _ | _
          · rfl
          · exact absurd hf hK
      rw [if_pos (List.mem_filter.mpr ⟨List.mem_range.mpr ho.1, hond⟩)]
      simp
  · intro v hv
    rw [h5, lookupDrv_map_pair] at hv
    split_ifs at hv with hmem
    · rw [List.mem_filter] at hmem
      rcases hc : lookupNat (keepP1 di flt di.graph.nodes.length).newIds v
          with _ | j
      · rfl
      · have hK := (h7 v j hc).2.1
        rw [ondB_not_keptK di flt v hmem.2] at hK
        exact absurd hK (by simp)
    · exact absurd rfl hv
  · intro e he
    rw [h3] at he
    exact absurd he (List.not_mem_nil e)
  · have hold : (keepP1 di flt di.graph.nodes.length).oldNodes.map
        (fun d => d.size) =
        (List.range di.graph.nodes.length).map
          (fun v => if keptB di flt v = true then 0
            else (di.graph.node v).size) := by
      apply List.ext_getElem
      · simp [h1]
      · intro i hi1 hi2
        have hin : i < di.graph.nodes.length := by simpa using hi2
        rw [List.getElem_map, List.getElem_map, List.getElem_range]
        have hg : (keepP1 di flt di.graph.nodes.length).oldNodes[i] =
            (keepP1 di flt di.graph.nodes.length).oldNodes.getD i
              Derivation.dummy := by
          rw [List.getD_eq_getElem?_getD,
            List.getElem?_eq_getElem (by omega)]
          rfl
        rw [hg, h2 i]
        by_cases hb : keptB di flt i = true
        · rw [if_pos ⟨hin, hb⟩, if_pos hb]
          rfl
        · rw [if_neg (fun hc => hb hc.2), if_neg hb]
    rw [hold, h6, h5]
    rw [sum_map_ite]
    rw [List.map_map, List.map_map]
    have hend : ((List.range di.graph.nodes.length).filter
        (ondB di flt)).map ((fun p => p.2.size) ∘ fun v =>
          (v, di.graph.node v)) =
        ((List.range di.graph.nodes.length).filter (ondB di flt)).map
          (fun v => (di.graph.node v).size) := rfl
    rw [hend]
    have hkn : ((List.range di.graph.nodes.length).filter
        (keptK di flt)).map ((fun d => d.size) ∘ di.graph.node) =
        ((List.range di.graph.nodes.length).filter (keptK di flt)).map
          (fun v => (di.graph.node v).size) := rfl
    rw [hkn]
    have hsplitB := sum_filter_split (List.range di.graph.nodes.length)
      (keptB di flt) (fun v => (di.graph.node v).size)
    have hsplitK := sum_filter_split ((List.range di.graph.nodes.length).filter
      (keptB di flt)) (keptK di flt) (fun v => (di.graph.node v).size)
    have hKB : ((List.range di.graph.nodes.length).filter
        (keptB di flt)).filter (keptK di flt) =
        (List.range di.graph.nodes.length).filter (keptK di flt) := by
      rw [List.filter_filter]
      apply List.filter_congr
      intro v _
      rcases hk : keptK di flt v with _ | _
      · simp
      · simp [keptK_keptB di flt v hk]
    have hOB : ((List.range di.graph.nodes.length).filter
        (keptB di flt)).filter (fun x => ! keptK di flt x) =
        (List.range di.graph.nodes.length).filter (ondB di flt) := by
      rw [List.filter_filter]
      apply List.filter_congr
      intro v _
      unfold ondB keptB keptK
      rcases hf : flt (di.graph.node v) with _ | _ <;>
        rcases hr : (di.graph.node v).is_root with _ | _ <;> simp
    rw [hKB] at hsplitK
    rw [hOB] at hsplitK
    have hrange : ((List.range di.graph.nodes.length).map
        (fun v => (di.graph.node v).size)).sum =
        (di.graph.nodes.map (fun d => d.size)).sum := by
      rw [range_map_node_size]
    omega
  · intro v j hv
    rw [(h7 v j hv).2.2.2]
    exact ⟨rfl, rfl⟩
  · intro p hp
    rw [h5] at hp
    rw [List.mem_map] at hp
    obtain ⟨v, hvf, hpv⟩ := hp
    rw [List.mem_filter, List.mem_range] at hvf
    rw [← hpv]
    refine ⟨rfl, rfl, ?_⟩
    rw [← keepPhase1_eq_p1, keepPhase1_oldKept_mem]
    exact ⟨hvf.1, ondB_keptB di flt v hvf.2⟩

end NixDu

namespace NixDu

theorem keepPhase2_inv (di : DepInfos) (flt : Derivation → Bool) :
    KeepInv di (keepPhase1 di flt).oldKept (keepPhase2 di flt) :=
  keepOldsFold_inv di (keepPhase1 di flt).oldKept (keepFuel di)
    (keepPhase1 di flt).oldKept (keepPhase1 di flt) (fun _ ho => ho)
    (keepPhase1_inv di flt)

theorem adjOf_length_le (edges : List (Nat × Nat)) (u : Nat) :
    (adjOf edges u).length ≤ edges.length := by
  unfold adjOf
  rw [List.length_reverse, List.length_map]
  exact List.length_filter_le _ _

theorem keepAdj_target_lt (di : DepInfos) (hwf : di.WF)
    (oka : List Nat) (old : Nat) :
    ∀ u m, m ∈ keepAdj di.graph.edges oka old u →
      m < di.graph.nodes.length := by
  intro u m hm
  unfold keepAdj at hm
  rw [mem_adjOf] at hm
  exact (hwf.1 _ (List.mem_of_mem_filter hm)).2

theorem dfsFrom_head (adj : Nat → List Nat) (f s : Nat) :
    ∃ rest, dfsFrom adj (f + 1) s = s :: rest := by
  unfold dfsFrom
  rw [dfsAux]
  rw [if_neg (List.not_mem_nil s)]
  exact ⟨_, rfl⟩

theorem mem_keepVisit_iff (di : DepInfos) (hwf : di.WF) (oka : List Nat)
    (old : Nat) (hold : old < di.graph.nodes.length) (v : Nat) :
    v ∈ keepVisit di.graph.edges oka (keepFuel di) old ↔
      (Reaches (keepAdj di.graph.edges oka old) old v ∧ v ≠ old) := by
  have hmem := mem_dfsFrom_iff (keepAdj di.graph.edges oka old)
    di.graph.nodes.length di.graph.edges.length
    (keepAdj_target_lt di hwf oka old)
    (fun u => by
      unfold keepAdj
      exact le_trans (adjOf_length_le _ u) (List.length_filter_le _ _))
    old hold (keepFuel di) le_rfl
  have hnodup : (dfsFrom (keepAdj di.graph.edges oka old)
      (keepFuel di) old).Nodup := dfsAux_nodup _ _ _ _
  obtain ⟨rest, hrest⟩ := dfsFrom_head (keepAdj di.graph.edges oka old)
    (di.graph.nodes.length * (di.graph.edges.length + 1)) old
  have hfuel : keepFuel di =
      di.graph.nodes.length * (di.graph.edges.length + 1) + 1 := by
    unfold keepFuel
    omega
  unfold keepVisit
  rw [hfuel, hrest, List.drop_one, List.tail_cons]
  rw [hfuel] at hmem hnodup
  rw [hrest] at hmem hnodup
  constructor
  · intro hv
    refine ⟨(hmem v).mp (List.mem_cons_of_mem _ hv), ?_⟩
    intro hveq
    subst hveq
    rw [List.nodup_cons] at hnodup
    exact hnodup.1 hv
  · rintro ⟨hreach, hne⟩
    have := (hmem v).mpr hreach
    rcases List.mem_cons.mp this with hc | hc
    · exact absurd hc hne
    · exact hc

theorem reachOut_keepAdj (edges : List (Nat × Nat)) (oka : List Nat)
    (old v : Nat) (h : ReachOut (adjOf edges) oka old v) :
    (v = old ∨ v ∉ oka) ∧ Reaches (keepAdj edges oka old) old v := by
  induction h with
  | refl => exact ⟨Or.inl rfl, .refl _⟩
  | step hxy hz hnz ih =>
    rename_i y z
    refine ⟨Or.inr hnz, ?_⟩
    have hedge : (y, z) ∈ edges.filter
        (fun e => e.1 == old || ! (oka.contains e.1)) := by
      rw [List.mem_filter]
      refine ⟨(mem_adjOf _ _ _).mp hz, ?_⟩
      rcases ih.1 with hyo | hyn
      · simp [hyo]
      · have hcf : oka.contains y = false := by
          rcases hc : oka.contains y with _ | _
          · rfl
          · rw [list_contains_iff] at hc
            exact absurd hc hyn
        simp [hcf] <;> exact Or.inr hyn
    refine .step ih.2 ?_ (List.not_mem_nil _)
    unfold keepAdj
    rw [mem_adjOf]
    exact hedge

theorem reaches_last_boundary (adj : Nat → List Nat) (S : List Nat)
    {r v : Nat} (h : Reaches adj r v) (hr : r ∈ S) :
    v = r ∨ ∃ w y, w ∈ S ∧ ReachOut adj S w y ∧ v ∈ adj y := by
  cases h with
  | refl => exact Or.inl rfl
  | step hxy hz hnz =>
    rename_i y
    right
    by_cases hy : y ∈ S
    · exact ⟨y, y, hy, .refl y, hz⟩
    · rcases hxy.last_exit (S := S) hy with ⟨w, hwS, hw⟩ | hw
      · exact ⟨w, y, hwS, hw, hz⟩
      · exact ⟨r, y, hr, hw, hz⟩

end NixDu

namespace NixDu

theorem keepVisitStep_zeroes (old : Nat) (st : KeepState) (idx : Nat)
    (h1 : lookupNat st.newIds idx = none) :
    ((keepVisitStep old st idx).oldNodes.getD idx
      Derivation.dummy).size = 0 := by
  rcases h2 : lookupDrv st.ondemand old with _ | w
  · rw [keepVisitStep_eqD old st idx h1 h2]
    show (((st.oldNodes.set idx _)).getD idx Derivation.dummy).size = 0
    rw [getD_set_self_or]
    split_ifs
    · rfl
    · rfl
  · rw [keepVisitStep_eqC old st idx w h1 h2]
    show (((st.oldNodes.set idx _)).getD idx Derivation.dummy).size = 0
    rw [getD_set_self_or]
    split_ifs
    · rfl
    · rfl

theorem keepVisitFold_zero (di : DepInfos) (oka : List Nat) (old : Nat)
    (l : List Nat) (st : KeepState) (hold : old ∈ oka)
    (hinv : KeepInv di oka st) (v : Nat) (hv : v ∈ l) (hnk : v ∉ oka) :
    ((l.foldl (keepVisitStep old) st).oldNodes.getD v
      Derivation.dummy).size = 0 := by
  induction l generalizing st with
  | nil => exact absurd hv (List.not_mem_nil v)
  | cons a as ih =>
    rw [List.foldl_cons]
    by_cases hva : v = a
    · subst hva
      have h1 : lookupNat st.newIds v = none := by
        rcases hc : lookupNat st.newIds v with _ | j
        · rfl
        · exact absurd (hinv.idsDom v j hc) hnk
      exact keepVisitFold_mono_zero old as _ v
        (keepVisitStep_zeroes old st v h1)
    · have hvas : v ∈ as := by
        rcases List.mem_cons.mp hv with hc | hc
        · exact absurd hc hva
        · exact hc
      exact ih _ (keepVisitStep_inv di oka old st a hold hinv) hvas

theorem keepOldsFold_zero (di : DepInfos) (oka : List Nat) (fuel : Nat)
    (olds : List Nat) (st : KeepState) (holds : ∀ o ∈ olds, o ∈ oka)
    (hinv : KeepInv di oka st) (old : Nat) (hold : old ∈ olds)
    (v : Nat) (hv : v ∈ keepVisit di.graph.edges oka fuel old)
    (hnk : v ∉ oka) :
    ((olds.foldl (keepOldStep di.graph.edges oka fuel) st).oldNodes.getD v
      Derivation.dummy).size = 0 := by
  induction olds generalizing st with
  | nil => exact absurd hold (List.not_mem_nil old)
  | cons a as ih =>
    rw [List.foldl_cons]
    by_cases hoa : old = a
    · subst hoa
      have hz : ((keepOldStep di.graph.edges oka fuel st old).oldNodes.getD v
          Derivation.dummy).size = 0 :=
        keepVisitFold_zero di oka old _ st
          (holds old (List.mem_cons_self _ _)) hinv v hv hnk
      exact keepOldsFold_mono_zero di.graph.edges oka fuel as _ v hz
    · have hoas : old ∈ as := by
        rcases List.mem_cons.mp hold with hc | hc
        · exact absurd hc hoa
        · exact hc
      exact ih _ (fun o ho => holds o (List.mem_cons_of_mem _ ho))
        (keepOldStep_inv di oka fuel a st
          (holds a (List.mem_cons_self _ _)) hinv) hoas

theorem reachable_visited (di : DepInfos) (hwf : di.WF)
    (flt : Derivation → Bool) (v : Nat) (hv : di.RootReachable v)
    (hnk : v ∉ (keepPhase1 di flt).oldKept) :
    ∃ old ∈ (keepPhase1 di flt).oldKept,
      v ∈ keepVisit di.graph.edges (keepPhase1 di flt).oldKept
        (keepFuel di) old := by
  obtain ⟨r, hr, hreach⟩ := hv
  have hrk : r ∈ (keepPhase1 di flt).oldKept := by
    rw [keepPhase1_oldKept_mem]
    refine ⟨hwf.2.1 r hr, ?_⟩
    unfold keptB
    rw [(hwf.2.2.2 r (hwf.2.1 r hr)).mp hr]
    simp
  rcases hreach.last_exit (S := (keepPhase1 di flt).oldKept) hnk with
    ⟨w, hwS, hw⟩ | hw
  · have hconv := reachOut_keepAdj di.graph.edges
      (keepPhase1 di flt).oldKept w v hw
    have hvw : v ≠ w := by
      intro hc
      subst hc
      exact hnk hwS
    refine ⟨w, hwS, ?_⟩
    rw [mem_keepVisit_iff di hwf _ w
      ((keepPhase1_oldKept_mem di flt w).mp hwS).1 v]
    exact ⟨hconv.2, hvw⟩
  · have hconv := reachOut_keepAdj di.graph.edges
      (keepPhase1 di flt).oldKept r v hw
    have hvw : v ≠ r := by
      intro hc
      subst hc
      exact hnk hrk
    refine ⟨r, hrk, ?_⟩
    rw [mem_keepVisit_iff di hwf _ r (hwf.2.1 r hr) v]
    exact ⟨hconv.2, hvw⟩

theorem keepPhase2_oldNodes_zero (di : DepInfos) (hwf : di.WF)
    (flt : Derivation → Bool)
    (hall : ∀ v < di.graph.nodes.length, di.RootReachable v) (v : Nat) :
    ((keepPhase2 di flt).oldNodes.getD v Derivation.dummy).size = 0 := by
  by_cases hn : v < di.graph.nodes.length
  · by_cases hk : v ∈ (keepPhase1 di flt).oldKept
    · have hz : ((keepPhase1 di flt).oldNodes.getD v
          Derivation.dummy).size = 0 := by
        obtain ⟨h1, h2, h3, h4, h5, h6, h7, h8, h9⟩ :=
          keepP1_spec di flt di.graph.nodes.length le_rfl
        rw [keepPhase1_eq_p1, h2 v,
          if_pos ⟨hn, ((keepPhase1_oldKept_mem di flt v).mp hk).2⟩]
        rfl
      exact keepOldsFold_mono_zero di.graph.edges
        (keepPhase1 di flt).oldKept (keepFuel di) _ _ v hz
    · obtain ⟨old, hold, hvis⟩ := reachable_visited di hwf flt v
        (hall v hn) hk
      exact keepOldsFold_zero di (keepPhase1 di flt).oldKept (keepFuel di)
        (keepPhase1 di flt).oldKept (keepPhase1 di flt) (fun _ ho => ho)
        (keepPhase1_inv di flt) old hold v hvis hk
  · rw [getD_of_length_le]
    · rfl
    · rw [(keepPhase2_inv di flt).lenOld]
      omega

theorem keep_total_size (di : DepInfos) (flt : Derivation → Bool) :
    (keep di flt).size =
      ((keepPhase2 di flt).newNodes.map (fun d => d.size)).sum +
        keepRemaining di flt := by
  have hnodes : (keep di flt).graph.nodes =
      (if 0 < keepRemaining di flt then
        (keepPhase2 di flt).newNodes ++
          [⟨FILTERED_ROOT_NAME, keepRemaining di flt, true⟩]
      else (keepPhase2 di flt).newNodes) := rfl
  unfold DepInfos.size
  rw [hnodes]
  by_cases hr : 0 < keepRemaining di flt
  · rw [if_pos hr, List.map_append, List.sum_append]
    simp
  · rw [if_neg hr]
    omega

theorem keep_conserves_size (di : DepInfos) (hwf : di.WF)
    (flt : Derivation → Bool)
    (hall : ∀ v < di.graph.nodes.length, di.RootReachable v) :
    (keep di flt).size = di.size := by
  rw [keep_total_size]
  have hsums := (keepPhase2_inv di flt).sums
  have hzero : ((keepPhase2 di flt).oldNodes.map
      (fun d => d.size)).sum = 0 := by
    apply List.sum_eq_zero
    intro x hx
    rw [List.mem_map] at hx
    obtain ⟨d, hd, hdx⟩ := hx
    obtain ⟨i, hi, hie⟩ := List.mem_iff_getElem.mp hd
    have := keepPhase2_oldNodes_zero di hwf flt hall i
    rw [List.getD_eq_getElem?_getD, List.getElem?_eq_getElem hi] at this
    rw [← hdx, ← hie]
    exact this
  unfold DepInfos.size keepRemaining
  omega

end NixDu

namespace NixDu

/-- A walk from `u` through the successive vertices of `p`, ending at
`v` (`p = []` means `u = v`). -/
def ChainTo (adj : Nat → List Nat) (u : Nat) : List Nat → Nat → Prop
  | [], v => u = v
  | w :: ws, v => w ∈ adj u ∧ ChainTo adj w ws v

theorem chainTo_append (adj : Nat → List Nat) (p : List Nat) :
    ∀ (u y z : Nat), ChainTo adj u p y → z ∈ adj y →
      ChainTo adj u (p ++ [z]) z := by
  induction p with
  | nil =>
    intro u y z h hz
    rw [ChainTo] at h
    subst h
    exact ⟨hz, rfl⟩
  | cons w ws ih =>
    intro u y z h hz
    exact ⟨h.1, ih w y z h.2 hz⟩

theorem reaches_iff_chain (adj : Nat → List Nat) (u v : Nat) :
    Reaches adj u v ↔ ∃ p, ChainTo adj u p v := by
  constructor
  · intro h
    induction h with
    | refl => exact ⟨[], rfl⟩
    | step hxy hz hnz ih =>
      obtain ⟨p, hp⟩ := ih
      exact ⟨p ++ [_], chainTo_append adj p _ _ _ hp hz⟩
  · rintro ⟨p, hp⟩
    induction p generalizing u with
    | nil =>
      rw [ChainTo] at hp
      subst hp
      exact .refl u
    | cons w ws ih =>
      have hstep : Reaches adj u w :=
        .step (.refl u) hp.1 (List.not_mem_nil w)
      exact hstep.trans (ih w hp.2)

theorem chain_last_boundary (adj : Nat → List Nat) (S : List Nat) :
    ∀ (p : List Nat) (r v : Nat), ChainTo adj r p v → p ≠ [] →
      ∃ w y q, (w = r ∨ w ∈ S) ∧ ChainTo adj r q w ∧
        q.length < p.length ∧ ReachOut adj S w y ∧ v ∈ adj y := by
  intro p
  induction p with
  | nil => intro r v _ hne; exact absurd rfl hne
  | cons a ps ih =>
    intro r v h _
    by_cases hps : ps = []
    · subst hps
      have hav : a = v := h.2
      subst hav
      exact ⟨r, r, [], Or.inl rfl, rfl, by simp, .refl r, h.1⟩
    · obtain ⟨w, y, q, hw, hcq, hlen, hro, hvy⟩ := ih a v h.2 hps
      rcases hw with hwa | hwS
      · subst hwa
        by_cases haS : w ∈ S
        · refine ⟨w, y, w :: q, Or.inr haS, ⟨h.1, hcq⟩, ?_, hro, hvy⟩
          simpa using hlen
        · refine ⟨r, y, [], Or.inl rfl, rfl, by simp, ?_, hvy⟩
          have hra : ReachOut adj S r w :=
            .step (.refl r) h.1 haS
          exact hra.trans hro
      · refine ⟨w, y, a :: q, Or.inr hwS, ⟨h.1, hcq⟩, ?_, hro, hvy⟩
        simpa using hlen

end NixDu

namespace NixDu

/-- Keys of `new_ids` either date from the first loop or are
materialised roots; ondemand keys are always roots. -/
def KeepIdsOrigin (di : DepInfos) (flt : Derivation → Bool)
    (st : KeepState) : Prop :=
  (∀ v j, lookupNat st.newIds v = some j →
    lookupNat (keepPhase1 di flt).newIds v = some j ∨
      (di.graph.node v).is_root = true) ∧
  (∀ k, lookupDrv st.ondemand k ≠ none →
    (di.graph.node k).is_root = true)

theorem keepVisitStep_origin (di : DepInfos) (flt : Derivation → Bool)
    (old : Nat) (st : KeepState) (idx : Nat)
    (h : KeepIdsOrigin di flt st) :
    KeepIdsOrigin di flt (keepVisitStep old st idx) := by
  rcases h1 : lookupNat st.newIds idx with _ | new2
  · rcases h2 : lookupDrv st.ondemand old with _ | w
    · rw [keepVisitStep_eqD old st idx h1 h2]
      exact h
    · rw [keepVisitStep_eqC old st idx w h1 h2]
      refine ⟨h.1, ?_⟩
      intro k hk
      by_cases hko : k = old
      · subst hko
        exact h.2 k (by rw [h2]; simp)
      · rw [mapDrv_lookup_ne _ _ _ _ hko] at hk
        exact h.2 k hk
  · rcases h2 : lookupDrv st.ondemand old with _ | w
    · rw [keepVisitStep_eqB old st idx new2 h1 h2]
      exact h
    · rw [keepVisitStep_eqA old st idx new2 w h1 h2]
      constructor
      · intro v j hv
        rw [lookupNat_append_single] at hv
        rcases hc : lookupNat st.newIds v with _ | x
        · rw [hc] at hv
          split_ifs at hv with hov
          · subst hov
            exact Or.inr (h.2 old (by rw [h2]; simp))
        · rw [hc] at hv
          have hx := Option.some_inj.mp hv
          subst hx
          exact h.1 v x hc
      · intro k hk
        by_cases hko : k = old
        · subst hko
          rw [removeDrv_lookup_self] at hk
          exact absurd rfl hk
        · rw [removeDrv_lookup_ne _ _ _ hko] at hk
          exact h.2 k hk

theorem keepPhase2_origin (di : DepInfos) (flt : Derivation → Bool) :
    KeepIdsOrigin di flt (keepPhase2 di flt) := by
  have hinit : KeepIdsOrigin di flt (keepPhase1 di flt) := by
    constructor
    · intro v j hv
      exact Or.inl hv
    · intro k hk
      obtain ⟨h1, h2, h3, h4, h5, h6, h7, h8, h9⟩ :=
        keepP1_spec di flt di.graph.nodes.length le_rfl
      rw [keepPhase1_eq_p1, h5, lookupDrv_map_pair] at hk
      split_ifs at hk with hmem
      · rw [List.mem_filter] at hmem
        have := hmem.2
        unfold ondB at this
        rw [Bool.and_eq_true] at this
        exact this.1
      · exact absurd rfl hk
  have hfold : ∀ (l : List Nat) (st : KeepState), KeepIdsOrigin di flt st →
      ∀ old, KeepIdsOrigin di flt (l.foldl (keepVisitStep old) st) := by
    intro l
    induction l with
    | nil => intro st h old; exact h
    | cons a as ih =>
      intro st h old
      exact ih _ (keepVisitStep_origin di flt old st a h) old
  have holds : ∀ (olds : List Nat) (st : KeepState),
      KeepIdsOrigin di flt st →
      KeepIdsOrigin di flt (olds.foldl
        (keepOldStep di.graph.edges (keepPhase1 di flt).oldKept
          (keepFuel di)) st) := by
    intro olds
    induction olds with
    | nil => intro st h; exact h
    | cons a as ih =>
      intro st h
      exact ih _ (hfold _ st h a)
  exact holds _ _ hinit

theorem keepVisitStep_kept_edge (di : DepInfos) (oka : List Nat)
    (old : Nat) (st : KeepState) (idx j : Nat) (hold : old ∈ oka)
    (hinv : KeepInv di oka st)
    (hj : lookupNat st.newIds idx = some j) :
    ∃ a, lookupNat (keepVisitStep old st idx).newIds old = some a ∧
      (a, j) ∈ (keepVisitStep old st idx).newEdges := by
  rcases h2 : lookupDrv st.ondemand old with _ | w
  · rw [keepVisitStep_eqB old st idx j hj h2]
    have hpres : lookupNat st.newIds old ≠ none := by
      rcases hinv.presence old hold with hc | hc
      · exact absurd h2 hc
      · exact hc
    rcases hc : lookupNat st.newIds old with _ | a
    · exact absurd hc hpres
    · refine ⟨a, rfl, ?_⟩
      exact List.mem_append_right _ (List.mem_singleton_self _)
  · rw [keepVisitStep_eqA old st idx j w hj h2]
    have hidsO : lookupNat st.newIds old = none :=
      hinv.disj old (by rw [h2]; simp)
    refine ⟨st.newNodes.length, ?_, ?_⟩
    · exact lookupNat_append_fresh _ _ _ hidsO
    · exact List.mem_append_right _ (List.mem_singleton_self _)

theorem keepVisitFold_kept_edge (di : DepInfos) (oka : List Nat)
    (old : Nat) (l : List Nat) (st : KeepState) (v j : Nat)
    (hold : old ∈ oka) (hinv : KeepInv di oka st) (hv : v ∈ l)
    (hj : lookupNat st.newIds v = some j) :
    ∃ a, lookupNat (l.foldl (keepVisitStep old) st).newIds old = some a ∧
      (a, j) ∈ (l.foldl (keepVisitStep old) st).newEdges := by
  induction l generalizing st with
  | nil => exact absurd hv (List.not_mem_nil v)
  | cons b bs ih =>
    rw [List.foldl_cons]
    by_cases hvb : v = b
    · subst hvb
      obtain ⟨a, ha, hae⟩ :=
        keepVisitStep_kept_edge di oka old st v j hold hinv hj
      exact ⟨a, keepVisitFold_mono_ids old bs _ old a ha,
        keepVisitFold_mono_edges old bs _ _ hae⟩
    · have hvbs : v ∈ bs := by
        rcases List.mem_cons.mp hv with hc | hc
        · exact absurd hc hvb
        · exact hc
      exact ih _ (keepVisitStep_inv di oka old st b hold hinv) hvbs
        (keepVisitStep_mono_ids old st b v j hj)

theorem keepOldsFold_kept_edge (di : DepInfos) (oka : List Nat)
    (fuel : Nat) (olds : List Nat) (st : KeepState) (old v j : Nat)
    (holds : ∀ o ∈ olds, o ∈ oka) (hinv : KeepInv di oka st)
    (hold : old ∈ olds)
    (hv : v ∈ keepVisit di.graph.edges oka fuel old)
    (hj : lookupNat st.newIds v = some j) :
    ∃ a, lookupNat (olds.foldl (keepOldStep di.graph.edges oka fuel)
      st).newIds old = some a ∧
      (a, j) ∈ (olds.foldl (keepOldStep di.graph.edges oka fuel)
        st).newEdges := by
  induction olds generalizing st with
  | nil => exact absurd hold (List.not_mem_nil old)
  | cons b bs ih =>
    rw [List.foldl_cons]
    by_cases hob : old = b
    · subst hob
      obtain ⟨a, ha, hae⟩ := keepVisitFold_kept_edge di oka old _ st v j
        (holds old (List.mem_cons_self _ _)) hinv hv hj
      exact ⟨a, keepOldsFold_mono_ids _ _ _ bs _ old a ha,
        keepOldsFold_mono_edges _ _ _ bs _ _ hae⟩
    · have hobs : old ∈ bs := by
        rcases List.mem_cons.mp hold with hc | hc
        · exact absurd hc hob
        · exact hc
      exact ih _ (fun o ho => holds o (List.mem_cons_of_mem _ ho))
        (keepOldStep_inv di oka fuel b st
          (holds b (List.mem_cons_self _ _)) hinv)
        hobs (keepVisitFold_mono_ids b _ st v j hj)
end NixDu

namespace NixDu

theorem keep_graph_edges (di : DepInfos) (flt : Derivation → Bool) :
    (keep di flt).graph.edges = (keepPhase2 di flt).newEdges := rfl

theorem keep_len_ge (di : DepInfos) (flt : Derivation → Bool) :
    (keepPhase2 di flt).newNodes.length ≤
      (keep di flt).graph.nodes.length := by
  have hnodes : (keep di flt).graph.nodes =
      (if 0 < keepRemaining di flt then
        (keepPhase2 di flt).newNodes ++
          [⟨FILTERED_ROOT_NAME, keepRemaining di flt, true⟩]
      else (keepPhase2 di flt).newNodes) := rfl
  rw [hnodes]
  split_ifs
  · simp
  · exact le_rfl

theorem keep_node_lt (di : DepInfos) (flt : Derivation → Bool) (j : Nat)
    (hj : j < (keepPhase2 di flt).newNodes.length) :
    (keep di flt).graph.node j =
      (keepPhase2 di flt).newNodes.getD j Derivation.dummy := by
  have hnodes : (keep di flt).graph.nodes =
      (if 0 < keepRemaining di flt then
        (keepPhase2 di flt).newNodes ++
          [⟨FILTERED_ROOT_NAME, keepRemaining di flt, true⟩]
      else (keepPhase2 di flt).newNodes) := rfl
  unfold DepGraph.node
  rw [hnodes]
  split_ifs
  · exact getD_append_lt _ _ _ _ hj
  · rfl

theorem keep_roots_mem (di : DepInfos) (flt : Derivation → Bool) (j : Nat)
    (hj : j < (keep di flt).graph.nodes.length)
    (hr : ((keep di flt).graph.node j).is_root = true) :
    j ∈ (keep di flt).roots := by
  have hroots : (keep di flt).roots =
      (List.range (keep di flt).graph.nodes.length).filter
        (fun i => ((keep di flt).graph.node i).is_root) := rfl
  rw [hroots]
  exact List.mem_filter.mpr ⟨List.mem_range.mpr hj, by simpa using hr⟩

theorem keep_lookup_root_reach (di : DepInfos) (flt : Derivation → Bool)
    (v j : Nat) (hj : lookupNat (keepPhase2 di flt).newIds v = some j)
    (hroot : (di.graph.node v).is_root = true) :
    (keep di flt).RootReachable j := by
  have hinv := keepPhase2_inv di flt
  have hjl := hinv.idsLt v j hj
  have hm := (hinv.nodeMatch v j hj).2
  refine ⟨j, keep_roots_mem di flt j (lt_of_lt_of_le hjl
    (keep_len_ge di flt)) ?_, .refl j⟩
  rw [keep_node_lt di flt j hjl, hm]
  exact hroot

theorem keep_kept_reachable (di : DepInfos) (hwf : di.WF)
    (flt : Derivation → Bool) :
    ∀ (k : Nat) (p : List Nat) (r v j : Nat), p.length ≤ k →
      r ∈ di.roots → ChainTo di.graph.adj r p v →
      lookupNat (keepPhase2 di flt).newIds v = some j →
      (keep di flt).RootReachable j := by
  intro k
  induction k with
  | zero =>
    intro p r v j hlen hr hchain hj
    have hp : p = [] := List.eq_nil_of_length_eq_zero (by omega)
    subst hp
    have hv : r = v := hchain
    subst hv
    exact keep_lookup_root_reach di flt r j hj
      ((hwf.2.2.2 r (hwf.2.1 r hr)).mp hr)
  | succ k ih =>
    intro p r v j hlen hr hchain hj
    by_cases hroot : (di.graph.node v).is_root = true
    · exact keep_lookup_root_reach di flt v j hj hroot
    · have hp1 : lookupNat (keepPhase1 di flt).newIds v = some j := by
        rcases (keepPhase2_origin di flt).1 v j hj with hc | hc
        · exact hc
        · exact absurd hc hroot
      rcases hpe : p with _ | ⟨a, ps⟩
      · rw [hpe] at hchain
        have hv : r = v := hchain
        subst hv
        exact absurd ((hwf.2.2.2 r (hwf.2.1 r hr)).mp hr) hroot
      · rw [hpe] at hchain hlen
        obtain ⟨w, y, q, hw, hcq, hlen2, hro, hvy⟩ :=
          chain_last_boundary di.graph.adj (keepPhase1 di flt).oldKept
            (a :: ps) r v hchain (by simp)
        have hwoka : w ∈ (keepPhase1 di flt).oldKept := by
          rcases hw with hwr | hwS
          · subst hwr
            rw [keepPhase1_oldKept_mem]
            refine ⟨hwf.2.1 w hr, ?_⟩
            unfold keptB
            rw [(hwf.2.2.2 w (hwf.2.1 w hr)).mp hr]
            simp
          · exact hwS
        by_cases hvw : v = w
        · subst hvw
          exact ih q r v j (by
            simp at hlen2
            rw [List.length_cons] at hlen
            omega) hr hcq hj
        · have hconv := reachOut_keepAdj di.graph.edges
            (keepPhase1 di flt).oldKept w y hro
          have hedge : v ∈ keepAdj di.graph.edges
              (keepPhase1 di flt).oldKept w y := by
            unfold keepAdj
            rw [mem_adjOf, List.mem_filter]
            refine ⟨(DepGraph.mem_adj _ _ _).mp hvy, ?_⟩
            rcases hconv.1 with hyw | hyn
            · simp [hyw]
            · have hcf : ((keepPhase1 di flt).oldKept).contains y
                  = false := by
                rcases hcc : ((keepPhase1 di flt).oldKept).contains y
                    with _ | _
                · rfl
                · rw [list_contains_iff] at hcc
                  exact absurd hcc hyn
              simp [hcf] <;> exact Or.inr hyn
          have hreachv : Reaches (keepAdj di.graph.edges
              (keepPhase1 di flt).oldKept w) w v :=
            .step hconv.2 hedge (List.not_mem_nil v)
          have hwlt : w < di.graph.nodes.length :=
            ((keepPhase1_oldKept_mem di flt w).mp hwoka).1
          have hvis : v ∈ keepVisit di.graph.edges
              (keepPhase1 di flt).oldKept (keepFuel di) w :=
            (mem_keepVisit_iff di hwf _ w hwlt v).mpr ⟨hreachv, hvw⟩
          obtain ⟨av, haw, hedge2⟩ := keepOldsFold_kept_edge di
            (keepPhase1 di flt).oldKept (keepFuel di)
            (keepPhase1 di flt).oldKept (keepPhase1 di flt) w v j
            (fun _ ho => ho) (keepPhase1_inv di flt) hwoka hvis hp1
          have hreacha : (keep di flt).RootReachable av := by
            by_cases hwr : (di.graph.node w).is_root = true
            · exact keep_lookup_root_reach di flt w av haw hwr
            · exact ih q r w av (by
                simp at hlen2
                rw [List.length_cons] at hlen
                omega) hr hcq haw
          obtain ⟨r0, hr0, hreach0⟩ := hreacha
          refine ⟨r0, hr0, hreach0.step ?_ (List.not_mem_nil j)⟩
          rw [DepGraph.mem_adj, keep_graph_edges]
          exact hedge2

end NixDu

namespace NixDu

theorem keep_WF (di : DepInfos) (flt : Derivation → Bool) :
    (keep di flt).WF := by
  have h : keep di flt = DepInfos.new_from_graph (keep di flt).graph := rfl
  rw [h]
  apply new_from_graph_WF
  intro e he
  rw [keep_graph_edges] at he
  have := (keepPhase2_inv di flt).edgesLt e he
  have hle := keep_len_ge di flt
  omega

theorem keep_output_reachable (di : DepInfos) (hwf : di.WF)
    (flt : Derivation → Bool)
    (hall : ∀ v < di.graph.nodes.length, di.RootReachable v) :
    ∀ j < (keep di flt).graph.nodes.length,
      (keep di flt).RootReachable j := by
  intro j hj
  by_cases hjl : j < (keepPhase2 di flt).newNodes.length
  · obtain ⟨v, hv⟩ := (keepPhase2_inv di flt).surj j hjl
    by_cases hroot : (di.graph.node v).is_root = true
    · exact keep_lookup_root_reach di flt v j hv hroot
    · have hvlt : v < di.graph.nodes.length :=
        ((keepPhase1_oldKept_mem di flt v).mp
          ((keepPhase2_inv di flt).idsDom v j hv)).1
      obtain ⟨r, hr, hreach⟩ := hall v hvlt
      obtain ⟨p, hp⟩ := (reaches_iff_chain di.graph.adj r v).mp hreach
      exact keep_kept_reachable di hwf flt p.length p r v j le_rfl hr hp hv
  · have hnodes : (keep di flt).graph.nodes =
        (if 0 < keepRemaining di flt then
          (keepPhase2 di flt).newNodes ++
            [⟨FILTERED_ROOT_NAME, keepRemaining di flt, true⟩]
        else (keepPhase2 di flt).newNodes) := rfl
    by_cases hr0 : 0 < keepRemaining di flt
    · have hlen : (keep di flt).graph.nodes.length =
          (keepPhase2 di flt).newNodes.length + 1 := by
        rw [hnodes, if_pos hr0]
        simp
      have hje : j = (keepPhase2 di flt).newNodes.length := by omega
      have hnode : (keep di flt).graph.node j =
          ⟨FILTERED_ROOT_NAME, keepRemaining di flt, true⟩ := by
        unfold DepGraph.node
        rw [hnodes, if_pos hr0, hje]
        exact getD_concat_self _ _ _
      refine ⟨j, keep_roots_mem di flt j hj ?_, .refl j⟩
      rw [hnode]
    · have hlen : (keep di flt).graph.nodes.length =
          (keepPhase2 di flt).newNodes.length := by
        rw [hnodes, if_neg hr0]
      omega

theorem keep_conserves_reachable_size (di : DepInfos) (hwf : di.WF)
    (flt : Derivation → Bool)
    (hall : ∀ v < di.graph.nodes.length, di.RootReachable v) :
    (keep di flt).reachable_size = di.reachable_size := by
  rw [reachable_size_eq_size_of_all _ (keep_WF di flt)
    (keep_output_reachable di hwf flt hall),
    keep_conserves_size di hwf flt hall,
    ← reachable_size_eq_size_of_all di hwf hall]

end NixDu

namespace NixDu

/-- C3, amended: on well-formed inputs the Transient Merger and the
Condenser always conserve reachable size; the Filter conserves both
reachable size and total size whenever every vertex of the input is
reachable from a root (the unconditional statements are refuted by
`claim_C3_size_conservation_counterexample`). -/
theorem claim_C3_size_conservation (di : DepInfos) (hwf : di.WF)
    (flt : Derivation → Bool) :
    (merge_transient_roots di).reachable_size = di.reachable_size ∧
    (condense di).reachable_size = di.reachable_size ∧
    ((∀ v < di.graph.nodes.length, di.RootReachable v) →
      (keep di flt).reachable_size = di.reachable_size ∧
      (keep di flt).size = di.size) :=
  ⟨merge_preserves_reachable_size di hwf,
   condense_preserves_reachable_size di hwf,
   fun hall => ⟨keep_conserves_reachable_size di hwf flt hall,
     keep_conserves_size di hwf flt hall⟩⟩

theorem claim_C3_size_conservation_witness :
    exampleDi.WF ∧
    (keep exampleDi (fun _ => true)).size = exampleDi.size :=
  ⟨by decide,
   ((claim_C3_size_conservation exampleDi (by decide)
      (fun _ => true)).2.2 (fun v hv => by
        have hv3 : v < 3 := hv
        interval_cases v
        · exact ⟨0, by decide, .refl 0⟩
        · exact ⟨1, by decide, .refl 1⟩
        · exact ⟨1, by decide, .step (.refl 1) (by decide)
            (List.not_mem_nil 2)⟩)).2⟩

end NixDu

namespace NixDu

theorem range_map_node (g : DepGraph) :
    (List.range g.nodes.length).map g.node = g.nodes := by
  apply List.ext_getElem
  · simp
  · intro i h1 h2
    rw [List.getElem_map, List.getElem_range]
    unfold DepGraph.node
    rw [List.getD_eq_getElem?_getD,
      List.getElem?_eq_getElem (by simpa using h2)]
    rfl

theorem lookupDrv_ne_none_iff (l : List (Nat × Derivation)) (k : Nat) :
    lookupDrv l k ≠ none ↔ k ∈ l.map Prod.fst := by
  induction l with
  | nil => simp [lookupDrv]
  | cons p ps ih =>
    rw [lookupDrv, List.map_cons]
    by_cases hp : p.1 = k
    · rw [if_pos hp]
      simp [hp]
    · rw [if_neg hp, List.mem_cons, ih]
      constructor
      · intro h
        exact Or.inr h
      · rintro (hc | hc)
        · exact absurd hc.symm hp
        · exact hc

theorem keepVisit_lt (di : DepInfos) (hwf : di.WF) (oka : List Nat)
    (old : Nat) (hold : old < di.graph.nodes.length) :
    ∀ v ∈ keepVisit di.graph.edges oka (keepFuel di) old,
      v < di.graph.nodes.length := by
  intro v hv
  have := ((mem_keepVisit_iff di hwf oka old hold v).mp hv).1
  cases this with
  | refl => exact hold
  | step _ hz _ => exact keepAdj_target_lt di hwf oka old _ v hz

theorem keepVisitStep_untouched (old : Nat) (st : KeepState)
    (idx v : Nat) (hne : idx ≠ v) :
    (keepVisitStep old st idx).oldNodes.getD v Derivation.dummy =
      st.oldNodes.getD v Derivation.dummy := by
  rcases h1 : lookupNat st.newIds idx with _ | new2
  · rcases h2 : lookupDrv st.ondemand old with _ | w
    · rw [keepVisitStep_eqD old st idx h1 h2]
      exact listGetD_set_ne _ _ _ _ _ hne
    · rw [keepVisitStep_eqC old st idx w h1 h2]
      exact listGetD_set_ne _ _ _ _ _ hne
  · rcases h2 : lookupDrv st.ondemand old with _ | w
    · rw [keepVisitStep_eqB old st idx new2 h1 h2]
    · rw [keepVisitStep_eqA old st idx new2 w h1 h2]

theorem keepVisitFold_untouched (old : Nat) (l : List Nat)
    (st : KeepState) (v : Nat) (hv : v ∉ l) :
    (l.foldl (keepVisitStep old) st).oldNodes.getD v Derivation.dummy =
      st.oldNodes.getD v Derivation.dummy := by
  induction l generalizing st with
  | nil => rfl
  | cons a as ih =>
    rw [List.foldl_cons, ih _ (fun hc => hv (List.mem_cons_of_mem _ hc)),
      keepVisitStep_untouched old st a v
        (fun hc => hv (hc ▸ List.mem_cons_self _ _))]

theorem keepOldsFold_untouched (di : DepInfos) (oka : List Nat)
    (fuel : Nat) (olds : List Nat) (st : KeepState) (v : Nat)
    (hv : ∀ old ∈ olds, v ∉ keepVisit di.graph.edges oka fuel old) :
    (olds.foldl (keepOldStep di.graph.edges oka fuel) st).oldNodes.getD v
      Derivation.dummy = st.oldNodes.getD v Derivation.dummy := by
  induction olds generalizing st with
  | nil => rfl
  | cons a as ih =>
    rw [List.foldl_cons, ih _ (fun o ho => hv o (List.mem_cons_of_mem _ ho))]
    exact keepVisitFold_untouched a _ st v
      (hv a (List.mem_cons_self _ _))

theorem keep_rootNames_subset (di : DepInfos) (hwf : di.WF)
    (flt : Derivation → Bool) :
    (keep di flt).rootNames ⊆ di.rootNames ∪ {FILTERED_ROOT_NAME} := by
  intro p hp
  unfold DepInfos.rootNames at hp
  rw [List.mem_toFinset, List.mem_map] at hp
  obtain ⟨r, hrm, hrp⟩ := hp
  have hroots : (keep di flt).roots =
      (List.range (keep di flt).graph.nodes.length).filter
        (fun i => ((keep di flt).graph.node i).is_root) := rfl
  rw [hroots, List.mem_filter, List.mem_range] at hrm
  by_cases hjl : r < (keepPhase2 di flt).newNodes.length
  · obtain ⟨v, hv⟩ := (keepPhase2_inv di flt).surj r hjl
    have hm := (keepPhase2_inv di flt).nodeMatch v r hv
    have hvlt : v < di.graph.nodes.length :=
      ((keepPhase1_oldKept_mem di flt v).mp
        ((keepPhase2_inv di flt).idsDom v r hv)).1
    have hvroot : (di.graph.node v).is_root = true := by
      rw [← hm.2, ← keep_node_lt di flt r hjl]
      simpa using hrm.2
    have hvr : v ∈ di.roots := (hwf.2.2.2 v hvlt).mpr hvroot
    apply Finset.mem_union_left
    unfold DepInfos.rootNames
    rw [List.mem_toFinset, List.mem_map]
    refine ⟨v, hvr, ?_⟩
    rw [← hrp, keep_node_lt di flt r hjl, hm.1]
  · have hnodes : (keep di flt).graph.nodes =
        (if 0 < keepRemaining di flt then
          (keepPhase2 di flt).newNodes ++
            [⟨FILTERED_ROOT_NAME, keepRemaining di flt, true⟩]
        else (keepPhase2 di flt).newNodes) := rfl
    by_cases hr0 : 0 < keepRemaining di flt
    · have hlen : (keep di flt).graph.nodes.length =
          (keepPhase2 di flt).newNodes.length + 1 := by
        rw [hnodes, if_pos hr0]
        simp
      have hje : r = (keepPhase2 di flt).newNodes.length := by omega
      have hnode : (keep di flt).graph.node r =
          ⟨FILTERED_ROOT_NAME, keepRemaining di flt, true⟩ := by
        unfold DepGraph.node
        rw [hnodes, if_pos hr0, hje]
        exact getD_concat_self _ _ _
      apply Finset.mem_union_right
      rw [Finset.mem_singleton, ← hrp, hnode]
    · have hlen : (keep di flt).graph.nodes.length =
          (keepPhase2 di flt).newNodes.length := by
        rw [hnodes, if_neg hr0]
      omega

end NixDu

namespace NixDu

theorem keep_const_true_state (di : DepInfos) (hwf : di.WF) :
    (keepPhase2 di (fun _ => true)).newNodes = di.graph.nodes ∧
    (keepPhase2 di (fun _ => true)).ondemand = [] := by
  obtain ⟨h1, h2, h3, h4, h5, h6, h7, h8, h9⟩ :=
    keepP1_spec di (fun _ => true) di.graph.nodes.length le_rfl
  have hond : (keepPhase1 di (fun _ => true)).ondemand = [] := by
    rw [keepPhase1_eq_p1, h5]
    have hnil : (List.range di.graph.nodes.length).filter
        (ondB di (fun _ => true)) = [] := by
      rw [List.filter_eq_nil_iff]
      intro v _
      unfold ondB
      simp
    rw [hnil]
    rfl
  have hnn : (keepPhase1 di (fun _ => true)).newNodes =
      di.graph.nodes := by
    rw [keepPhase1_eq_p1, h6]
    have hself : (List.range di.graph.nodes.length).filter
        (keptK di (fun _ => true)) = List.range di.graph.nodes.length := by
      rw [List.filter_eq_self]
      intro v _
      unfold keptK
      rfl
    rw [hself, range_map_node]
  have hids : ∀ v, v < di.graph.nodes.length →
      lookupNat (keepPhase1 di (fun _ => true)).newIds v ≠ none := by
    intro v hv
    rw [keepPhase1_eq_p1]
    exact h8 v hv rfl
  have hstep : ∀ (st : KeepState) (old idx : Nat),
      idx < di.graph.nodes.length →
      (st.newNodes = di.graph.nodes ∧ st.ondemand = [] ∧
        ∀ v, v < di.graph.nodes.length →
          lookupNat st.newIds v ≠ none) →
      ((keepVisitStep old st idx).newNodes = di.graph.nodes ∧
        (keepVisitStep old st idx).ondemand = [] ∧
        ∀ v, v < di.graph.nodes.length →
          lookupNat (keepVisitStep old st idx).newIds v ≠ none) := by
    intro st old idx hidx hct
    rcases hc : lookupNat st.newIds idx with _ | new2
    · exact absurd hc (hct.2.2 idx hidx)
    · have hdr : lookupDrv st.ondemand old = none := by
        rw [hct.2.1]
        rfl
      rw [keepVisitStep_eqB old st idx new2 hc hdr]
      exact hct
  have hfold : ∀ (old : Nat) (l : List Nat)
      (hl : ∀ x ∈ l, x < di.graph.nodes.length) (st : KeepState),
      (st.newNodes = di.graph.nodes ∧ st.ondemand = [] ∧
        ∀ v, v < di.graph.nodes.length →
          lookupNat st.newIds v ≠ none) →
      ((l.foldl (keepVisitStep old) st).newNodes = di.graph.nodes ∧
        (l.foldl (keepVisitStep old) st).ondemand = [] ∧
        ∀ v, v < di.graph.nodes.length →
          lookupNat (l.foldl (keepVisitStep old) st).newIds v ≠ none) := by
    intro old l
    induction l with
    | nil => intro _ st h; exact h
    | cons a as ih =>
      intro hl st h
      exact ih (fun x hx => hl x (List.mem_cons_of_mem _ hx)) _
        (hstep st old a (hl a (List.mem_cons_self _ _)) h)
  have holdsf : ∀ (olds : List Nat)
      (ho : ∀ o ∈ olds, o < di.graph.nodes.length) (st : KeepState),
      (st.newNodes = di.graph.nodes ∧ st.ondemand = [] ∧
        ∀ v, v < di.graph.nodes.length →
          lookupNat st.newIds v ≠ none) →
      ((olds.foldl (keepOldStep di.graph.edges
          (keepPhase1 di (fun _ => true)).oldKept (keepFuel di))
          st).newNodes = di.graph.nodes ∧
        (olds.foldl (keepOldStep di.graph.edges
          (keepPhase1 di (fun _ => true)).oldKept (keepFuel di))
          st).ondemand = [] ∧
        ∀ v, v < di.graph.nodes.length →
          lookupNat (olds.foldl (keepOldStep di.graph.edges
            (keepPhase1 di (fun _ => true)).oldKept (keepFuel di))
            st).newIds v ≠ none) := by
    intro olds
    induction olds with
    | nil => intro _ st h; exact h
    | cons a as ih =>
      intro ho st h
      exact ih (fun o hoo => ho o (List.mem_cons_of_mem _ hoo)) _
        (hfold a _ (keepVisit_lt di hwf _ a
          (ho a (List.mem_cons_self _ _))) st h)
  have hmain := holdsf (keepPhase1 di (fun _ => true)).oldKept
    (fun o ho => ((keepPhase1_oldKept_mem di (fun _ => true) o).mp ho).1)
    (keepPhase1 di (fun _ => true)) ⟨hnn, hond, hids⟩
  exact ⟨hmain.1, hmain.2.1⟩

theorem keep_const_true_rootNames (di : DepInfos) (hwf : di.WF) :
    (keep di (fun _ => true)).rootNames = di.rootNames := by
  obtain ⟨hnn, hond⟩ := keep_const_true_state di hwf
  have hrem : keepRemaining di (fun _ => true) = 0 := by
    unfold keepRemaining
    rw [hond]
    rfl
  have hnodes : (keep di (fun _ => true)).graph.nodes = di.graph.nodes := by
    have hn2 : (keep di (fun _ => true)).graph.nodes =
        (if 0 < keepRemaining di (fun _ => true) then
          (keepPhase2 di (fun _ => true)).newNodes ++
            [⟨FILTERED_ROOT_NAME, keepRemaining di (fun _ => true), true⟩]
        else (keepPhase2 di (fun _ => true)).newNodes) := rfl
    rw [hn2, hrem]
    simpa using hnn
  have hnode : ∀ j, (keep di (fun _ => true)).graph.node j =
      di.graph.node j := by
    intro j
    unfold DepGraph.node
    rw [hnodes]
  ext p
  unfold DepInfos.rootNames
  rw [List.mem_toFinset, List.mem_toFinset, List.mem_map, List.mem_map]
  have hroots : (keep di (fun _ => true)).roots =
      (List.range (keep di (fun _ => true)).graph.nodes.length).filter
        (fun i => ((keep di (fun _ => true)).graph.node i).is_root) := rfl
  constructor
  · rintro ⟨r, hrm, hrp⟩
    rw [hroots, List.mem_filter, List.mem_range, hnodes] at hrm
    refine ⟨r, (hwf.2.2.2 r hrm.1).mpr (by simpa [hnode r] using hrm.2), ?_⟩
    rw [← hrp, hnode r]
  · rintro ⟨r, hrm, hrp⟩
    refine ⟨r, ?_, ?_⟩
    · rw [hroots, List.mem_filter, List.mem_range, hnodes]
      refine ⟨hwf.2.1 r hrm, ?_⟩
      rw [hnode r]
      simpa using (hwf.2.2.2 r (hwf.2.1 r hrm)).mp hrm
    · rw [hnode r]
      exact hrp

end NixDu

namespace NixDu

theorem keep_oldNodes_zero_of_reachable (di : DepInfos) (hwf : di.WF)
    (flt : Derivation → Bool) (v : Nat) (hv : di.RootReachable v) :
    ((keepPhase2 di flt).oldNodes.getD v Derivation.dummy).size = 0 := by
  by_cases hk : v ∈ (keepPhase1 di flt).oldKept
  · have hz : ((keepPhase1 di flt).oldNodes.getD v
        Derivation.dummy).size = 0 := by
      obtain ⟨h1, h2, h3, h4, h5, h6, h7, h8, h9⟩ :=
        keepP1_spec di flt di.graph.nodes.length le_rfl
      rw [keepPhase1_eq_p1, h2 v,
        if_pos ⟨((keepPhase1_oldKept_mem di flt v).mp hk).1,
          ((keepPhase1_oldKept_mem di flt v).mp hk).2⟩]
      rfl
    exact keepOldsFold_mono_zero di.graph.edges
      (keepPhase1 di flt).oldKept (keepFuel di) _ _ v hz
  · obtain ⟨old, hold, hvis⟩ := reachable_visited di hwf flt v hv hk
    exact keepOldsFold_zero di (keepPhase1 di flt).oldKept (keepFuel di)
      (keepPhase1 di flt).oldKept (keepPhase1 di flt) (fun _ ho => ho)
      (keepPhase1_inv di flt) old hold v hvis hk

theorem keep_const_false_state (di : DepInfos) :
    (∀ v, lookupNat (keepPhase2 di (fun _ => false)).newIds v = none) ∧
    (keepPhase2 di (fun _ => false)).newNodes = [] := by
  obtain ⟨h1, h2, h3, h4, h5, h6, h7, h8, h9⟩ :=
    keepP1_spec di (fun _ => false) di.graph.nodes.length le_rfl
  have hids : ∀ v,
      lookupNat (keepPhase1 di (fun _ => false)).newIds v = none := by
    intro v
    rw [keepPhase1_eq_p1]
    rcases hc : lookupNat
        (keepP1 di (fun _ => false) di.graph.nodes.length).newIds v
        with _ | j
    · rfl
    · have := (h7 v j hc).2.1
      exact absurd this (by unfold keptK; simp)
  have hnn : (keepPhase1 di (fun _ => false)).newNodes = [] := by
    rw [keepPhase1_eq_p1, h6]
    have hnil : (List.range di.graph.nodes.length).filter
        (keptK di (fun _ => false)) = [] := by
      rw [List.filter_eq_nil_iff]
      intro v _
      unfold keptK
      simp
    rw [hnil]
    rfl
  have hstep : ∀ (st : KeepState) (old idx : Nat),
      ((∀ v, lookupNat st.newIds v = none) ∧ st.newNodes = []) →
      ((∀ v, lookupNat (keepVisitStep old st idx).newIds v = none) ∧
        (keepVisitStep old st idx).newNodes = []) := by
    intro st old idx hcf
    rcases h2d : lookupDrv st.ondemand old with _ | w
    · rw [keepVisitStep_eqD old st idx (hcf.1 idx) h2d]
      refine ⟨hcf.1, ?_⟩
      rw [hcf.2]
      rfl
    · rw [keepVisitStep_eqC old st idx w (hcf.1 idx) h2d]
      exact hcf
  have hfold : ∀ (old : Nat) (l : List Nat) (st : KeepState),
      ((∀ v, lookupNat st.newIds v = none) ∧ st.newNodes = []) →
      ((∀ v, lookupNat (l.foldl (keepVisitStep old) st).newIds v = none) ∧
        (l.foldl (keepVisitStep old) st).newNodes = []) := by
    intro old l
    induction l with
    | nil => intro st h; exact h
    | cons a as ih => intro st h; exact ih _ (hstep st old a h)
  have holdsf : ∀ (olds : List Nat) (st : KeepState),
      ((∀ v, lookupNat st.newIds v = none) ∧ st.newNodes = []) →
      ((∀ v, lookupNat (olds.foldl (keepOldStep di.graph.edges
          (keepPhase1 di (fun _ => false)).oldKept (keepFuel di))
          st).newIds v = none) ∧
        (olds.foldl (keepOldStep di.graph.edges
          (keepPhase1 di (fun _ => false)).oldKept (keepFuel di))
          st).newNodes = []) := by
    intro olds
    induction olds with
    | nil => intro st h; exact h
    | cons a as ih => intro st h; exact ih _ (hfold a _ st h)
  exact holdsf _ _ ⟨hids, hnn⟩

theorem keep_const_false_oka (di : DepInfos) (hwf : di.WF) (v : Nat) :
    v ∈ (keepPhase1 di (fun _ => false)).oldKept ↔ v ∈ di.roots := by
  rw [keepPhase1_oldKept_mem]
  constructor
  · rintro ⟨hlt, hb⟩
    refine (hwf.2.2.2 v hlt).mpr ?_
    unfold keptB at hb
    simpa using hb
  · intro hv
    refine ⟨hwf.2.1 v hv, ?_⟩
    unfold keptB
    rw [(hwf.2.2.2 v (hwf.2.1 v hv)).mp hv]
    simp

theorem keep_const_false_remaining (di : DepInfos) (hwf : di.WF) :
    keepRemaining di (fun _ => false) = di.reachable_size := by
  have hsums := (keepPhase2_inv di (fun _ => false)).sums
  have hlen := (keepPhase2_inv di (fun _ => false)).lenOld
  obtain ⟨hids, hnn⟩ := keep_const_false_state di
  have hpt : ∀ v, v < di.graph.nodes.length →
      ((keepPhase2 di (fun _ => false)).oldNodes.getD v
        Derivation.dummy).size =
      (if di.roots.any (fun r => (bfsFrom di.graph.adj
          di.graph.nodes.length r).contains v) = true then 0
        else (di.graph.node v).size) := by
    intro v hvn
    by_cases hreach : di.RootReachable v
    · rw [if_pos ((di.any_bfs_iff hwf v).mpr hreach)]
      exact keep_oldNodes_zero_of_reachable di hwf _ v hreach
    · rw [if_neg (fun hc => hreach ((di.any_bfs_iff hwf v).mp hc))]
      have hnk : v ∉ (keepPhase1 di (fun _ => false)).oldKept := by
        rw [keep_const_false_oka di hwf]
        intro hc
        exact hreach ⟨v, hc, .refl v⟩
      have huntouched := keepOldsFold_untouched di
        (keepPhase1 di (fun _ => false)).oldKept (keepFuel di)
        (keepPhase1 di (fun _ => false)).oldKept
        (keepPhase1 di (fun _ => false)) v ?_
      · rw [show keepPhase2 di (fun _ => false) =
            ((keepPhase1 di (fun _ => false)).oldKept.foldl
              (keepOldStep di.graph.edges
                (keepPhase1 di (fun _ => false)).oldKept (keepFuel di))
              (keepPhase1 di (fun _ => false))) from rfl, huntouched]
        obtain ⟨h1, h2, h3, h4, h5, h6, h7, h8, h9⟩ :=
          keepP1_spec di (fun _ => false) di.graph.nodes.length le_rfl
        rw [keepPhase1_eq_p1, h2 v, if_neg ?_]
        intro hc
        exact hnk ((keepPhase1_oldKept_mem di (fun _ => false) v).mpr
          ⟨hc.1, hc.2⟩)
      · intro old hold hvv
        have holt : old < di.graph.nodes.length :=
          ((keepPhase1_oldKept_mem di (fun _ => false) old).mp hold).1
        have hre := ((mem_keepVisit_iff di hwf _ old holt v).mp hvv).1
        have hre2 : Reaches di.graph.adj old v := by
          unfold keepAdj at hre
          exact reaches_of_sub_edges
            (fun e he => List.mem_of_mem_filter he) hre
        exact hreach ⟨old, (keep_const_false_oka di hwf old).mp hold, hre2⟩
  have hmap : (keepPhase2 di (fun _ => false)).oldNodes.map
      (fun d => d.size) =
      (List.range di.graph.nodes.length).map
        (fun v => if di.roots.any (fun r => (bfsFrom di.graph.adj
            di.graph.nodes.length r).contains v) = true then 0
          else (di.graph.node v).size) := by
    apply List.ext_getElem
    · simp [hlen]
    · intro i hi1 hi2
      have hin : i < di.graph.nodes.length := by simpa using hi2
      rw [List.getElem_map, List.getElem_map, List.getElem_range]
      have hg : (keepPhase2 di (fun _ => false)).oldNodes[i] =
          (keepPhase2 di (fun _ => false)).oldNodes.getD i
            Derivation.dummy := by
        rw [List.getD_eq_getElem?_getD, List.getElem?_eq_getElem (by omega)]
        rfl
      rw [hg, hpt i hin]
  have hsum1 : ((keepPhase2 di (fun _ => false)).oldNodes.map
      (fun d => d.size)).sum =
      (((List.range di.graph.nodes.length).filter
        (fun v => ! (di.roots.any (fun r => (bfsFrom di.graph.adj
            di.graph.nodes.length r).contains v)))).map
          (fun v => (di.graph.node v).size)).sum := by
    rw [hmap, sum_map_ite]
  have hsplit := sum_filter_split (List.range di.graph.nodes.length)
    (fun v => di.roots.any (fun r => (bfsFrom di.graph.adj
        di.graph.nodes.length r).contains v))
    (fun v => (di.graph.node v).size)
  have hrange : ((List.range di.graph.nodes.length).map
      (fun v => (di.graph.node v).size)).sum =
      (di.graph.nodes.map (fun d => d.size)).sum := by
    rw [range_map_node_size]
  have hnnz : ((keepPhase2 di (fun _ => false)).newNodes.map
      (fun d => d.size)).sum = 0 := by
    rw [hnn]
    rfl
  unfold keepRemaining
  unfold DepInfos.reachable_size at *
  omega

end NixDu

namespace NixDu

theorem keep_const_false_rootNames (di : DepInfos) (hwf : di.WF) :
    (keep di (fun _ => false)).rootNames =
      (if 0 < di.reachable_size then
        ({FILTERED_ROOT_NAME} : Finset (List Nat)) else ∅) := by
  have hrem := keep_const_false_remaining di hwf
  obtain ⟨hids, hnn⟩ := keep_const_false_state di
  have hnodes : (keep di (fun _ => false)).graph.nodes =
      (if 0 < di.reachable_size then
        [⟨FILTERED_ROOT_NAME, di.reachable_size, true⟩] else []) := by
    have hn2 : (keep di (fun _ => false)).graph.nodes =
        (if 0 < keepRemaining di (fun _ => false) then
          (keepPhase2 di (fun _ => false)).newNodes ++
            [⟨FILTERED_ROOT_NAME, keepRemaining di (fun _ => false), true⟩]
        else (keepPhase2 di (fun _ => false)).newNodes) := rfl
    rw [hn2, hrem, hnn]
    by_cases h0 : 0 < di.reachable_size
    · rw [if_pos h0, if_pos h0]
      rfl
    · rw [if_neg h0, if_neg h0]
  have hrootseq : (keep di (fun _ => false)).roots =
      (List.range (keep di (fun _ => false)).graph.nodes.length).filter
        (fun i => ((keep di (fun _ => false)).graph.node i).is_root) := rfl
  by_cases h0 : 0 < di.reachable_size
  · rw [if_pos h0]
    have hlen : (keep di (fun _ => false)).graph.nodes.length = 1 := by
      rw [hnodes, if_pos h0]
      rfl
    have hnode0 : (keep di (fun _ => false)).graph.node 0 =
        ⟨FILTERED_ROOT_NAME, di.reachable_size, true⟩ := by
      unfold DepGraph.node
      rw [hnodes, if_pos h0]
      rfl
    have hroots : (keep di (fun _ => false)).roots = [0] := by
      rw [hrootseq, hlen]
      have hr1 : List.range 1 = [0] := rfl
      rw [hr1, List.filter_singleton, hnode0]
      rfl
    unfold DepInfos.rootNames
    rw [hroots, List.map_singleton, hnode0]
    rfl
  · rw [if_neg h0]
    have hlen : (keep di (fun _ => false)).graph.nodes.length = 0 := by
      rw [hnodes, if_neg h0]
      rfl
    have hroots : (keep di (fun _ => false)).roots = [] := by
      rw [hrootseq, hlen]
      rfl
    unfold DepInfos.rootNames
    rw [hroots]
    rfl

end NixDu

namespace NixDu

/-- C5, amended: on well-formed inputs the Filter's output root-name set
is contained in the input's root names plus the synthetic aggregate's
name; it equals the input's when the predicate is constantly true; with
the constantly-false predicate it is the singleton aggregate exactly when
the input's reachable (not total) size is positive, and empty otherwise;
and the aggregate node is appended, carrying the left-over size, exactly
when that folded-in size is nonzero (the original statements are refuted
by `claim_C5_keep_roots_counterexample`). -/
theorem claim_C5_keep_roots (di : DepInfos) (hwf : di.WF)
    (flt : Derivation → Bool) :
    ((keep di flt).rootNames ⊆ di.rootNames ∪ {FILTERED_ROOT_NAME}) ∧
    ((keep di (fun _ => true)).rootNames = di.rootNames) ∧
    ((keep di (fun _ => false)).rootNames =
      (if 0 < di.reachable_size then
        ({FILTERED_ROOT_NAME} : Finset (List Nat)) else ∅)) ∧
    ((keep di flt).graph.nodes.length =
      (keepPhase2 di flt).newNodes.length +
        (if 0 < keepRemaining di flt then 1 else 0)) ∧
    (0 < keepRemaining di flt →
      (keep di flt).graph.node (keepPhase2 di flt).newNodes.length =
        ⟨FILTERED_ROOT_NAME, keepRemaining di flt, true⟩) := by
  have hnodes : (keep di flt).graph.nodes =
      (if 0 < keepRemaining di flt then
        (keepPhase2 di flt).newNodes ++
          [⟨FILTERED_ROOT_NAME, keepRemaining di flt, true⟩]
      else (keepPhase2 di flt).newNodes) := rfl
  refine ⟨keep_rootNames_subset di hwf flt,
    keep_const_true_rootNames di hwf,
    keep_const_false_rootNames di hwf, ?_, ?_⟩
  · rw [hnodes]
    by_cases hr : 0 < keepRemaining di flt
    · rw [if_pos hr, if_pos hr]
      simp
    · rw [if_neg hr, if_neg hr]
      omega
  · intro hr
    unfold DepGraph.node
    rw [hnodes, if_pos hr]
    exact getD_concat_self _ _ _

theorem claim_C5_keep_roots_witness :
    diR.WF ∧ (keep diR (fun d => d.is_root)).rootNames ⊆
      diR.rootNames ∪ {FILTERED_ROOT_NAME} :=
  ⟨by decide,
   (claim_C5_keep_roots diR (by decide) (fun d => d.is_root)).1⟩

end NixDu
